import Mathlib

/-!
# Verification of `decoder.c`

A shallow embedding of the bit reader (`readBits`), the width helper (`bits`)
and the grammar decoder (`DecodeCFG`) of `src/decoder.c`, followed by the
theorems that settle the claims of the specification.

Conventions of the embedding

* `uint` values are natural numbers; every operation that can wrap carries an
  explicit `% 2 ^ 32`.
* `CODE` (`int`) values are integers.
* `exit(1)` and every access outside an allocated block end the run with a
  `Fault`; the run then has no result state.
* The arrays `rule` and `stack` are maps from index to value together with the
  capacity `max_rules` they were allocated with; an access at an index that is
  not below the capacity is a fault.
-/

namespace Decoder

/-! ## Constants and data -/

/-- The macro `CHAR_SIZE`. -/
def CHAR_SIZE : Nat := 256

/-- The macro `DUMMY_CODE`. -/
def DUMMY_CODE : Int := -1

/-- The macro `OP`. -/
def OP : Nat := 1

/-- The modulus of `unsigned int` arithmetic. -/
def UINT_MOD : Nat := 2 ^ 32

/-- The struct `RULE`. -/
structure RULE where
  left : Int
  right : Int
deriving DecidableEq, Repr

/-- The ways in which a run of the decoder ends without a result.
`unexpectedEndOfFile` and `exceededRuleArray` are the two `exit(1)` paths of
the source; the others are accesses the C program performs outside the memory
it allocated, and `outOfFuel` is the bound of the embedding of `while (1)`
(shown below never to be reached). -/
inductive Fault where
  /-- "Unexpected end of file." in `readBits`. -/
  | unexpectedEndOfFile
  /-- "Exceeded rule array size. Aborting." in `DecodeCFG`. -/
  | exceededRuleArray
  /-- The initialisation loops write `rule[i]` with `i` not below `max_rules`. -/
  | ruleInitOutOfBounds
  /-- The access `stack[--sp]` or `stack[sp - 1]` with `sp = 0`: the index wraps to `2^32 - 1`. -/
  | stackUnderflow
  /-- The access `stack[sp]` with `sp` not below the capacity of the stack. -/
  | stackOverflow
  /-- The increment `newcode++` left the range of `int`: `rule[newcode]` is outside the table. -/
  | counterOverflow
  /-- The iteration bound of the embedding of `while (1)` was reached. -/
  | outOfFuel
deriving DecidableEq, Repr

deriving instance DecidableEq for Except

/-! ## The bit reader -/

/-- The struct `BITIN`. `file` is the part of the stream that `fgetc` has not
yet returned, one number per byte (the reader looks only at bits 7 to 0 of
each). `currentByte` is a byte value whenever execution continues (the value
`EOF` is stored only on the path that exits), and `bitsRemaining` never goes
below zero, so both are natural numbers. -/
structure BITIN where
  file : List Nat
  currentByte : Nat
  bitsRemaining : Nat
deriving DecidableEq, Repr

/-- The function `createBitin`. -/
def createBitin (file : List Nat) : BITIN :=
  { file := file, currentByte := 0, bitsRemaining := 0 }

/-- The conversion of a 32-bit pattern to the `int` it represents. -/
def toInt32 (r : Nat) : Int :=
  if r % UINT_MOD < 2 ^ 31 then ((r % UINT_MOD : Nat) : Int)
  else ((r % UINT_MOD : Nat) : Int) - (UINT_MOD : Int)

/-- One iteration of the loop of `readBits` (lines 34-43): refill the buffered
byte when it is exhausted, take its next bit, and shift the bit into `result`.
`result` is the 32-bit pattern of the `int` accumulator. -/
def readBitsBody (bitin : BITIN) (result : Nat) : Except Fault (Nat × BITIN) :=
  if bitin.bitsRemaining = 0 then
    match bitin.file with
    | [] => .error .unexpectedEndOfFile
    | c :: rest =>
      .ok ((result <<< 1) % UINT_MOD ||| ((c >>> 7) &&& 1),
           { file := rest, currentByte := c, bitsRemaining := 7 })
  else
    let r := bitin.bitsRemaining - 1
    .ok ((result <<< 1) % UINT_MOD ||| ((bitin.currentByte >>> r) &&& 1),
         { bitin with bitsRemaining := r })

/-- The loop `for (i = 0; i < n; i++)` of `readBits`, `k` iterations left. -/
def readBitsLoop : Nat → BITIN → Nat → Except Fault (Nat × BITIN)
  | 0, bitin, result => .ok (result, bitin)
  | k + 1, bitin, result =>
    match readBitsBody bitin result with
    | .error e => .error e
    | .ok (result', bitin') => readBitsLoop k bitin' result'

/-- The function `readBits`. A negative `n` runs no iteration. -/
def readBits (bitin : BITIN) (n : Int) : Except Fault (Int × BITIN) :=
  match readBitsLoop n.toNat bitin 0 with
  | .error e => .error e
  | .ok (result, bitin') => .ok (toInt32 result, bitin')

/-! ## The width helper -/

/-- The loop `while (n) { b++; n >>= 1; }` of `bits`. -/
def bitsLoop : Nat → Nat → Nat → Nat
  | 0, _, b => b
  | fuel + 1, n, b => if n = 0 then b else bitsLoop fuel (n >>> 1) ((b + 1) % UINT_MOD)

/-- The function `bits`. The loop halves `n`, so `n` iterations always suffice. -/
def bits (n : Nat) : Nat := bitsLoop n n 0

/-! ## The grammar decoder -/

/-- The capacity `max_rules = num_rules + 1024` of line 75, in `uint` arithmetic. -/
def maxRules (num_rules : Nat) : Nat := (num_rules + 1024) % UINT_MOD

/-- The store `a[i] = v` on an array held as a map. -/
def store {α : Type} (a : Nat → α) (i : Nat) (v : α) : Nat → α :=
  fun j => if j = i then v else a j

/-- The local variables of `DecodeCFG` that the decode loop reads and writes.
`rule` and `stack` are the two arrays, of capacity `max_rules` each; `sp` and
`exc` are `uint`. `newcode` is a `CODE` that starts at 256 and only grows, and
the iteration in which it would leave the range of `int` ends the run (see
`closeBranch`), so it is held as a natural number. -/
structure DecState where
  bitin : BITIN
  rule : Nat → RULE
  stack : Nat → Int
  sp : Nat
  exc : Nat
  newcode : Nat

/-- The store `rule[i] = r` of the initialisation loops, checked against the capacity. -/
def initRule (max_rules : Nat) (rule : Nat → RULE) (i : Nat) (r : RULE) :
    Except Fault (Nat → RULE) :=
  if i < max_rules then .ok (store rule i r) else .error .ruleInitOutOfBounds

/-- The first initialisation loop (lines 81-84), over `i = 0 .. CHAR_SIZE`. -/
def initTerminals (max_rules : Nat) (rule : Nat → RULE) : Except Fault (Nat → RULE) :=
  (List.range (CHAR_SIZE + 1)).foldlM
    (fun rule i => initRule max_rules rule i { left := (i : Int), right := DUMMY_CODE }) rule

/-- The second initialisation loop (lines 85-88), over `CHAR_SIZE + 1 <= i < max_rules`. -/
def initNonterminals (max_rules : Nat) (rule : Nat → RULE) : Except Fault (Nat → RULE) :=
  (List.range' (CHAR_SIZE + 1) (max_rules - (CHAR_SIZE + 1))).foldlM
    (fun rule i => initRule max_rules rule i { left := DUMMY_CODE, right := DUMMY_CODE }) rule

/-- Lines 75-93: the zeroed table and stack of `calloc`, the two initialisation
loops, the fresh bit reader and `newcode = CHAR_SIZE`. -/
def initState (max_rules : Nat) (file : List Nat) : Except Fault DecState :=
  match initTerminals max_rules (fun _ => { left := 0, right := 0 }) with
  | .error e => .error e
  | .ok rule1 =>
    match initNonterminals max_rules rule1 with
    | .error e => .error e
    | .ok rule2 =>
      .ok { bitin := createBitin file, rule := rule2, stack := fun _ => 0,
            sp := 0, exc := 0, newcode := CHAR_SIZE }

/-- The push `stack[sp++] = v`. -/
def push (max_rules : Nat) (stack : Nat → Int) (sp : Nat) (v : Int) :
    Except Fault ((Nat → Int) × Nat) :=
  if sp < max_rules then .ok (store stack sp v, (sp + 1) % UINT_MOD)
  else .error .stackOverflow

/-- The pop `stack[--sp]`. With `sp = 0` the decrement wraps to `2^32 - 1`, an
index beyond every capacity; otherwise it yields `sp - 1`. -/
def pop (max_rules : Nat) (stack : Nat → Int) (sp : Nat) : Except Fault (Int × Nat) :=
  if sp = 0 then .error .stackUnderflow
  else if sp - 1 < max_rules then .ok (stack (sp - 1), sp - 1)
  else .error .stackOverflow

/-- The read `stack[sp - 1]` of line 118, the index computed as for `pop`. -/
def top (max_rules : Nat) (stack : Nat → Int) (sp : Nat) : Except Fault Int :=
  if sp = 0 then .error .stackUnderflow
  else if sp - 1 < max_rules then .ok (stack (sp - 1))
  else .error .stackOverflow

/-- How one iteration of `while (1)` ended: after the push of a leaf, after the
reduction that records a new rule, or by the `break`. -/
inductive Step where
  | pushed (s : DecState)
  | reduced (s : DecState)
  | closed (s : DecState)

/-- The open branch (lines 101-104). `bitin` is the reader after the parenthesis bit. -/
def openBranch (max_rules : Nat) (s : DecState) (bitin : BITIN) : Except Fault Step :=
  let exc := (s.exc + 1) % UINT_MOD
  let bitlen := bits s.newcode
  match readBits bitin (bitlen : Int) with
  | .error e => .error e
  | .ok (leaf, bitin') =>
    match push max_rules s.stack s.sp leaf with
    | .error e => .error e
    | .ok (stack, sp) =>
      .ok (.pushed { s with bitin := bitin', exc := exc, stack := stack, sp := sp })

/-- The close branch (lines 106-115). `bitin` is the reader after the parenthesis bit.
After `newcode++` the comparison with `max_rules` is made on the `uint` value of
the counter; a counter that passed `INT_MAX` and is still below `max_rules`
indexes outside the table, at the store `rule[newcode].right = ...`, which
follows the read `stack[--sp]` of its right-hand side. -/
def closeBranch (max_rules : Nat) (s : DecState) (bitin : BITIN) : Except Fault Step :=
  let exc := (s.exc + UINT_MOD - 1) % UINT_MOD
  if exc = 0 then .ok (.closed { s with bitin := bitin, exc := exc })
  else
    let newcode := s.newcode + 1
    if newcode ≥ max_rules then .error .exceededRuleArray
    else
      match pop max_rules s.stack s.sp with
      | .error e => .error e
      | .ok (right, sp1) =>
        if newcode ≥ 2 ^ 31 then .error .counterOverflow
        else
          match pop max_rules s.stack sp1 with
          | .error e => .error e
          | .ok (left, sp2) =>
            match push max_rules s.stack sp2 (newcode : Int) with
            | .error e => .error e
            | .ok (stack, sp3) =>
              .ok (.reduced { bitin := bitin, exc := exc, newcode := newcode,
                              rule := store s.rule newcode { left := left, right := right },
                              stack := stack, sp := sp3 })

/-- One iteration of `while (1)` (lines 99-116). -/
def whileBody (max_rules : Nat) (s : DecState) : Except Fault Step :=
  match readBits s.bitin 1 with
  | .error e => .error e
  | .ok (v, bitin) =>
    let paren : Bool := decide (v ≠ 0)
    if paren.toNat = OP then openBranch max_rules s bitin
    else closeBranch max_rules s bitin

/-- The loop `while (1)` with an iteration bound. -/
def whileLoop (max_rules : Nat) : Nat → DecState → Except Fault DecState
  | 0, _ => .error .outOfFuel
  | fuel + 1, s =>
    match whileBody max_rules s with
    | .error e => .error e
    | .ok (.closed s') => .ok s'
    | .ok (.pushed s') => whileLoop max_rules fuel s'
    | .ok (.reduced s') => whileLoop max_rules fuel s'

/-- The number of bits the reader can still deliver. -/
def unread (bitin : BITIN) : Nat := bitin.bitsRemaining + 8 * bitin.file.length

/-- The body of the element loop (lines 96-118): one element, returning its root.
Every iteration of `while (1)` reads a bit, so one more iteration than there are
unread bits is never needed. -/
def decodeElement (max_rules : Nat) (s : DecState) : Except Fault (Int × DecState) :=
  match whileLoop max_rules (unread s.bitin + 1) { s with exc := 0, sp := 0 } with
  | .error e => .error e
  | .ok s' =>
    match top max_rules s'.stack s'.sp with
    | .error e => .error e
    | .ok root => .ok (root, s')

/-- The loop `for (i = 0; i < seq_len; i++)` (lines 95-119), `k` elements left;
the roots are the entries of `compressed_seq` in index order. -/
def decodeSeq (max_rules : Nat) : Nat → DecState → Except Fault (List Int × DecState)
  | 0, s => .ok ([], s)
  | k + 1, s =>
    match decodeElement max_rules s with
    | .error e => .error e
    | .ok (root, s') =>
      match decodeSeq max_rules k s' with
      | .error e => .error e
      | .ok (roots, s'') => .ok (root :: roots, s'')

/-- The result of lines 75-119. -/
structure Decoded where
  state : DecState
  compressed_seq : List Int

/-- Lines 75-119 of `DecodeCFG`: initialisation and the decoding of `seq_len` elements. -/
def decode (num_rules seq_len : Nat) (file : List Nat) : Except Fault Decoded :=
  match initState (maxRules num_rules) file with
  | .error e => .error e
  | .ok s =>
    match decodeSeq (maxRules num_rules) seq_len s with
    | .error e => .error e
    | .ok (roots, s') => .ok { state := s', compressed_seq := roots }

/-! ## The output stage -/

/-- The conversion `%d` of `fprintf`. -/
def fmtD (i : Int) : String :=
  if i < 0 then "-" ++ Nat.repr i.natAbs else Nat.repr i.toNat

/-- The line `R%d:%d,%d\n` of line 122; the `uint` index `i` is printed as an `int`. -/
def ruleLine (i : Nat) (r : RULE) : String :=
  "R" ++ fmtD (toInt32 i) ++ ":" ++ fmtD r.left ++ "," ++ fmtD r.right ++ "\n"

/-- The identifiers visited by `for (i = CHAR_SIZE + 1; i <= newcode; i++)`. -/
def ruleIds (newcode : Nat) : List Nat :=
  List.range' (CHAR_SIZE + 1) (newcode + 1 - (CHAR_SIZE + 1))

/-- The rule lines written by lines 121-123. -/
def ruleLines (rule : Nat → RULE) (newcode : Nat) : List String :=
  (ruleIds newcode).map (fun i => ruleLine i (rule i))

/-- What one iteration of the loop of lines 126-129 writes. -/
def seqItem (seq_len : Nat) (compressed_seq : List Int) (i : Nat) : String :=
  fmtD (compressed_seq.getD i 0) ++
    (if i ≠ (seq_len + UINT_MOD - 1) % UINT_MOD then "," else "")

/-- The line written by lines 125-130. -/
def seqLine (seq_len : Nat) (compressed_seq : List Int) : String :=
  "SEQ:" ++ String.join ((List.range seq_len).map (seqItem seq_len compressed_seq)) ++ "\n"

/-- The text written to `output` by lines 121-130. -/
def writeOutput (seq_len : Nat) (d : Decoded) : String :=
  String.join (ruleLines d.state.rule d.state.newcode) ++ seqLine seq_len d.compressed_seq

/-- The function `DecodeCFG` on the header values `num_rules` and `seq_len`
(`txt_len` is only printed), the bytes `file` that follow the header, and the
text `output` already in the output stream: the way the run ends and the text
in the output stream at that point. The progress messages on the standard
output are not part of the embedding. -/
def DecodeCFG (num_rules seq_len : Nat) (file : List Nat) (output : String) :
    Except Fault Unit × String :=
  match decode num_rules seq_len file with
  | .error e => (.error e, output)
  | .ok d => (.ok (), output ++ writeOutput seq_len d)

/-! ## The bit stream seen by the reader -/

/-- The `r` low-order bits of `c`, from bit `r - 1` down to bit 0. -/
def lowBits (c : Nat) : Nat → List Nat
  | 0 => []
  | r + 1 => (c / 2 ^ r % 2) :: lowBits c r

/-- The bits the reader has not yet delivered, in the order of delivery: the
unread bits of the buffered byte, then every byte of the stream from bit 7
down to bit 0. -/
def unreadBits (bitin : BITIN) : List Nat :=
  lowBits bitin.currentByte bitin.bitsRemaining ++ bitin.file.flatMap (fun c => lowBits c 8)

/-- The number whose binary digits, most significant first, are `l`. -/
def valMSB (l : List Nat) : Nat := l.foldl (fun a x => 2 * a + x) 0

/-- The accumulator of `readBits` after the bits `l`, started at `acc`. -/
def shiftAll (acc : Nat) (l : List Nat) : Nat :=
  l.foldl (fun a x => (2 * a + x) % UINT_MOD) acc

/-! ## Traces of a run -/

/-- The state in which an iteration of `while (1)` ended. -/
def Step.state : Step → DecState
  | .pushed s => s
  | .reduced s => s
  | .closed s => s

/-- Whether an iteration recorded a new rule. -/
def Step.isReduced : Step → Bool
  | .reduced _ => true
  | _ => false

/-- The iterations of `while (1)` that `whileLoop` performs from `s`, each as
the state it started from and the way it ended. -/
def whileTrace (max_rules : Nat) : Nat → DecState → List (DecState × Step)
  | 0, _ => []
  | fuel + 1, s =>
    match whileBody max_rules s with
    | .error _ => []
    | .ok (.closed s') => [(s, .closed s')]
    | .ok (.pushed s') => (s, .pushed s') :: whileTrace max_rules fuel s'
    | .ok (.reduced s') => (s, .reduced s') :: whileTrace max_rules fuel s'

/-- The iterations that `decodeElement` performs from `s`. -/
def elementTrace (max_rules : Nat) (s : DecState) : List (DecState × Step) :=
  whileTrace max_rules (unread s.bitin + 1) { s with exc := 0, sp := 0 }

/-- The iterations that `decodeSeq` performs from `s`, over all its elements. -/
def seqTrace (max_rules : Nat) : Nat → DecState → List (DecState × Step)
  | 0, _ => []
  | k + 1, s =>
    match decodeElement max_rules s with
    | .error _ => elementTrace max_rules s
    | .ok (_, s') => elementTrace max_rules s ++ seqTrace max_rules k s'

/-- The iterations of `while (1)` of a whole run of `decode`, in order. -/
def decodeTrace (num_rules seq_len : Nat) (file : List Nat) : List (DecState × Step) :=
  match initState (maxRules num_rules) file with
  | .error _ => []
  | .ok s => seqTrace (maxRules num_rules) seq_len s

/-- The number of iterations in a trace that recorded a new rule. -/
def countReduced (tr : List (DecState × Step)) : Nat :=
  tr.countP (fun e => e.2.isReduced)

/-- The states the iterations of a trace start from carry the counter `c`
advanced by one for every earlier iteration that recorded a rule. -/
inductive CounterTracks : Nat → List (DecState × Step) → Prop where
  | nil (c : Nat) : CounterTracks c []
  | cons (c : Nat) (s : DecState) (st : Step) (tr : List (DecState × Step)) :
      s.newcode = c → CounterTracks (c + (if st.isReduced then 1 else 0)) tr →
      CounterTracks c ((s, st) :: tr)

/-- The roots a trace hands to `compressed_seq`: the top of the stack at every
iteration that ended by the `break`. -/
def closedRoots (tr : List (DecState × Step)) : List Int :=
  tr.filterMap (fun e =>
    match e.2 with
    | .closed s' => some (s'.stack (s'.sp - 1))
    | _ => none)

/-! ## Variations of a state, used to compare runs -/

/-- The reader `bitin` with the bytes `more` appended to its stream. -/
def extendFile (bitin : BITIN) (more : List Nat) : BITIN :=
  { bitin with file := bitin.file ++ more }

/-- The state `s` with the bytes `more` appended to the stream of its reader. -/
def DecState.extendFile (s : DecState) (more : List Nat) : DecState :=
  { s with bitin := Decoder.extendFile s.bitin more }

/-- The outcome `st` with the bytes `more` appended to the stream of its reader. -/
def Step.extendFile : Step → List Nat → Step
  | .pushed s, more => .pushed (s.extendFile more)
  | .reduced s, more => .reduced (s.extendFile more)
  | .closed s, more => .closed (s.extendFile more)

/-- The table after the two initialisation loops. -/
def initTable (m : Nat) : Nat → RULE :=
  fun j =>
    if j ∈ List.range' (CHAR_SIZE + 1) (m - (CHAR_SIZE + 1)) then
      { left := DUMMY_CODE, right := DUMMY_CODE }
    else if j ∈ List.range (CHAR_SIZE + 1) then { left := (j : Int), right := DUMMY_CODE }
    else { left := 0, right := 0 }

/-- The state `s` with the table `R` in place of its own. -/
def DecState.withRule (s : DecState) (R : Nat → RULE) : DecState := { s with rule := R }

/-- The outcome `st` with the table `R` in place of its own. -/
def Step.withRule : Step → (Nat → RULE) → Step
  | .pushed s, R => .pushed (s.withRule R)
  | .reduced s, R => .reduced (s.withRule R)
  | .closed s, R => .closed (s.withRule R)

/-- Two tables hold the same rules at the identifiers `257 .. nc`. -/
def TablesAgree (nc : Nat) (R R' : Nat → RULE) : Prop :=
  ∀ j, CHAR_SIZE < j → j ≤ nc → R' j = R j

/-- The state before the first element with every slot of the table zero: the
reference state from which concrete runs are evaluated. -/
def refState (file : List Nat) : DecState :=
  { bitin := createBitin file, rule := fun _ => { left := 0, right := 0 },
    stack := fun _ => 0, sp := 0, exc := 0, newcode := CHAR_SIZE }

/-- The text a run from the reference state writes when the table has
capacity `m0`, if the run succeeds. -/
def referenceText (m0 seq_len : Nat) (file : List Nat) : Option String :=
  match decodeSeq m0 seq_len (refState file) with
  | .ok (roots, s') => some (String.join (ruleLines s'.rule s'.newcode) ++ seqLine seq_len roots)
  | .error _ => none

/-- Whether an iteration pushed a leaf reference. -/
def Step.isPushed : Step → Bool
  | .pushed _ => true
  | _ => false

/-- Whether an iteration ended its element by the `break`. -/
def Step.isClosed : Step → Bool
  | .closed _ => true
  | _ => false

/-- The number of iterations in a trace that read an open bit and pushed a leaf. -/
def countPushed (tr : List (DecState × Step)) : Nat :=
  tr.countP (fun e => e.2.isPushed)

/-- The number of iterations in a trace that ended an element. -/
def countClosed (tr : List (DecState × Step)) : Nat :=
  tr.countP (fun e => e.2.isClosed)

/-- What an iteration must establish: `P` at the next head of the loop when the
loop goes on, `Q` when it leaves the loop. -/
def StepInv (P Q : DecState → Prop) : Step → Prop
  | .pushed s => P s
  | .reduced s => P s
  | .closed s => Q s

/-- At the head of `while (1)`: the open-group counter equals the stack depth,
which is within the capacity. -/
def Balanced (max_rules : Nat) (s : DecState) : Prop :=
  s.exc = s.sp ∧ s.sp ≤ max_rules

/-- The elements that `decodeSeq` completes from `s`, in order, each as the
state it started from, its root, and the state it ended in. -/
def seqElements (max_rules : Nat) : Nat → DecState → List (DecState × Int × DecState)
  | 0, _ => []
  | k + 1, s =>
    match decodeElement max_rules s with
    | .error _ => []
    | .ok (root, s') => (s, root, s') :: seqElements max_rules k s'

/-- The elements that a whole run of `decode` completes. -/
def decodeElements (num_rules seq_len : Nat) (file : List Nat) :
    List (DecState × Int × DecState) :=
  match initState (maxRules num_rules) file with
  | .error _ => []
  | .ok s => seqElements (maxRules num_rules) seq_len s

/-- The invariant of an element decode that started at counter `c0`: depth and
counter agree, the counter has not gone back, an empty stack means no rule was
recorded yet, and a stack of one entry after a rule was recorded holds the
counter. -/
def RootInv (max_rules c0 : Nat) (s : DecState) : Prop :=
  Balanced max_rules s ∧ c0 ≤ s.newcode ∧ (s.sp = 0 → s.newcode = c0) ∧
    (s.sp = 1 → c0 < s.newcode → s.stack 0 = (s.newcode : Int))

/-- What `RootInv` gives when the loop is left. -/
def RootPost (c0 : Nat) (s : DecState) : Prop :=
  s.sp = 1 ∧ c0 ≤ s.newcode ∧ (c0 < s.newcode → s.stack 0 = (s.newcode : Int))

/-- A child that a straight-line grammar allows for a rule, `c` being the last
identifier defined before it: a terminal `0..255` or an identifier `257..c`. -/
def GoodChild (c : Nat) (v : Int) : Prop :=
  (0 ≤ v ∧ v ≤ 255) ∨ (257 ≤ v ∧ v ≤ (c : Int))

instance GoodChild.decidable (c : Nat) (v : Int) : Decidable (GoodChild c v) := by
  unfold GoodChild; infer_instance

/-- Whether the leaf an iteration pushed, if it pushed one, is a terminal or an
identifier already recorded when it was read. -/
def leafOk (e : DecState × Step) : Bool :=
  match e.2 with
  | .pushed s' => decide (GoodChild e.1.newcode (s'.stack e.1.sp))
  | _ => true

/-- The invariant of a run all of whose leaves are `leafOk`: the counter is at
least 256, the entries of the stack are allowed children at the current counter,
and every rule recorded so far has allowed children. -/
def GrammarInv (max_rules : Nat) (s : DecState) : Prop :=
  Balanced max_rules s ∧ 256 ≤ s.newcode ∧
    (∀ j, j < s.sp → GoodChild s.newcode (s.stack j)) ∧
    (∀ r, 257 ≤ r → r ≤ s.newcode →
      GoodChild (r - 1) (s.rule r).left ∧ GoodChild (r - 1) (s.rule r).right)

/-- The rules recorded in `s` have allowed children. -/
def StraightLine (s : DecState) : Prop :=
  256 ≤ s.newcode ∧ s.sp ≤ 1 ∧
    (∀ r, 257 ≤ r → r ≤ s.newcode →
      GoodChild (r - 1) (s.rule r).left ∧ GoodChild (r - 1) (s.rule r).right)

/-! ## Sample states and streams -/

/-- A state at the head of `while (1)` used to instantiate the theorems: two
leaves 97 and 98 on the stack, two groups open, the counter at `newcode`. -/
def sampleStateAt (file : List Nat) (newcode : Nat) : DecState :=
  { bitin := createBitin file
    rule := fun _ => { left := DUMMY_CODE, right := DUMMY_CODE }
    stack := store (store (fun _ => 0) 0 97) 1 98
    sp := 2, exc := 2, newcode := newcode }

/-- The state `sampleStateAt` before any rule is recorded. -/
def sampleState (file : List Nat) : DecState := sampleStateAt file CHAR_SIZE

/-- The bits of one element `open leaf 97, open leaf 98, close, close` with the
leaves written on `w` bits. -/
def pairElement (w : Nat) : List Nat :=
  [1] ++ lowBits 97 w ++ [1] ++ lowBits 98 w ++ [0, 0]

/-- The bits of one element `open leaf v, close` with the leaf written on `w` bits. -/
def leafElement (v w : Nat) : List Nat :=
  [1] ++ lowBits v w ++ [0]

/-! ## Lemmas on the bit reader -/

theorem lowBits_length (c r : Nat) : (lowBits c r).length = r := by
  induction r with
  | zero => rfl
  | succ r ih => simp [lowBits, ih]

theorem lowBits_le_one (c r x : Nat) (h : x ∈ lowBits c r) : x ≤ 1 := by
  induction r with
  | zero => simp [lowBits] at h
  | succ r ih =>
    simp only [lowBits, List.mem_cons] at h
    rcases h with h | h
    · omega
    · exact ih h

theorem unreadBits_length (bitin : BITIN) : (unreadBits bitin).length = unread bitin := by
  obtain ⟨file, cb, br⟩ := bitin
  simp only [unreadBits, unread, List.length_append, lowBits_length]
  congr 1
  induction file with
  | nil => rfl
  | cons c rest ih => simp [List.flatMap_cons, lowBits_length, ih]; omega

theorem unreadBits_le_one (bitin : BITIN) (x : Nat) (h : x ∈ unreadBits bitin) : x ≤ 1 := by
  simp only [unreadBits, List.mem_append, List.mem_flatMap] at h
  rcases h with h | ⟨c, _, h⟩
  · exact lowBits_le_one _ _ _ h
  · exact lowBits_le_one _ _ _ h

theorem shiftIn_eq (r c k : Nat) :
    (r <<< 1) % UINT_MOD ||| ((c >>> k) &&& 1) = (2 * r + c / 2 ^ k % 2) % UINT_MOD := by
  rw [Nat.shiftLeft_eq, Nat.shiftRight_eq_div_pow, Nat.and_one_is_mod]
  have h : r * 2 ^ 1 % UINT_MOD = 2 ^ 1 * (r % 2 ^ 31) := by
    simp only [UINT_MOD]; omega
  rw [h, ← Nat.mul_add_lt_is_or (by omega)]
  simp only [UINT_MOD]; omega

theorem readBitsBody_nil (bitin : BITIN) (acc : Nat) (h : unreadBits bitin = []) :
    readBitsBody bitin acc = .error .unexpectedEndOfFile := by
  obtain ⟨file, cb, br⟩ := bitin
  cases br with
  | succ r => simp [unreadBits, lowBits] at h
  | zero =>
    cases file with
    | nil => simp [readBitsBody]
    | cons c rest => simp [unreadBits, lowBits, List.flatMap_cons] at h

theorem readBitsBody_cons (bitin : BITIN) (acc x : Nat) (xs : List Nat)
    (h : unreadBits bitin = x :: xs) :
    ∃ b', readBitsBody bitin acc = .ok ((2 * acc + x) % UINT_MOD, b') ∧ unreadBits b' = xs ∧
      b'.file = (if bitin.bitsRemaining = 0 then bitin.file.tail else bitin.file) ∧
      b'.bitsRemaining = (if bitin.bitsRemaining = 0 then 7 else bitin.bitsRemaining - 1) := by
  obtain ⟨file, cb, br⟩ := bitin
  cases br with
  | succ r =>
    simp only [unreadBits, lowBits, List.cons_append, List.cons.injEq] at h
    refine ⟨⟨file, cb, r⟩, ?_, h.2, by simp, by simp⟩
    simp only [readBitsBody, shiftIn_eq, ← h.1]
    simp
  | zero =>
    cases file with
    | nil => simp [unreadBits, lowBits] at h
    | cons c rest =>
      simp only [unreadBits, lowBits, List.flatMap_cons, List.nil_append, List.cons_append,
        List.cons.injEq] at h
      refine ⟨⟨rest, c, 7⟩, ?_, ?_, by simp, by simp⟩
      · simp only [readBitsBody, shiftIn_eq, ← h.1]
        simp
      · simp only [unreadBits, lowBits, List.cons_append, List.nil_append, ← h.2]

theorem readBitsLoop_ok (k : Nat) : ∀ (bitin : BITIN) (acc : Nat), k ≤ unread bitin →
    ∃ b', readBitsLoop k bitin acc = .ok (shiftAll acc ((unreadBits bitin).take k), b') ∧
      unreadBits b' = (unreadBits bitin).drop k ∧
      b'.file = bitin.file.drop ((k - bitin.bitsRemaining + 7) / 8) := by
  induction k with
  | zero =>
    intro bitin acc _
    exact ⟨bitin, by simp [readBitsLoop, shiftAll], by simp, by
      have : (0 - bitin.bitsRemaining + 7) / 8 = 0 := by omega
      simp [this]⟩
  | succ k ih =>
    intro bitin acc hk
    rw [← unreadBits_length] at hk
    cases hu : unreadBits bitin with
    | nil => simp [hu] at hk
    | cons x xs =>
      obtain ⟨b1, h1, h2, h3, h4⟩ := readBitsBody_cons bitin acc x xs hu
      have hk' : k ≤ unread b1 := by
        rw [← unreadBits_length, h2]; simp [hu] at hk; exact hk
      obtain ⟨b', h5, h6, h7⟩ := ih b1 ((2 * acc + x) % UINT_MOD) hk'
      refine ⟨b', ?_, ?_, ?_⟩
      · simp only [readBitsLoop, h1, h5, h2, List.take_succ_cons, shiftAll, List.foldl_cons]
      · simp [h6, h2]
      · rw [h7, h3, h4]
        by_cases hz : bitin.bitsRemaining = 0
        · simp only [hz, if_true]
          have e : (k + 1 - 0 + 7) / 8 = (k - 7 + 7) / 8 + 1 := by omega
          rw [e, List.drop_tail]
        · simp only [hz, if_false]
          congr 2; omega

theorem readBitsLoop_eof (k : Nat) : ∀ (bitin : BITIN) (acc : Nat), unread bitin < k →
    readBitsLoop k bitin acc = .error .unexpectedEndOfFile := by
  induction k with
  | zero => intro bitin acc h; omega
  | succ k ih =>
    intro bitin acc hk
    rw [← unreadBits_length] at hk
    cases hu : unreadBits bitin with
    | nil => simp [readBitsLoop, readBitsBody_nil bitin acc hu]
    | cons x xs =>
      obtain ⟨b1, h1, h2, -⟩ := readBitsBody_cons bitin acc x xs hu
      have hk' : unread b1 < k := by
        rw [← unreadBits_length, h2]; simp [hu] at hk; exact hk
      simp only [readBitsLoop, h1, ih b1 _ hk']

theorem shiftAll_congr (l : List Nat) : ∀ a b : Nat, a % UINT_MOD = b % UINT_MOD →
    shiftAll a l % UINT_MOD = l.foldl (fun a x => 2 * a + x) b % UINT_MOD := by
  induction l with
  | nil => intro a b h; simpa [shiftAll] using h
  | cons x xs ih =>
    intro a b h
    simp only [shiftAll, List.foldl_cons]
    apply ih
    simp only [UINT_MOD] at h ⊢
    omega

theorem foldl_shift (l : List Nat) : ∀ a : Nat,
    l.foldl (fun a x => 2 * a + x) a = a * 2 ^ l.length + valMSB l := by
  induction l with
  | nil => intro a; simp [valMSB]
  | cons x xs ih =>
    intro a
    simp only [valMSB, List.foldl_cons, List.length_cons] at ih ⊢
    rw [ih (2 * a + x), ih (2 * 0 + x)]
    ring

theorem valMSB_cons (x : Nat) (l : List Nat) :
    valMSB (x :: l) = x * 2 ^ l.length + valMSB l := by
  have := foldl_shift l (2 * 0 + x)
  simp only [valMSB, List.foldl_cons] at this ⊢
  rw [this]; ring

theorem valMSB_lt (l : List Nat) (h : ∀ x ∈ l, x ≤ 1) : valMSB l < 2 ^ l.length := by
  suffices H : ∀ (l : List Nat) (a : Nat), (∀ x ∈ l, x ≤ 1) →
      l.foldl (fun a x => 2 * a + x) a < (a + 1) * 2 ^ l.length by
    simpa using H l 0 h
  intro l
  induction l with
  | nil => intro a _; simp
  | cons x xs ih =>
    intro a hx
    simp only [List.foldl_cons, List.length_cons]
    have h1 : x ≤ 1 := hx x (by simp)
    have h2 := ih (2 * a + x) (fun y hy => hx y (by simp [hy]))
    calc List.foldl (fun a x => 2 * a + x) (2 * a + x) xs
        < (2 * a + x + 1) * 2 ^ xs.length := h2
      _ ≤ ((a + 1) * 2) * 2 ^ xs.length := Nat.mul_le_mul_right _ (by omega)
      _ = (a + 1) * 2 ^ (xs.length + 1) := by ring

theorem foldl_lowBits (v w : Nat) : ∀ a : Nat,
    (lowBits v w).foldl (fun a x => 2 * a + x) a = a * 2 ^ w + v % 2 ^ w := by
  induction w with
  | zero => intro a; simp [lowBits, Nat.mod_one]
  | succ w ih =>
    intro a
    simp only [lowBits, List.foldl_cons, ih]
    have e : v % 2 ^ (w + 1) = 2 ^ w * (v / 2 ^ w % 2) + v % 2 ^ w := by
      rw [pow_succ, Nat.mod_mul]; ring
    rw [e]; ring

theorem valMSB_lowBits (v w : Nat) (h : v < 2 ^ w) : valMSB (lowBits v w) = v := by
  simp [valMSB, foldl_lowBits, Nat.mod_eq_of_lt h]

theorem toInt32_shiftAll (l : List Nat) (h : valMSB l < 2 ^ 31) :
    toInt32 (shiftAll 0 l) = (valMSB l : Int) := by
  have e := shiftAll_congr l 0 0 rfl
  have e' : shiftAll 0 l % UINT_MOD = valMSB l := by
    rw [e]; apply Nat.mod_eq_of_lt; simp only [UINT_MOD, valMSB] at h ⊢; omega
  simp only [toInt32, e']
  rw [if_pos h]

theorem readBits_ok (bitin : BITIN) (n : Nat) (hn : n ≤ 31) (hu : n ≤ unread bitin) :
    ∃ b', readBits bitin (n : Int) = .ok ((valMSB ((unreadBits bitin).take n) : Int), b') ∧
      unreadBits b' = (unreadBits bitin).drop n ∧
      b'.file = bitin.file.drop ((n - bitin.bitsRemaining + 7) / 8) := by
  obtain ⟨b', h1, h2, h3⟩ := readBitsLoop_ok n bitin 0 hu
  refine ⟨b', ?_, h2, h3⟩
  have hlen : ((unreadBits bitin).take n).length = n := by
    rw [List.length_take, unreadBits_length]; omega
  have hv : valMSB ((unreadBits bitin).take n) < 2 ^ 31 := by
    have := valMSB_lt ((unreadBits bitin).take n)
      (fun x hx => unreadBits_le_one bitin x (List.mem_of_mem_take hx))
    rw [hlen] at this
    exact lt_of_lt_of_le this (Nat.pow_le_pow_right (by omega) hn)
  simp only [readBits, Int.toNat_ofNat, h1, toInt32_shiftAll _ hv]

theorem readBits_eof (bitin : BITIN) (n : Int) (h : (unread bitin : Int) < n) :
    readBits bitin n = .error .unexpectedEndOfFile := by
  have : unread bitin < n.toNat := by omega
  simp only [readBits, readBitsLoop_eof n.toNat bitin 0 this]

theorem readBits_total (bitin : BITIN) (n : Int) (h : n ≤ (unread bitin : Int)) :
    ∃ v b', readBits bitin n = .ok (v, b') ∧ unread b' + n.toNat = unread bitin ∧
      b'.file = bitin.file.drop ((n.toNat - bitin.bitsRemaining + 7) / 8) := by
  have hk : n.toNat ≤ unread bitin := by omega
  obtain ⟨b', h1, h2, h3⟩ := readBitsLoop_ok n.toNat bitin 0 hk
  refine ⟨toInt32 (shiftAll 0 ((unreadBits bitin).take n.toNat)), b',
    by simp only [readBits, h1], ?_, h3⟩
  have := congrArg List.length h2
  rw [List.length_drop, unreadBits_length, unreadBits_length] at this
  omega

/-! ## Lemmas on `bits` -/

theorem size_half (n : Nat) (h : n ≠ 0) : Nat.size n = Nat.size (n / 2) + 1 := by
  apply le_antisymm
  · rw [Nat.size_le]
    have := Nat.lt_size_self (n / 2)
    rw [pow_succ]; omega
  · have h1 : 1 ≤ Nat.size n := Nat.size_pos.mpr (Nat.pos_of_ne_zero h)
    have h2 : Nat.size (n / 2) ≤ Nat.size n - 1 := by
      rw [Nat.size_le]
      have := Nat.lt_size_self n
      have e : 2 ^ Nat.size n = 2 ^ (Nat.size n - 1) * 2 := by
        rw [← pow_succ]; congr 1; omega
      omega
    omega

theorem bitsLoop_eq (fuel : Nat) : ∀ n b : Nat, n ≤ fuel → b + Nat.size n < UINT_MOD →
    bitsLoop fuel n b = b + Nat.size n := by
  induction fuel with
  | zero =>
    intro n b h _
    have : n = 0 := by omega
    subst this; simp [bitsLoop]
  | succ fuel ih =>
    intro n b h hb
    by_cases hn : n = 0
    · subst hn; simp [bitsLoop]
    · have e := size_half n hn
      simp only [bitsLoop, hn, if_false, Nat.shiftRight_eq_div_pow, pow_one]
      have hb1 : (b + 1) % UINT_MOD = b + 1 := Nat.mod_eq_of_lt (by omega)
      rw [hb1, ih (n / 2) (b + 1) (by omega) (by omega), e]
      omega

theorem bits_eq_size (n : Nat) (h : n < UINT_MOD) : bits n = Nat.size n := by
  have hs : Nat.size n ≤ 32 := by rw [Nat.size_le]; simpa [UINT_MOD] using h
  have := bitsLoop_eq n n 0 le_rfl (by simp only [UINT_MOD]; omega)
  simpa [bits] using this

theorem bits_le_31 (n : Nat) (h : n < 2 ^ 31) : bits n ≤ 31 := by
  rw [bits_eq_size n (by simp only [UINT_MOD]; omega), Nat.size_le]; exact h

/-! ## Lemmas on one iteration of the decode loop -/

theorem whileBody_of_read (m : Nat) (s : DecState) (v : Int) (b1 : BITIN)
    (hr : readBits s.bitin 1 = .ok (v, b1)) :
    whileBody m s = if v ≠ 0 then openBranch m s b1 else closeBranch m s b1 := by
  simp only [whileBody, hr, OP]
  by_cases hv : v = 0 <;> simp [hv]

theorem openBranch_ok (m : Nat) (s : DecState) (b1 b2 : BITIN) (leaf : Int)
    (hl : readBits b1 (bits s.newcode : Int) = .ok (leaf, b2)) (hsp : s.sp < m) :
    openBranch m s b1 = .ok (.pushed
      { s with
        bitin := b2, exc := (s.exc + 1) % UINT_MOD,
        stack := store s.stack s.sp leaf, sp := (s.sp + 1) % UINT_MOD }) := by
  simp [openBranch, hl, push, hsp]

theorem closeBranch_closed (m : Nat) (s : DecState) (b1 : BITIN)
    (he : (s.exc + UINT_MOD - 1) % UINT_MOD = 0) :
    closeBranch m s b1 = .ok (.closed { s with bitin := b1, exc := 0 }) := by
  simp [closeBranch, he]

theorem closeBranch_exceeded (m : Nat) (s : DecState) (b1 : BITIN)
    (he : (s.exc + UINT_MOD - 1) % UINT_MOD ≠ 0) (hc : m ≤ s.newcode + 1) :
    closeBranch m s b1 = .error .exceededRuleArray := by
  simp [closeBranch, he, hc]

theorem closeBranch_reduced (m : Nat) (s : DecState) (b1 : BITIN)
    (he : (s.exc + UINT_MOD - 1) % UINT_MOD ≠ 0) (hc : s.newcode + 1 < m)
    (hi : s.newcode + 1 < 2 ^ 31) (hsp : 2 ≤ s.sp) (hm : s.sp ≤ m) :
    closeBranch m s b1 = .ok (.reduced
      { bitin := b1, exc := (s.exc + UINT_MOD - 1) % UINT_MOD, newcode := s.newcode + 1,
        rule := store s.rule (s.newcode + 1)
          { left := s.stack (s.sp - 2), right := s.stack (s.sp - 1) },
        stack := store s.stack (s.sp - 2) ((s.newcode + 1 : Nat) : Int),
        sp := (s.sp - 2 + 1) % UINT_MOD }) := by
  have h1 : ¬ (s.newcode + 1 ≥ m) := by omega
  have h2 : ¬ (s.newcode + 1 ≥ 2 ^ 31) := by omega
  have h3 : s.sp ≠ 0 := by omega
  have h4 : s.sp - 1 < m := by omega
  have h5 : s.sp - 1 ≠ 0 := by omega
  have h6 : s.sp - 1 - 1 < m := by omega
  have h7 : s.sp - 1 - 1 = s.sp - 2 := by omega
  have h8 : s.sp - 2 < m := by omega
  simp only [closeBranch, he, h1, h2, pop, push, h3, h4, h5, h6, h7, h8, if_true, if_false]

/-- Every successful iteration is one of three kinds, each with its conditions. -/
theorem whileBody_cases (m : Nat) (s : DecState) (st : Step) (h : whileBody m s = .ok st) :
    (∃ v b1 leaf b2, readBits s.bitin 1 = .ok (v, b1) ∧ v ≠ 0 ∧
        readBits b1 (bits s.newcode : Int) = .ok (leaf, b2) ∧ s.sp < m ∧
        st = .pushed
          { s with
            bitin := b2, exc := (s.exc + 1) % UINT_MOD,
            stack := store s.stack s.sp leaf, sp := (s.sp + 1) % UINT_MOD }) ∨
    (∃ b1, readBits s.bitin 1 = .ok (0, b1) ∧ (s.exc + UINT_MOD - 1) % UINT_MOD ≠ 0 ∧
        s.newcode + 1 < m ∧ s.newcode + 1 < 2 ^ 31 ∧ 2 ≤ s.sp ∧ s.sp - 1 < m ∧
        st = .reduced
          { bitin := b1, exc := (s.exc + UINT_MOD - 1) % UINT_MOD, newcode := s.newcode + 1,
            rule := store s.rule (s.newcode + 1)
              { left := s.stack (s.sp - 2), right := s.stack (s.sp - 1) },
            stack := store s.stack (s.sp - 2) ((s.newcode + 1 : Nat) : Int),
            sp := (s.sp - 2 + 1) % UINT_MOD }) ∨
    (∃ b1, readBits s.bitin 1 = .ok (0, b1) ∧ (s.exc + UINT_MOD - 1) % UINT_MOD = 0 ∧
        st = .closed { s with bitin := b1, exc := 0 }) := by
  cases hr : readBits s.bitin 1 with
  | error e => simp [whileBody, hr] at h
  | ok r =>
    obtain ⟨v, b1⟩ := r
    rw [whileBody_of_read m s v b1 hr] at h
    by_cases hv : v = 0
    · subst hv
      simp only [ne_eq, not_true_eq_false, if_false] at h
      right
      by_cases he : (s.exc + UINT_MOD - 1) % UINT_MOD = 0
      · right
        rw [closeBranch_closed m s b1 he] at h
        exact ⟨b1, rfl, he, by simpa using h.symm⟩
      · left
        by_cases hc : s.newcode + 1 ≥ m
        · simp only [closeBranch, he, hc, if_true, if_false] at h
          exact absurd h (by simp)
        by_cases h3 : s.sp = 0
        · simp only [closeBranch, he, hc, pop, h3, if_true, if_false] at h
          exact absurd h (by simp)
        by_cases h4 : s.sp - 1 < m
        swap
        · simp only [closeBranch, he, hc, pop, h3, h4, if_true, if_false] at h
          exact absurd h (by simp)
        by_cases hi : s.newcode + 1 ≥ 2 ^ 31
        · simp only [closeBranch, he, hc, hi, pop, h3, h4, if_true, if_false] at h
          exact absurd h (by simp)
        by_cases h5 : s.sp - 1 = 0
        · have h6 : 0 < m := by omega
          simp only [closeBranch, he, hc, hi, pop, h3, h4, h5, h6, if_true, if_false] at h
          exact absurd h (by simp)
        have hsp : 2 ≤ s.sp := by omega
        rw [closeBranch_reduced m s b1 he (by omega) (by omega) hsp (by omega)] at h
        exact ⟨b1, rfl, he, by omega, by omega, hsp, h4, by simpa using h.symm⟩
    · left
      simp only [ne_eq, hv, not_false_eq_true, if_true] at h
      cases hl : readBits b1 (bits s.newcode : Int) with
      | error e => simp [openBranch, hl] at h
      | ok r2 =>
        obtain ⟨leaf, b2⟩ := r2
        by_cases hsp : s.sp < m
        · rw [openBranch_ok m s b1 b2 leaf hl hsp] at h
          exact ⟨v, b1, leaf, b2, rfl, hv, hl, hsp, by simpa using h.symm⟩
        · simp [openBranch, hl, push, hsp] at h

theorem readBits_one (bitin : BITIN) (x : Nat) (rest : List Nat)
    (h : unreadBits bitin = x :: rest) :
    ∃ b1, readBits bitin 1 = .ok ((x : Int), b1) ∧ unreadBits b1 = rest ∧
      unread b1 + 1 = unread bitin := by
  have hu : 1 ≤ unread bitin := by rw [← unreadBits_length, h]; simp
  obtain ⟨b1, h1, h2, -⟩ := readBits_ok bitin 1 (by omega) hu
  refine ⟨b1, ?_, by simpa [h] using h2, ?_⟩
  · simpa [h, valMSB] using h1
  · have := congrArg List.length h2
    rw [List.length_drop, unreadBits_length, unreadBits_length] at this
    omega

theorem whileBody_open (m : Nat) (s : DecState) (rest : List Nat)
    (h1 : unreadBits s.bitin = 1 :: rest) (hw : bits s.newcode ≤ rest.length)
    (hc : s.newcode < 2 ^ 31) (hsp : s.sp < m) :
    ∃ s', whileBody m s = .ok (.pushed s') ∧
      unreadBits s'.bitin = rest.drop (bits s.newcode) ∧
      unread s'.bitin + (1 + bits s.newcode) = unread s.bitin ∧
      s'.exc = (s.exc + 1) % UINT_MOD ∧
      s'.stack = store s.stack s.sp (valMSB (rest.take (bits s.newcode)) : Int) ∧
      s'.sp = (s.sp + 1) % UINT_MOD ∧ s'.newcode = s.newcode ∧ s'.rule = s.rule := by
  obtain ⟨b1, hr, hu1, hn1⟩ := readBits_one s.bitin 1 rest h1
  have hw' : bits s.newcode ≤ unread b1 := by rw [← unreadBits_length, hu1]; exact hw
  obtain ⟨b2, hl, hu2, -⟩ := readBits_ok b1 (bits s.newcode) (bits_le_31 _ hc) hw'
  have hlen := congrArg List.length hu2
  rw [List.length_drop, unreadBits_length, unreadBits_length] at hlen
  refine ⟨{ s with
             bitin := b2, exc := (s.exc + 1) % UINT_MOD,
             stack := store s.stack s.sp (valMSB ((unreadBits b1).take (bits s.newcode)) : Int),
             sp := (s.sp + 1) % UINT_MOD }, ?_, ?_, ?_, rfl, ?_, rfl, rfl, rfl⟩
  · rw [whileBody_of_read m s _ b1 hr]
    simp only [Nat.cast_one, ne_eq, one_ne_zero, not_false_eq_true, if_true]
    exact openBranch_ok m s b1 b2 _ hl hsp
  · simpa [hu1] using hu2
  · show unread b2 + (1 + bits s.newcode) = unread s.bitin
    omega
  · simp [hu1]

theorem whileBody_close_reduce (m : Nat) (s : DecState) (rest : List Nat)
    (h0 : unreadBits s.bitin = 0 :: rest) (he : (s.exc + UINT_MOD - 1) % UINT_MOD ≠ 0)
    (hsp : 2 ≤ s.sp) (hm : s.sp ≤ m) (hcap : m ≤ UINT_MOD)
    (hc : s.newcode + 1 < m) (hi : s.newcode + 1 < 2 ^ 31) :
    ∃ s', whileBody m s = .ok (.reduced s') ∧ s'.newcode = s.newcode + 1 ∧
      s'.rule (s.newcode + 1) = { left := s.stack (s.sp - 2), right := s.stack (s.sp - 1) } ∧
      (∀ j, j ≠ s.newcode + 1 → s'.rule j = s.rule j) ∧
      s'.sp = s.sp - 1 ∧ s'.stack (s.sp - 2) = ((s.newcode + 1 : Nat) : Int) ∧
      (∀ j, j < s.sp - 2 → s'.stack j = s.stack j) ∧
      s'.exc = (s.exc + UINT_MOD - 1) % UINT_MOD ∧ unreadBits s'.bitin = rest := by
  obtain ⟨b1, hr, hu1, -⟩ := readBits_one s.bitin 0 rest h0
  refine ⟨{ bitin := b1, exc := (s.exc + UINT_MOD - 1) % UINT_MOD, newcode := s.newcode + 1,
            rule := store s.rule (s.newcode + 1)
              { left := s.stack (s.sp - 2), right := s.stack (s.sp - 1) },
            stack := store s.stack (s.sp - 2) ((s.newcode + 1 : Nat) : Int),
            sp := (s.sp - 2 + 1) % UINT_MOD }, ?_, rfl, ?_, ?_, ?_, ?_, ?_, rfl, hu1⟩
  · rw [whileBody_of_read m s _ b1 hr]
    simp only [Nat.cast_zero, ne_eq, not_true_eq_false, if_false]
    exact closeBranch_reduced m s b1 he hc hi hsp hm
  · simp [store]
  · intro j hj; simp [store, hj]
  · show (s.sp - 2 + 1) % UINT_MOD = s.sp - 1
    rw [Nat.mod_eq_of_lt (by omega)]; omega
  · simp [store]
  · intro j hj
    have : j ≠ s.sp - 2 := by omega
    simp [store, this]

theorem readBits_one_inv (bitin b1 : BITIN) (v : Int) (h : readBits bitin 1 = .ok (v, b1)) :
    ∃ x rest, unreadBits bitin = x :: rest ∧ v = (x : Int) ∧ x ≤ 1 ∧ unreadBits b1 = rest := by
  cases hu : unreadBits bitin with
  | nil =>
    have : (unread bitin : Int) < 1 := by
      rw [← unreadBits_length, hu]; simp
    rw [readBits_eof bitin 1 this] at h
    exact absurd h (by simp)
  | cons x rest =>
    obtain ⟨b1', hr, hu1, -⟩ := readBits_one bitin x rest hu
    rw [hr] at h
    simp only [Except.ok.injEq, Prod.mk.injEq] at h
    refine ⟨x, rest, rfl, h.1.symm, unreadBits_le_one bitin x (by simp [hu]), ?_⟩
    rw [← h.2]; exact hu1

theorem whileBody_pushed_inv (m : Nat) (s s' : DecState)
    (h : whileBody m s = .ok (.pushed s')) :
    ∃ rest, unreadBits s.bitin = 1 :: rest ∧ bits s.newcode ≤ rest.length ∧ s.sp < m := by
  rcases whileBody_cases m s _ h with ⟨v, b1, leaf, b2, hr, hv, hl, hsp, -⟩ |
    ⟨b1, -, -, -, -, -, -, h'⟩ | ⟨b1, -, -, h'⟩
  · obtain ⟨x, rest, hu, hx, hx1, hu1⟩ := readBits_one_inv _ _ _ hr
    have hx' : x = 1 := by
      have : x ≠ 0 := by
        rintro rfl
        exact hv (by simpa using hx)
      omega
    subst hx'
    refine ⟨rest, hu, ?_, hsp⟩
    by_contra hc
    have : (unread b1 : Int) < (bits s.newcode : Int) := by
      rw [← unreadBits_length, hu1]; omega
    rw [readBits_eof b1 _ this] at hl
    exact absurd hl (by simp)
  · exact absurd h' (by simp)
  · exact absurd h' (by simp)

theorem whileBody_reduced_inv (m : Nat) (s s' : DecState)
    (h : whileBody m s = .ok (.reduced s')) :
    (∃ rest, unreadBits s.bitin = 0 :: rest ∧ unreadBits s'.bitin = rest) ∧
    (s.exc + UINT_MOD - 1) % UINT_MOD ≠ 0 ∧ 2 ≤ s.sp ∧ s.sp ≤ m ∧
    s.newcode + 1 < m ∧ s.newcode + 1 < 2 ^ 31 ∧
    s' = { bitin := s'.bitin, exc := (s.exc + UINT_MOD - 1) % UINT_MOD,
           newcode := s.newcode + 1,
           rule := store s.rule (s.newcode + 1)
             { left := s.stack (s.sp - 2), right := s.stack (s.sp - 1) },
           stack := store s.stack (s.sp - 2) ((s.newcode + 1 : Nat) : Int),
           sp := (s.sp - 2 + 1) % UINT_MOD } := by
  rcases whileBody_cases m s _ h with ⟨v, b1, leaf, b2, -, -, -, -, h'⟩ |
    ⟨b1, hr, he, hc, hi, hsp, hm, h'⟩ | ⟨b1, -, -, h'⟩
  · exact absurd h' (by simp)
  · obtain ⟨x, rest, hu, hx, -, hu1⟩ := readBits_one_inv _ _ _ hr
    have hx' : x = 0 := by
      have : (x : Int) = 0 := hx.symm
      exact_mod_cast this
    subst hx'
    simp only [Step.reduced.injEq] at h'
    subst h'
    exact ⟨⟨rest, hu, hu1⟩, he, hsp, by omega, hc, hi, rfl⟩
  · exact absurd h' (by simp)

theorem pop_ne_exceeded (m : Nat) (stack : Nat → Int) (sp : Nat) (e : Fault)
    (h : pop m stack sp = .error e) : e ≠ .exceededRuleArray := by
  simp only [pop] at h
  split_ifs at h
  all_goals (simp at h; subst h; simp)

theorem push_ne_exceeded (m : Nat) (stack : Nat → Int) (sp : Nat) (v : Int) (e : Fault)
    (h : push m stack sp v = .error e) : e ≠ .exceededRuleArray := by
  simp only [push] at h
  split_ifs at h
  all_goals (simp at h; subst h; simp)

theorem whileBody_close_exceeded_iff (m : Nat) (s : DecState) (rest : List Nat)
    (h0 : unreadBits s.bitin = 0 :: rest) (he : (s.exc + UINT_MOD - 1) % UINT_MOD ≠ 0) :
    whileBody m s = .error .exceededRuleArray ↔ m ≤ s.newcode + 1 := by
  obtain ⟨b1, hr, -, -⟩ := readBits_one s.bitin 0 rest h0
  rw [whileBody_of_read m s _ b1 hr]
  simp only [Nat.cast_zero, ne_eq, not_true_eq_false, if_false]
  constructor
  · intro h
    by_contra hc
    have hc' : ¬ (s.newcode + 1 ≥ m) := hc
    simp only [closeBranch, he, hc', if_false] at h
    cases hp1 : pop m s.stack s.sp with
    | error e =>
      simp only [hp1] at h
      exact pop_ne_exceeded _ _ _ _ hp1 (by simpa using h)
    | ok r1 =>
      obtain ⟨right, sp1⟩ := r1
      simp only [hp1] at h
      by_cases hi : s.newcode + 1 ≥ 2 ^ 31
      · simp only [hi, if_true] at h; exact absurd h (by simp)
      · simp only [hi, if_false] at h
        cases hp2 : pop m s.stack sp1 with
        | error e =>
          simp only [hp2] at h
          exact pop_ne_exceeded _ _ _ _ hp2 (by simpa using h)
        | ok r2 =>
          obtain ⟨left, sp2⟩ := r2
          simp only [hp2] at h
          cases hp3 : push m s.stack sp2 ((s.newcode + 1 : Nat) : Int) with
          | error e =>
            simp only [hp3] at h
            exact push_ne_exceeded _ _ _ _ _ hp3 (by simpa using h)
          | ok r3 =>
            simp only [hp3] at h
            exact absurd h (by simp)
  · intro hc
    exact closeBranch_exceeded m s b1 he hc

/-! ## Lemmas on the element loop -/

theorem readBitsLoop_error (k : Nat) (bitin : BITIN) (acc : Nat) (e : Fault)
    (h : readBitsLoop k bitin acc = .error e) : e = .unexpectedEndOfFile := by
  by_cases hk : k ≤ unread bitin
  · obtain ⟨b', h1, -⟩ := readBitsLoop_ok k bitin acc hk
    rw [h1] at h; exact absurd h (by simp)
  · rw [readBitsLoop_eof k bitin acc (by omega)] at h
    simpa using h.symm

theorem readBits_error (bitin : BITIN) (n : Int) (e : Fault)
    (h : readBits bitin n = .error e) : e = .unexpectedEndOfFile := by
  simp only [readBits] at h
  cases hl : readBitsLoop n.toNat bitin 0 with
  | error e' =>
    simp only [hl] at h
    have := readBitsLoop_error _ _ _ _ hl
    simp only [Except.error.injEq] at h
    rw [← h, this]
  | ok r => simp only [hl] at h; exact absurd h (by simp)

theorem readBits_unread (bitin b' : BITIN) (n : Int) (v : Int)
    (h : readBits bitin n = .ok (v, b')) : unread b' + n.toNat = unread bitin := by
  by_cases hk : n ≤ (unread bitin : Int)
  · obtain ⟨v', b'', h1, h2, -⟩ := readBits_total bitin n hk
    rw [h1] at h
    simp only [Except.ok.injEq, Prod.mk.injEq] at h
    rw [← h.2]; exact h2
  · rw [readBits_eof bitin n (by omega)] at h
    exact absurd h (by simp)

theorem whileBody_unread (m : Nat) (s : DecState) (st : Step) (h : whileBody m s = .ok st) :
    unread st.state.bitin < unread s.bitin := by
  rcases whileBody_cases m s st h with ⟨v, b1, leaf, b2, hr, -, hl, -, rfl⟩ |
    ⟨b1, hr, -, -, -, -, -, rfl⟩ | ⟨b1, hr, -, rfl⟩
  · have h1 := readBits_unread _ _ _ _ hr
    have h2 := readBits_unread _ _ _ _ hl
    simp only [Step.state]
    simp only [Int.toNat_one] at h1
    omega
  · have h1 := readBits_unread _ _ _ _ hr
    simp only [Step.state]
    simp only [Int.toNat_one] at h1
    omega
  · have h1 := readBits_unread _ _ _ _ hr
    simp only [Step.state]
    simp only [Int.toNat_one] at h1
    omega

theorem whileBody_newcode (m : Nat) (s : DecState) (st : Step) (h : whileBody m s = .ok st) :
    st.state.newcode = s.newcode + (if st.isReduced then 1 else 0) := by
  rcases whileBody_cases m s st h with ⟨v, b1, leaf, b2, -, -, -, -, rfl⟩ |
    ⟨b1, -, -, -, -, -, -, rfl⟩ | ⟨b1, -, -, rfl⟩ <;> simp [Step.state, Step.isReduced]

theorem pop_error (m : Nat) (stack : Nat → Int) (sp : Nat) (e : Fault)
    (h : pop m stack sp = .error e) : e = .stackUnderflow ∨ e = .stackOverflow := by
  simp only [pop] at h
  split_ifs at h
  all_goals (simp at h; subst h; simp)

theorem push_error (m : Nat) (stack : Nat → Int) (sp : Nat) (v : Int) (e : Fault)
    (h : push m stack sp v = .error e) : e = .stackOverflow := by
  simp only [push] at h
  split_ifs at h
  all_goals (simp at h; subst h; simp)

/-- The faults an iteration of `while (1)` can end with. -/
theorem whileBody_error (m : Nat) (s : DecState) (e : Fault) (h : whileBody m s = .error e) :
    e = .unexpectedEndOfFile ∨ e = .exceededRuleArray ∨ e = .counterOverflow ∨
      e = .stackUnderflow ∨ e = .stackOverflow := by
  cases hr : readBits s.bitin 1 with
  | error e' =>
    simp only [whileBody, hr, Except.error.injEq] at h
    left; rw [← h]; exact readBits_error _ _ _ hr
  | ok r =>
    obtain ⟨v, b1⟩ := r
    rw [whileBody_of_read m s v b1 hr] at h
    by_cases hv : v = 0
    · simp only [hv, ne_eq, not_true_eq_false, if_false, closeBranch] at h
      by_cases he : (s.exc + UINT_MOD - 1) % UINT_MOD = 0
      · simp only [he, if_true] at h; exact absurd h (by simp)
      simp only [he, if_false] at h
      by_cases hc : s.newcode + 1 ≥ m
      · simp only [hc, if_true, Except.error.injEq] at h; subst h; simp
      simp only [hc, if_false] at h
      cases hp1 : pop m s.stack s.sp with
      | error e1 =>
        simp only [hp1, Except.error.injEq] at h
        subst h
        rcases pop_error _ _ _ _ hp1 with h' | h' <;> simp [h']
      | ok r1 =>
        obtain ⟨right, sp1⟩ := r1
        simp only [hp1] at h
        by_cases hi : s.newcode + 1 ≥ 2 ^ 31
        · simp only [hi, if_true, Except.error.injEq] at h; subst h; simp
        simp only [hi, if_false] at h
        cases hp2 : pop m s.stack sp1 with
        | error e2 =>
          simp only [hp2, Except.error.injEq] at h
          subst h
          rcases pop_error _ _ _ _ hp2 with h' | h' <;> simp [h']
        | ok r2 =>
          obtain ⟨left, sp2⟩ := r2
          simp only [hp2] at h
          cases hp3 : push m s.stack sp2 ((s.newcode + 1 : Nat) : Int) with
          | error e3 =>
            simp only [hp3, Except.error.injEq] at h
            subst h
            simp [push_error _ _ _ _ _ hp3]
          | ok r3 =>
            simp only [hp3] at h
            exact absurd h (by simp)
    · simp only [ne_eq, hv, not_false_eq_true, if_true, openBranch] at h
      cases hl : readBits b1 (bits s.newcode : Int) with
      | error e' =>
        simp only [hl, Except.error.injEq] at h
        left; rw [← h]; exact readBits_error _ _ _ hl
      | ok r2 =>
        obtain ⟨leaf, b2⟩ := r2
        simp only [hl] at h
        cases hp : push m s.stack s.sp leaf with
        | error e3 =>
          simp only [hp, Except.error.injEq] at h
          subst h
          simp [push_error _ _ _ _ _ hp]
        | ok r3 =>
          simp only [hp] at h
          exact absurd h (by simp)

/-- The iteration bound of `decodeElement` is never reached. -/
theorem whileLoop_fuel (m : Nat) (fuel : Nat) : ∀ s : DecState, unread s.bitin < fuel →
    whileLoop m fuel s ≠ .error .outOfFuel := by
  induction fuel with
  | zero => intro s h; omega
  | succ fuel ih =>
    intro s h
    simp only [whileLoop]
    cases hb : whileBody m s with
    | error e =>
      simp only [ne_eq, Except.error.injEq]
      rcases whileBody_error m s e hb with h' | h' | h' | h' | h' <;> simp [h']
    | ok st =>
      have hu := whileBody_unread m s st hb
      cases st with
      | closed s' => simp
      | pushed s' => exact ih s' (by simp only [Step.state] at hu; omega)
      | reduced s' => exact ih s' (by simp only [Step.state] at hu; omega)

/-! ## Lemmas on traces -/

theorem countReduced_cons (e : DecState × Step) (tr : List (DecState × Step)) :
    countReduced (e :: tr) = (if e.2.isReduced then 1 else 0) + countReduced tr := by
  simp only [countReduced, List.countP_cons]
  split_ifs <;> omega

theorem countReduced_append (t1 t2 : List (DecState × Step)) :
    countReduced (t1 ++ t2) = countReduced t1 + countReduced t2 := by
  simp [countReduced, List.countP_append]

theorem closedRoots_append (t1 t2 : List (DecState × Step)) :
    closedRoots (t1 ++ t2) = closedRoots t1 ++ closedRoots t2 := by
  simp [closedRoots, List.filterMap_append]

theorem counterTracks_nil_iff (c : Nat) : CounterTracks c [] ↔ True :=
  ⟨fun _ => trivial, fun _ => CounterTracks.nil c⟩

theorem counterTracks_cons_iff (c : Nat) (s : DecState) (st : Step)
    (tr : List (DecState × Step)) :
    CounterTracks c ((s, st) :: tr) ↔
      s.newcode = c ∧ CounterTracks (c + (if st.isReduced then 1 else 0)) tr := by
  constructor
  · intro h
    cases h with
    | cons _ _ _ _ h1 h2 => exact ⟨h1, h2⟩
  · rintro ⟨h1, h2⟩
    exact CounterTracks.cons c s st tr h1 h2

theorem counterTracks_append (t1 : List (DecState × Step)) :
    ∀ (c : Nat) (t2 : List (DecState × Step)), CounterTracks c t1 →
      CounterTracks (c + countReduced t1) t2 → CounterTracks c (t1 ++ t2) := by
  induction t1 with
  | nil => intro c t2 _ h2; simpa [countReduced] using h2
  | cons e t1 ih =>
    intro c t2 h1 h2
    obtain ⟨s, st⟩ := e
    simp only [counterTracks_nil_iff, counterTracks_cons_iff, List.cons_append] at h1 ⊢
    refine ⟨h1.1, ih _ t2 h1.2 ?_⟩
    rw [countReduced_cons] at h2
    simpa [Nat.add_assoc] using h2

theorem counterTracks_get (tr : List (DecState × Step)) :
    ∀ (c j : Nat) (e : DecState × Step), CounterTracks c tr → tr[j]? = some e →
      e.1.newcode = c + countReduced (tr.take j) := by
  induction tr with
  | nil => intro c j e _ h; simp at h
  | cons x tr ih =>
    intro c j e hc h
    obtain ⟨s, st⟩ := x
    simp only [counterTracks_nil_iff, counterTracks_cons_iff] at hc
    cases j with
    | zero =>
      simp only [List.getElem?_cons_zero, Option.some.injEq] at h
      subst h
      simpa [countReduced] using hc.1
    | succ j =>
      simp only [List.getElem?_cons_succ] at h
      rw [List.take_succ_cons, countReduced_cons, ih _ j e hc.2 h]
      simp only [Nat.add_assoc]

theorem whileTrace_spec (m : Nat) (fuel : Nat) : ∀ s : DecState,
    CounterTracks s.newcode (whileTrace m fuel s) ∧
    (∀ e ∈ whileTrace m fuel s, whileBody m e.1 = .ok e.2) ∧
    (∀ s', whileLoop m fuel s = .ok s' →
      s'.newcode = s.newcode + countReduced (whileTrace m fuel s) ∧
      closedRoots (whileTrace m fuel s) = [s'.stack (s'.sp - 1)]) := by
  induction fuel with
  | zero => intro s; simp [whileTrace, whileLoop, counterTracks_nil_iff, counterTracks_cons_iff]
  | succ fuel ih =>
    intro s
    cases hb : whileBody m s with
    | error e => simp [whileTrace, whileLoop, hb, counterTracks_nil_iff, counterTracks_cons_iff]
    | ok st =>
      have hn := whileBody_newcode m s st hb
      cases st with
      | closed s1 =>
        simp only [Step.state, Step.isReduced, Bool.false_eq_true, if_false, Nat.add_zero] at hn
        simp [whileTrace, whileLoop, hb, counterTracks_nil_iff, counterTracks_cons_iff,
          countReduced, Step.isReduced,
          closedRoots, hn]
      | pushed s1 =>
        obtain ⟨h1, h2, h3⟩ := ih s1
        simp only [Step.state, Step.isReduced, Bool.false_eq_true, if_false, Nat.add_zero] at hn
        refine ⟨?_, ?_, ?_⟩
        · simp only [whileTrace, hb, counterTracks_nil_iff, counterTracks_cons_iff,
          Step.isReduced, Bool.false_eq_true,
            if_false, Nat.add_zero, true_and]
          rw [← hn]; exact h1
        · intro e he
          simp only [whileTrace, hb, List.mem_cons] at he
          rcases he with rfl | he
          · exact hb
          · exact h2 e he
        · intro s' hs'
          simp only [whileLoop, hb] at hs'
          obtain ⟨h4, h5⟩ := h3 s' hs'
          simp only [whileTrace, hb, countReduced_cons, Step.isReduced, Bool.false_eq_true,
            if_false, Nat.zero_add]
          refine ⟨by rw [h4, hn], ?_⟩
          simpa [closedRoots] using h5
      | reduced s1 =>
        obtain ⟨h1, h2, h3⟩ := ih s1
        simp only [Step.state, Step.isReduced, if_true] at hn
        refine ⟨?_, ?_, ?_⟩
        · simp only [whileTrace, hb, counterTracks_nil_iff, counterTracks_cons_iff,
          Step.isReduced, if_true, true_and]
          rw [← hn]; exact h1
        · intro e he
          simp only [whileTrace, hb, List.mem_cons] at he
          rcases he with rfl | he
          · exact hb
          · exact h2 e he
        · intro s' hs'
          simp only [whileLoop, hb] at hs'
          obtain ⟨h4, h5⟩ := h3 s' hs'
          simp only [whileTrace, hb, countReduced_cons, Step.isReduced, if_true]
          refine ⟨by rw [h4, hn]; omega, ?_⟩
          simpa [closedRoots] using h5

theorem decodeElement_ok (m : Nat) (s s' : DecState) (root : Int)
    (h : decodeElement m s = .ok (root, s')) :
    whileLoop m (unread s.bitin + 1) { s with exc := 0, sp := 0 } = .ok s' ∧
      top m s'.stack s'.sp = .ok root := by
  simp only [decodeElement] at h
  cases hw : whileLoop m (unread s.bitin + 1) { s with exc := 0, sp := 0 } with
  | error e => simp only [hw] at h; exact absurd h (by simp)
  | ok s1 =>
    simp only [hw] at h
    cases ht : top m s1.stack s1.sp with
    | error e => simp only [ht] at h; exact absurd h (by simp)
    | ok r =>
      simp only [ht, Except.ok.injEq, Prod.mk.injEq] at h
      rw [← h.1, ← h.2]
      exact ⟨rfl, ht⟩

theorem top_ok (m : Nat) (stack : Nat → Int) (sp : Nat) (r : Int)
    (h : top m stack sp = .ok r) : r = stack (sp - 1) ∧ 1 ≤ sp ∧ sp - 1 < m := by
  simp only [top] at h
  split_ifs at h with h1 h2
  simp only [Except.ok.injEq] at h
  exact ⟨h.symm, by omega, h2⟩

theorem seqTrace_spec (m : Nat) (k : Nat) : ∀ s : DecState,
    CounterTracks s.newcode (seqTrace m k s) ∧
    (∀ e ∈ seqTrace m k s, whileBody m e.1 = .ok e.2) ∧
    (∀ roots s', decodeSeq m k s = .ok (roots, s') →
      s'.newcode = s.newcode + countReduced (seqTrace m k s) ∧
      roots = closedRoots (seqTrace m k s) ∧ roots.length = k) := by
  induction k with
  | zero =>
    intro s
    simp only [seqTrace, counterTracks_nil_iff, counterTracks_cons_iff, List.not_mem_nil,
      false_implies, implies_true,
      decodeSeq, Except.ok.injEq, Prod.mk.injEq, true_and]
    rintro roots s' ⟨rfl, rfl⟩
    simp [countReduced, closedRoots]
  | succ k ih =>
    intro s
    obtain ⟨w1, w2, w3⟩ := whileTrace_spec m (unread s.bitin + 1) { s with exc := 0, sp := 0 }
    cases he : decodeElement m s with
    | error e =>
      simp only [seqTrace, he, decodeSeq]
      exact ⟨w1, w2, by intro roots s' h; exact absurd h (by simp)⟩
    | ok r =>
      obtain ⟨root, s1⟩ := r
      obtain ⟨hw, ht⟩ := decodeElement_ok m s s1 root he
      obtain ⟨h4, h5⟩ := w3 s1 hw
      obtain ⟨i1, i2, i3⟩ := ih s1
      have w1' : CounterTracks s.newcode (elementTrace m s) := w1
      have h4' : s1.newcode = s.newcode + countReduced (elementTrace m s) := h4
      simp only [seqTrace, he, decodeSeq]
      refine ⟨?_, ?_, ?_⟩
      · exact counterTracks_append _ _ _ w1' (h4' ▸ i1)
      · intro e hmem
        rcases List.mem_append.mp hmem with h' | h'
        · exact w2 e h'
        · exact i2 e h'
      · intro roots s' h
        cases hd : decodeSeq m k s1 with
        | error e => simp only [hd] at h; exact absurd h (by simp)
        | ok r2 =>
          obtain ⟨roots2, s2⟩ := r2
          simp only [hd, Except.ok.injEq, Prod.mk.injEq] at h
          obtain ⟨j1, j2, j3⟩ := i3 roots2 s2 hd
          obtain ⟨rfl, rfl⟩ := h
          refine ⟨?_, ?_, by simp [j3]⟩
          · rw [countReduced_append, j1, h4']; omega
          · have e1 : closedRoots (elementTrace m s) = [s1.stack (s1.sp - 1)] := h5
            rw [closedRoots_append, e1, ← j2, (top_ok _ _ _ _ ht).1]
            rfl

/-! ## Longer streams

A run that succeeds, or ends with a fault other than the end of the stream,
behaves the same when bytes are appended to the stream. -/

theorem readBitsBody_extend (bitin b' : BITIN) (acc v : Nat) (more : List Nat)
    (h : readBitsBody bitin acc = .ok (v, b')) :
    readBitsBody (extendFile bitin more) acc = .ok (v, extendFile b' more) := by
  obtain ⟨file, cb, br⟩ := bitin
  simp only [readBitsBody, extendFile] at h ⊢
  by_cases hz : br = 0
  · simp only [hz, if_true] at h ⊢
    cases file with
    | nil => exact absurd h (by simp)
    | cons c rest =>
      simp only [Except.ok.injEq, Prod.mk.injEq] at h
      simp only [List.cons_append, Except.ok.injEq, Prod.mk.injEq]
      exact ⟨h.1, by rw [← h.2]⟩
  · simp only [hz, if_false, Except.ok.injEq, Prod.mk.injEq] at h ⊢
    exact ⟨h.1, by rw [← h.2]⟩

theorem readBitsLoop_extend (k : Nat) (more : List Nat) :
    ∀ (bitin b' : BITIN) (acc v : Nat), readBitsLoop k bitin acc = .ok (v, b') →
      readBitsLoop k (extendFile bitin more) acc = .ok (v, extendFile b' more) := by
  induction k with
  | zero =>
    intro bitin b' acc v h
    simp only [readBitsLoop, Except.ok.injEq, Prod.mk.injEq] at h ⊢
    exact ⟨h.1, by rw [h.2]⟩
  | succ k ih =>
    intro bitin b' acc v h
    simp only [readBitsLoop] at h ⊢
    cases hb : readBitsBody bitin acc with
    | error e => simp only [hb] at h; exact absurd h (by simp)
    | ok r =>
      obtain ⟨v1, b1⟩ := r
      simp only [hb] at h
      simp only [readBitsBody_extend bitin b1 acc v1 more hb]
      exact ih b1 b' v1 v h

theorem readBits_extend (bitin b' : BITIN) (n v : Int) (more : List Nat)
    (h : readBits bitin n = .ok (v, b')) :
    readBits (extendFile bitin more) n = .ok (v, extendFile b' more) := by
  simp only [readBits] at h ⊢
  cases hl : readBitsLoop n.toNat bitin 0 with
  | error e => simp only [hl] at h; exact absurd h (by simp)
  | ok r =>
    obtain ⟨v1, b1⟩ := r
    simp only [hl, Except.ok.injEq, Prod.mk.injEq] at h
    simp only [readBitsLoop_extend _ more bitin b1 0 v1 hl, Except.ok.injEq, Prod.mk.injEq]
    exact ⟨h.1, by rw [h.2]⟩

theorem closeBranch_extend_error (m : Nat) (s : DecState) (b1 : BITIN) (more : List Nat)
    (e : Fault) (h : closeBranch m s b1 = .error e) :
    closeBranch m (s.extendFile more) (extendFile b1 more) = .error e := by
  simp only [closeBranch, DecState.extendFile] at h ⊢
  split_ifs at h ⊢
  · exact h
  · exact h
  · cases hp1 : pop m s.stack s.sp with
    | error e1 => simp only [hp1] at h ⊢; exact h
    | ok r1 =>
      obtain ⟨right, sp1⟩ := r1
      simp only [hp1] at h ⊢
      cases hp2 : pop m s.stack sp1 with
      | error e2 => simp only [hp2] at h ⊢; exact h
      | ok r2 =>
        obtain ⟨left, sp2⟩ := r2
        simp only [hp2] at h ⊢
        cases hp3 : push m s.stack sp2 ((s.newcode + 1 : Nat) : Int) with
        | error e3 => simp only [hp3] at h ⊢; exact h
        | ok r3 => simp only [hp3] at h; exact absurd h (by simp)

theorem whileBody_extend_ok (m : Nat) (s : DecState) (st : Step) (more : List Nat)
    (h : whileBody m s = .ok st) :
    whileBody m (s.extendFile more) = .ok (st.extendFile more) := by
  rcases whileBody_cases m s st h with ⟨v, b1, leaf, b2, hr, hv, hl, hsp, rfl⟩ |
    ⟨b1, hr, he, hc, hi, hsp, hm, rfl⟩ | ⟨b1, hr, he, rfl⟩
  · have hr' : readBits (s.extendFile more).bitin 1 = .ok (v, extendFile b1 more) :=
      readBits_extend s.bitin b1 1 v more hr
    have hl' : readBits (extendFile b1 more) (bits (s.extendFile more).newcode : Int) =
        .ok (leaf, extendFile b2 more) := readBits_extend b1 b2 _ leaf more hl
    rw [whileBody_of_read m _ v _ hr', if_pos hv,
      openBranch_ok m (s.extendFile more) _ _ leaf hl' hsp]
    simp only [Step.extendFile, DecState.extendFile]
  · have hr' : readBits (s.extendFile more).bitin 1 = .ok (0, extendFile b1 more) :=
      readBits_extend s.bitin b1 1 0 more hr
    rw [whileBody_of_read m _ 0 _ hr', if_neg (by simp),
      closeBranch_reduced m (s.extendFile more) _ he hc hi hsp (by
        show s.sp ≤ m
        omega)]
    simp only [Step.extendFile, DecState.extendFile]
  · have hr' : readBits (s.extendFile more).bitin 1 = .ok (0, extendFile b1 more) :=
      readBits_extend s.bitin b1 1 0 more hr
    rw [whileBody_of_read m _ 0 _ hr', if_neg (by simp),
      closeBranch_closed m (s.extendFile more) _ he]
    simp only [Step.extendFile, DecState.extendFile]

theorem whileBody_extend_error (m : Nat) (s : DecState) (e : Fault) (more : List Nat)
    (h : whileBody m s = .error e) (hne : e ≠ .unexpectedEndOfFile) :
    whileBody m (s.extendFile more) = .error e := by
  cases hr : readBits s.bitin 1 with
  | error e' =>
    simp only [whileBody, hr, Except.error.injEq] at h
    exact absurd (h ▸ readBits_error _ _ _ hr) hne
  | ok r =>
    obtain ⟨v, b1⟩ := r
    have hr' : readBits (s.extendFile more).bitin 1 = .ok (v, extendFile b1 more) :=
      readBits_extend s.bitin b1 1 v more hr
    rw [whileBody_of_read m s v b1 hr] at h
    rw [whileBody_of_read m _ v _ hr']
    by_cases hv : v = 0
    · simp only [hv, ne_eq, not_true_eq_false, if_false] at h ⊢
      exact closeBranch_extend_error m s b1 more e h
    · simp only [ne_eq, hv, not_false_eq_true, if_true] at h ⊢
      simp only [openBranch] at h ⊢
      cases hl : readBits b1 (bits s.newcode : Int) with
      | error e' =>
        simp only [hl, Except.error.injEq] at h
        exact absurd (h ▸ readBits_error _ _ _ hl) hne
      | ok r2 =>
        obtain ⟨leaf, b2⟩ := r2
        have hl' : readBits (extendFile b1 more) (bits (s.extendFile more).newcode : Int) =
            .ok (leaf, extendFile b2 more) := readBits_extend b1 b2 _ leaf more hl
        simp only [hl] at h
        simp only [hl']
        cases hp : push m s.stack s.sp leaf with
        | error e3 =>
          simp only [hp] at h
          have hp' : push m (s.extendFile more).stack (s.extendFile more).sp leaf =
              .error e3 := hp
          simp only [hp', h]
        | ok r3 =>
          simp only [hp] at h
          exact absurd h (by simp)

theorem whileLoop_extend (m : Nat) (more : List Nat) (fuel : Nat) :
    ∀ (fuel' : Nat) (s : DecState), fuel ≤ fuel' →
      (∀ s', whileLoop m fuel s = .ok s' →
        whileLoop m fuel' (s.extendFile more) = .ok (s'.extendFile more)) ∧
      (∀ e, whileLoop m fuel s = .error e → e ≠ .unexpectedEndOfFile → e ≠ .outOfFuel →
        whileLoop m fuel' (s.extendFile more) = .error e) := by
  induction fuel with
  | zero =>
    intro fuel' s _
    refine ⟨fun s' h => ?_, fun e h _ h2 => ?_⟩
    · simp [whileLoop] at h
    · simp only [whileLoop, Except.error.injEq] at h
      exact absurd h.symm h2
  | succ fuel ih =>
    intro fuel' s hf
    obtain ⟨f', rfl⟩ : ∃ f', fuel' = f' + 1 := ⟨fuel' - 1, by omega⟩
    have hf' : fuel ≤ f' := by omega
    cases hb : whileBody m s with
    | error e0 =>
      refine ⟨fun s' h => ?_, fun e h h1 _ => ?_⟩
      · simp [whileLoop, hb] at h
      · simp only [whileLoop, hb, Except.error.injEq] at h
        subst h
        simp only [whileLoop, whileBody_extend_error m s e0 more hb h1]
    | ok st =>
      have hb' := whileBody_extend_ok m s st more hb
      cases st with
      | closed s1 =>
        refine ⟨fun s' h => ?_, fun e h _ _ => ?_⟩
        · simp only [whileLoop, hb, Except.ok.injEq] at h
          subst h
          simp only [whileLoop, hb', Step.extendFile]
        · simp [whileLoop, hb] at h
      | pushed s1 =>
        obtain ⟨i1, i2⟩ := ih f' s1 hf'
        refine ⟨fun s' h => ?_, fun e h h1 h2 => ?_⟩
        · simp only [whileLoop, hb] at h
          simp only [whileLoop, hb', Step.extendFile]
          exact i1 s' h
        · simp only [whileLoop, hb] at h
          simp only [whileLoop, hb', Step.extendFile]
          exact i2 e h h1 h2
      | reduced s1 =>
        obtain ⟨i1, i2⟩ := ih f' s1 hf'
        refine ⟨fun s' h => ?_, fun e h h1 h2 => ?_⟩
        · simp only [whileLoop, hb] at h
          simp only [whileLoop, hb', Step.extendFile]
          exact i1 s' h
        · simp only [whileLoop, hb] at h
          simp only [whileLoop, hb', Step.extendFile]
          exact i2 e h h1 h2

theorem unread_extendFile (bitin : BITIN) (more : List Nat) :
    unread bitin ≤ unread (extendFile bitin more) := by
  simp only [unread, extendFile, List.length_append]; omega

theorem top_error (m : Nat) (stack : Nat → Int) (sp : Nat) (e : Fault)
    (h : top m stack sp = .error e) : e = .stackUnderflow ∨ e = .stackOverflow := by
  simp only [top] at h
  split_ifs at h
  all_goals (simp at h; subst h; simp)

theorem decodeElement_extend (m : Nat) (s : DecState) (more : List Nat) :
    (∀ root s', decodeElement m s = .ok (root, s') →
      decodeElement m (s.extendFile more) = .ok (root, s'.extendFile more)) ∧
    (∀ e, decodeElement m s = .error e → e ≠ .unexpectedEndOfFile →
      decodeElement m (s.extendFile more) = .error e ∧ e ≠ .outOfFuel) := by
  have hf : unread s.bitin + 1 ≤ unread (s.extendFile more).bitin + 1 :=
    Nat.succ_le_succ (unread_extendFile s.bitin more)
  obtain ⟨i1, i2⟩ := whileLoop_extend m more (unread s.bitin + 1)
    (unread (s.extendFile more).bitin + 1) { s with exc := 0, sp := 0 } hf
  have hfuel := whileLoop_fuel m (unread s.bitin + 1) { s with exc := 0, sp := 0 }
    (Nat.lt_succ_self _)
  refine ⟨fun root s' h => ?_, fun e h h1 => ?_⟩
  · obtain ⟨hw, ht⟩ := decodeElement_ok m s s' root h
    have hw' := i1 s' hw
    have ht' : top m (s'.extendFile more).stack (s'.extendFile more).sp = .ok root := ht
    simp only [decodeElement]
    have e1 : ({ s.extendFile more with exc := 0, sp := 0 } : DecState) =
        DecState.extendFile { s with exc := 0, sp := 0 } more := rfl
    rw [e1, hw']
    simp only [ht']
  · simp only [decodeElement] at h
    cases hw : whileLoop m (unread s.bitin + 1) { s with exc := 0, sp := 0 } with
    | error e0 =>
      simp only [hw, Except.error.injEq] at h
      subst h
      have h2 : e0 ≠ .outOfFuel := fun h2 => hfuel (h2 ▸ hw)
      have hw' := i2 e0 hw h1 h2
      refine ⟨?_, h2⟩
      simp only [decodeElement]
      have e1 : ({ s.extendFile more with exc := 0, sp := 0 } : DecState) =
          DecState.extendFile { s with exc := 0, sp := 0 } more := rfl
      rw [e1, hw']
    | ok s1 =>
      simp only [hw] at h
      have hw' := i1 s1 hw
      cases ht : top m s1.stack s1.sp with
      | ok r => simp only [ht] at h; exact absurd h (by simp)
      | error e1 =>
        simp only [ht, Except.error.injEq] at h
        subst h
        have ht' : top m (s1.extendFile more).stack (s1.extendFile more).sp = .error e1 := ht
        refine ⟨?_, ?_⟩
        · simp only [decodeElement]
          have e2 : ({ s.extendFile more with exc := 0, sp := 0 } : DecState) =
              DecState.extendFile { s with exc := 0, sp := 0 } more := rfl
          rw [e2, hw']
          simp only [ht']
        · rcases top_error _ _ _ _ ht with h' | h' <;> simp [h']

theorem decodeSeq_extend (m : Nat) (more : List Nat) (k : Nat) : ∀ s : DecState,
    (∀ roots s', decodeSeq m k s = .ok (roots, s') →
      decodeSeq m k (s.extendFile more) = .ok (roots, s'.extendFile more)) ∧
    (∀ e, decodeSeq m k s = .error e → e ≠ .unexpectedEndOfFile →
      decodeSeq m k (s.extendFile more) = .error e ∧ e ≠ .outOfFuel) := by
  induction k with
  | zero =>
    intro s
    refine ⟨fun roots s' h => ?_, fun e h _ => ?_⟩
    · simp only [decodeSeq, Except.ok.injEq, Prod.mk.injEq] at h ⊢
      exact ⟨h.1, by rw [h.2]⟩
    · simp [decodeSeq] at h
  | succ k ih =>
    intro s
    obtain ⟨d1, d2⟩ := decodeElement_extend m s more
    cases he : decodeElement m s with
    | error e0 =>
      refine ⟨fun roots s' h => ?_, fun e h h1 => ?_⟩
      · simp [decodeSeq, he] at h
      · simp only [decodeSeq, he, Except.error.injEq] at h
        subst h
        obtain ⟨h2, h3⟩ := d2 e0 he h1
        exact ⟨by simp only [decodeSeq, h2], h3⟩
    | ok r =>
      obtain ⟨root, s1⟩ := r
      have he' := d1 root s1 he
      obtain ⟨i1, i2⟩ := ih s1
      refine ⟨fun roots s' h => ?_, fun e h h1 => ?_⟩
      · simp only [decodeSeq, he] at h
        cases hd : decodeSeq m k s1 with
        | error e1 => simp only [hd] at h; exact absurd h (by simp)
        | ok r2 =>
          obtain ⟨roots2, s2⟩ := r2
          simp only [hd, Except.ok.injEq, Prod.mk.injEq] at h
          simp only [decodeSeq, he', i1 roots2 s2 hd, Except.ok.injEq, Prod.mk.injEq]
          exact ⟨h.1, by rw [h.2]⟩
      · simp only [decodeSeq, he] at h
        cases hd : decodeSeq m k s1 with
        | error e1 =>
          simp only [hd, Except.error.injEq] at h
          subst h
          obtain ⟨h2, h3⟩ := i2 e1 hd h1
          exact ⟨by simp only [decodeSeq, he', h2], h3⟩
        | ok r2 => simp only [hd] at h; exact absurd h (by simp)


/-! ## Initialisation and whole runs -/

theorem initState_ok (m : Nat) (file : List Nat) (s : DecState)
    (h : initState m file = .ok s) :
    s.bitin = createBitin file ∧ s.newcode = CHAR_SIZE ∧ s.sp = 0 ∧ s.exc = 0 := by
  simp only [initState] at h
  cases h1 : initTerminals m (fun _ => { left := 0, right := 0 }) with
  | error e => simp only [h1] at h; exact absurd h (by simp)
  | ok r1 =>
    simp only [h1] at h
    cases h2 : initNonterminals m r1 with
    | error e => simp only [h2] at h; exact absurd h (by simp)
    | ok r2 =>
      simp only [h2, Except.ok.injEq] at h
      subst h
      exact ⟨rfl, rfl, rfl, rfl⟩

theorem initState_extend_ok (m : Nat) (file more : List Nat) (s : DecState)
    (h : initState m file = .ok s) :
    initState m (file ++ more) = .ok (s.extendFile more) := by
  simp only [initState] at h ⊢
  cases h1 : initTerminals m (fun _ => { left := 0, right := 0 }) with
  | error e => simp only [h1] at h; exact absurd h (by simp)
  | ok r1 =>
    simp only [h1] at h ⊢
    cases h2 : initNonterminals m r1 with
    | error e => simp only [h2] at h; exact absurd h (by simp)
    | ok r2 =>
      simp only [h2, Except.ok.injEq] at h ⊢
      subst h
      rfl

theorem initState_error (m : Nat) (file file' : List Nat) (e : Fault)
    (h : initState m file = .error e) : initState m file' = .error e := by
  simp only [initState] at h ⊢
  cases h1 : initTerminals m (fun _ => { left := 0, right := 0 }) with
  | error e1 => simp only [h1] at h ⊢; exact h
  | ok r1 =>
    simp only [h1] at h ⊢
    cases h2 : initNonterminals m r1 with
    | error e2 => simp only [h2] at h ⊢; exact h
    | ok r2 => simp only [h2] at h; exact absurd h (by simp)

theorem decode_ok (num_rules seq_len : Nat) (file : List Nat) (d : Decoded)
    (h : decode num_rules seq_len file = .ok d) :
    ∃ s0, initState (maxRules num_rules) file = .ok s0 ∧
      decodeSeq (maxRules num_rules) seq_len s0 = .ok (d.compressed_seq, d.state) := by
  unfold decode at h
  generalize maxRules num_rules = m at h ⊢
  cases h1 : initState m file with
  | error e => simp only [h1] at h; exact absurd h (by simp)
  | ok s0 =>
    simp only [h1] at h
    cases h2 : decodeSeq m seq_len s0 with
    | error e => simp only [h2] at h; exact absurd h (by simp)
    | ok r =>
      obtain ⟨roots, s'⟩ := r
      simp only [h2, Except.ok.injEq] at h
      subst h
      exact ⟨s0, rfl, h2⟩

/-- A run on a stream cut short of what the full run consumes ends at the end
of the stream. -/
theorem decode_truncated (num_rules seq_len : Nat) (file : List Nat) (d : Decoded)
    (h : decode num_rules seq_len file = .ok d) (pre more : List Nat)
    (hf : file = pre ++ more)
    (hlen : pre.length < file.length - d.state.bitin.file.length) :
    decode num_rules seq_len pre = .error .unexpectedEndOfFile := by
  subst hf
  obtain ⟨s0, h1, h2⟩ := decode_ok _ _ _ _ h
  unfold decode
  generalize maxRules num_rules = m at h1 h2 ⊢
  cases hp : initState m pre with
  | error e =>
    rw [initState_error _ pre (pre ++ more) e hp] at h1
    exact absurd h1 (by simp)
  | ok p0 =>
    have h1' := initState_extend_ok _ pre more p0 hp
    rw [h1] at h1'
    simp only [Except.ok.injEq] at h1'
    subst h1'
    obtain ⟨i1, i2⟩ := decodeSeq_extend m more seq_len p0
    cases hq : decodeSeq m seq_len p0 with
    | error e =>
      by_cases he : e = .unexpectedEndOfFile
      · subst he; simp only [hq]
      · obtain ⟨h3, -⟩ := i2 e hq he
        rw [h3] at h2
        exact absurd h2 (by simp)
    | ok r =>
      obtain ⟨roots, s'⟩ := r
      have h3 := i1 roots s' hq
      rw [h3] at h2
      simp only [Except.ok.injEq, Prod.mk.injEq] at h2
      have h4 : d.state.bitin.file = s'.bitin.file ++ more := by
        rw [← h2.2]; rfl
      rw [h4] at hlen
      simp only [List.length_append] at hlen
      omega

theorem decode_trace (num_rules seq_len : Nat) (file : List Nat) :
    CounterTracks CHAR_SIZE (decodeTrace num_rules seq_len file) ∧
    (∀ e ∈ decodeTrace num_rules seq_len file, whileBody (maxRules num_rules) e.1 = .ok e.2) ∧
    (∀ d, decode num_rules seq_len file = .ok d →
      d.state.newcode = CHAR_SIZE + countReduced (decodeTrace num_rules seq_len file) ∧
      d.compressed_seq = closedRoots (decodeTrace num_rules seq_len file) ∧
      d.compressed_seq.length = seq_len) := by
  have hd : ∀ d, decode num_rules seq_len file = .ok d →
      ∃ s0, initState (maxRules num_rules) file = .ok s0 ∧
        decodeSeq (maxRules num_rules) seq_len s0 = .ok (d.compressed_seq, d.state) :=
    fun d h => decode_ok _ _ _ _ h
  unfold decodeTrace
  generalize decode num_rules seq_len file = res at hd ⊢
  generalize maxRules num_rules = m at hd ⊢
  cases h1 : initState m file with
  | error e =>
    simp only [counterTracks_nil_iff, counterTracks_cons_iff, List.not_mem_nil, false_implies,
      implies_true, true_and]
    intro d h
    obtain ⟨s0, h2, -⟩ := hd d h
    rw [h1] at h2
    exact absurd h2 (by simp)
  | ok s0 =>
    obtain ⟨-, hn, -, -⟩ := initState_ok _ _ _ h1
    obtain ⟨t1, t2, t3⟩ := seqTrace_spec m seq_len s0
    refine ⟨hn ▸ t1, t2, ?_⟩
    intro d h
    obtain ⟨s0', h1', h2⟩ := hd d h
    rw [h1] at h1'
    simp only [Except.ok.injEq] at h1'
    subst h1'
    have := t3 _ _ h2
    rw [hn] at this
    exact this

/-! ## Lemmas on the output stage -/

theorem join_cons (a : String) (l : List String) : String.join (a :: l) = a ++ String.join l := by
  apply String.ext
  simp [String.join_eq]

theorem join_nil : String.join [] = "" := rfl

theorem intercalate_go (s : String) (l : List String) : ∀ acc : String,
    String.intercalate.go acc s l = acc ++ String.join (l.map (fun x => s ++ x)) := by
  induction l with
  | nil => intro acc; simp [String.intercalate.go, join_nil]
  | cons x l ih =>
    intro acc
    simp only [String.intercalate.go, ih, List.map_cons, join_cons, String.append_assoc]

theorem intercalate_cons_cons (s a b : String) (l : List String) :
    String.intercalate s (a :: b :: l) = a ++ s ++ String.intercalate s (b :: l) := by
  simp only [String.intercalate, intercalate_go, List.map_cons, join_cons, String.append_assoc]

theorem seqItems_eq (n : Nat) (hn : n < UINT_MOD) (roots : List Int) (hl : roots.length = n) :
    ∀ (suffix : List Int) (k : Nat), roots.drop k = suffix → k + suffix.length = n →
      String.join ((List.range' k suffix.length).map (seqItem n roots)) =
        String.intercalate "," (suffix.map fmtD) := by
  intro suffix
  induction suffix with
  | nil => intro k _ _; simp [join_nil, String.intercalate]
  | cons x rest ih =>
    intro k hd hk
    simp only [List.length_cons] at hk
    have hx : roots.getD k 0 = x := by
      have hlt : k < roots.length := by omega
      rw [List.getD_eq_getElem _ _ hlt]
      have := List.getElem_drop' (L := roots) (i := k) (j := 0) (by simpa using hlt)
      simp [hd] at this
      exact this
    have hd' : roots.drop (k + 1) = rest := by
      rw [← List.drop_drop, hd]; rfl
    have hlast : (n + UINT_MOD - 1) % UINT_MOD = n - 1 := by
      simp only [UINT_MOD] at hn ⊢; omega
    simp only [List.length_cons, List.range'_succ, List.map_cons, join_cons]
    rw [ih (k + 1) hd' (by omega)]
    simp only [seqItem, hx, hlast]
    cases rest with
    | nil =>
      simp only [List.length_nil] at hk
      have : k = n - 1 := by omega
      simp [this, String.intercalate, String.intercalate.go]
    | cons y rest' =>
      simp only [List.length_cons] at hk
      have : k ≠ n - 1 := by omega
      simp only [List.map_cons, intercalate_cons_cons, this, ne_eq, not_false_eq_true, if_true,
        String.append_assoc]

theorem seqLine_eq (n : Nat) (hn : n < UINT_MOD) (roots : List Int) (hl : roots.length = n) :
    seqLine n roots = "SEQ:" ++ String.intercalate "," (roots.map fmtD) ++ "\n" := by
  have := seqItems_eq n hn roots hl roots 0 (by simp) (by simp [hl])
  rw [hl, ← List.range_eq_range'] at this
  simp only [seqLine, this]

theorem fmtD_natCast (n : Nat) : fmtD (n : Int) = Nat.repr n := by
  simp [fmtD]

theorem toInt32_small (n : Nat) (h : n < 2 ^ 31) : toInt32 n = (n : Int) := by
  have e : n % UINT_MOD = n := Nat.mod_eq_of_lt (by simp only [UINT_MOD]; omega)
  simp only [toInt32, e, if_pos h]


/-! ## Invariants of a run -/

theorem whileLoop_invariant (P : DecState → Prop) (m : Nat)
    (hstep : ∀ s st, P s → whileBody m s = .ok st → P st.state) (fuel : Nat) :
    ∀ s s', P s → whileLoop m fuel s = .ok s' → P s' := by
  induction fuel with
  | zero => intro s s' _ h; simp [whileLoop] at h
  | succ fuel ih =>
    intro s s' hp h
    simp only [whileLoop] at h
    cases hb : whileBody m s with
    | error e => simp only [hb] at h; exact absurd h (by simp)
    | ok st =>
      have hq := hstep s st hp hb
      cases st with
      | closed s1 =>
        simp only [hb, Except.ok.injEq] at h
        subst h; exact hq
      | pushed s1 => simp only [hb] at h; exact ih s1 s' hq h
      | reduced s1 => simp only [hb] at h; exact ih s1 s' hq h

theorem decodeSeq_invariant (P : DecState → Prop) (m : Nat)
    (hstep : ∀ s st, P s → whileBody m s = .ok st → P st.state)
    (hreset : ∀ s : DecState, P s → P { s with exc := 0, sp := 0 }) (k : Nat) :
    ∀ s roots s', P s → decodeSeq m k s = .ok (roots, s') → P s' := by
  induction k with
  | zero =>
    intro s roots s' hp h
    simp only [decodeSeq, Except.ok.injEq, Prod.mk.injEq] at h
    rw [← h.2]; exact hp
  | succ k ih =>
    intro s roots s' hp h
    simp only [decodeSeq] at h
    cases he : decodeElement m s with
    | error e => simp only [he] at h; exact absurd h (by simp)
    | ok r =>
      obtain ⟨root, s1⟩ := r
      simp only [he] at h
      obtain ⟨hw, -⟩ := decodeElement_ok m s s1 root he
      have h1 := whileLoop_invariant P m hstep _ _ _ (hreset s hp) hw
      cases hd : decodeSeq m k s1 with
      | error e => simp only [hd] at h; exact absurd h (by simp)
      | ok r2 =>
        obtain ⟨roots2, s2⟩ := r2
        simp only [hd, Except.ok.injEq, Prod.mk.injEq] at h
        rw [← h.2]
        exact ih s1 roots2 s2 h1 hd

theorem newcode_lt_step (m : Nat) (s : DecState) (st : Step) (hp : s.newcode < 2 ^ 31)
    (h : whileBody m s = .ok st) : st.state.newcode < 2 ^ 31 := by
  rcases whileBody_cases m s st h with ⟨v, b1, leaf, b2, -, -, -, -, rfl⟩ |
    ⟨b1, -, -, -, hi, -, -, rfl⟩ | ⟨b1, -, -, rfl⟩
  · exact hp
  · exact hi
  · exact hp

theorem decode_newcode_lt (num_rules seq_len : Nat) (file : List Nat) (d : Decoded)
    (h : decode num_rules seq_len file = .ok d) : d.state.newcode < 2 ^ 31 := by
  obtain ⟨s0, h1, h2⟩ := decode_ok _ _ _ _ h
  generalize maxRules num_rules = m at h1 h2
  obtain ⟨-, hn, -, -⟩ := initState_ok _ _ _ h1
  refine decodeSeq_invariant (fun s => s.newcode < 2 ^ 31) m (newcode_lt_step m)
    (fun s hs => hs) seq_len s0 _ _ ?_ h2
  show s0.newcode < 2 ^ 31
  rw [hn]; decide

theorem ruleLine_eq (i : Nat) (r : RULE) (h : i < 2 ^ 31) :
    ruleLine i r = "R" ++ Nat.repr i ++ ":" ++ fmtD r.left ++ "," ++ fmtD r.right ++ "\n" := by
  simp only [ruleLine, toInt32_small i h, fmtD_natCast]

/-! ## The initial table -/

theorem foldlM_initRule (m : Nat) (g : Nat → RULE) (l : List Nat) (hl : ∀ i ∈ l, i < m) :
    ∀ rule : Nat → RULE,
      l.foldlM (fun rule i => initRule m rule i (g i)) rule =
        .ok (fun j => if j ∈ l then g j else rule j) := by
  induction l with
  | nil => intro rule; simp [List.foldlM, pure, Except.pure]
  | cons i l ih =>
    intro rule
    have hi : i < m := hl i (by simp)
    have e : initRule m rule i (g i) = .ok (store rule i (g i)) := by
      simp only [initRule, hi, if_true]
    rw [List.foldlM_cons, e]
    simp only [bind, Except.bind]
    rw [ih (fun j hj => hl j (by simp [hj]))]
    congr 1
    funext j
    by_cases h1 : j ∈ l
    · simp [h1]
    · by_cases h2 : j = i
      · simp [h2, store]
      · simp [h1, h2, store]

theorem foldlM_initRule_fault (m : Nat) (g : Nat → RULE) (l : List Nat)
    (hl : ∃ i ∈ l, ¬ i < m) :
    ∀ rule : Nat → RULE,
      l.foldlM (fun rule i => initRule m rule i (g i)) rule = .error .ruleInitOutOfBounds := by
  induction l with
  | nil => obtain ⟨i, hi, -⟩ := hl; simp at hi
  | cons i l ih =>
    intro rule
    rw [List.foldlM_cons]
    by_cases hi : i < m
    · have e : initRule m rule i (g i) = .ok (store rule i (g i)) := by
        simp only [initRule, hi, if_true]
      rw [e]
      simp only [bind, Except.bind]
      apply ih
      obtain ⟨k, hk, hk'⟩ := hl
      simp only [List.mem_cons] at hk
      rcases hk with rfl | hk
      · exact absurd hi hk'
      · exact ⟨k, hk, hk'⟩
    · have e : initRule m rule i (g i) = .error .ruleInitOutOfBounds := by
        simp only [initRule, hi, if_false]
      rw [e]
      simp only [bind, Except.bind]

theorem initState_eq (m : Nat) (file : List Nat) (hm : 257 ≤ m) :
    initState m file = .ok { bitin := createBitin file, rule := initTable m,
                             stack := fun _ => 0, sp := 0, exc := 0, newcode := CHAR_SIZE } := by
  have h1 := foldlM_initRule m (fun i => { left := (i : Int), right := DUMMY_CODE })
    (List.range (CHAR_SIZE + 1)) (fun i hi => by
      rw [List.mem_range] at hi; simp only [CHAR_SIZE] at hi; omega)
    (fun _ => { left := 0, right := 0 })
  have h2 := foldlM_initRule m (fun _ => { left := DUMMY_CODE, right := DUMMY_CODE })
    (List.range' (CHAR_SIZE + 1) (m - (CHAR_SIZE + 1))) (fun i hi => by
      rw [List.mem_range'_1] at hi; simp only [CHAR_SIZE] at hi; omega)
  unfold initState initTerminals initNonterminals
  rw [h1]
  simp only
  rw [h2]
  rfl

theorem initState_fault (m : Nat) (file : List Nat) (hm : m < 257) :
    initState m file = .error .ruleInitOutOfBounds := by
  have h1 := foldlM_initRule_fault m (fun i => { left := (i : Int), right := DUMMY_CODE })
    (List.range (CHAR_SIZE + 1)) ⟨256, by simp [CHAR_SIZE], by omega⟩
    (fun _ => { left := 0, right := 0 })
  unfold initState initTerminals
  rw [h1]

/-! ## Larger tables

A successful run is unchanged, up to the unassigned slots of the table, when
the capacity grows or the initial table is replaced. -/

theorem whileBody_larger (m m' : Nat) (hm : m ≤ m') (s : DecState) (st : Step)
    (R' : Nat → RULE) (h : whileBody m s = .ok st) :
    ∃ R'', whileBody m' (s.withRule R') = .ok (st.withRule R'') ∧
      (TablesAgree s.newcode s.rule R' → TablesAgree st.state.newcode st.state.rule R'') := by
  rcases whileBody_cases m s st h with ⟨v, b1, leaf, b2, hr, hv, hl, hsp, rfl⟩ |
    ⟨b1, hr, he, hc, hi, hsp, hm1, rfl⟩ | ⟨b1, hr, he, rfl⟩
  · refine ⟨R', ?_, fun ha => ha⟩
    have hr' : readBits (s.withRule R').bitin 1 = .ok (v, b1) := hr
    have hl' : readBits b1 (bits (s.withRule R').newcode : Int) = .ok (leaf, b2) := hl
    have hsp' : (s.withRule R').sp < m' := lt_of_lt_of_le hsp hm
    rw [whileBody_of_read m' _ v b1 hr', if_pos hv, openBranch_ok m' _ b1 b2 leaf hl' hsp']
    rfl
  · refine ⟨store R' (s.newcode + 1) { left := s.stack (s.sp - 2), right := s.stack (s.sp - 1) },
      ?_, ?_⟩
    · have hr' : readBits (s.withRule R').bitin 1 = .ok (0, b1) := hr
      have he' : ((s.withRule R').exc + UINT_MOD - 1) % UINT_MOD ≠ 0 := he
      have hc' : (s.withRule R').newcode + 1 < m' := lt_of_lt_of_le hc hm
      have hi' : (s.withRule R').newcode + 1 < 2 ^ 31 := hi
      have hsp' : 2 ≤ (s.withRule R').sp := hsp
      have hm' : (s.withRule R').sp ≤ m' := by
        show s.sp ≤ m'
        omega
      rw [whileBody_of_read m' _ 0 b1 hr', if_neg (by simp),
        closeBranch_reduced m' _ b1 he' hc' hi' hsp' hm']
      rfl
    · intro ha j h1 h2
      simp only [Step.state] at h2 ⊢
      by_cases e : j = s.newcode + 1
      · simp [store, e]
      · simp only [store, e, if_false]
        exact ha j h1 (by omega)
  · refine ⟨R', ?_, fun ha => ha⟩
    have hr' : readBits (s.withRule R').bitin 1 = .ok (0, b1) := hr
    have he' : ((s.withRule R').exc + UINT_MOD - 1) % UINT_MOD = 0 := he
    rw [whileBody_of_read m' _ 0 b1 hr', if_neg (by simp), closeBranch_closed m' _ b1 he']
    rfl

theorem whileLoop_larger (m m' : Nat) (hm : m ≤ m') (fuel : Nat) :
    ∀ (s s' : DecState) (R' : Nat → RULE), whileLoop m fuel s = .ok s' →
      ∃ R'', whileLoop m' fuel (s.withRule R') = .ok (s'.withRule R'') ∧
        (TablesAgree s.newcode s.rule R' → TablesAgree s'.newcode s'.rule R'') := by
  induction fuel with
  | zero => intro s s' R' h; simp [whileLoop] at h
  | succ fuel ih =>
    intro s s' R' h
    simp only [whileLoop] at h
    cases hb : whileBody m s with
    | error e => simp only [hb] at h; exact absurd h (by simp)
    | ok st =>
      obtain ⟨R1, h1, h2⟩ := whileBody_larger m m' hm s st R' hb
      cases st with
      | closed s1 =>
        simp only [hb, Except.ok.injEq] at h
        subst h
        exact ⟨R1, by simp only [whileLoop, h1, Step.withRule], h2⟩
      | pushed s1 =>
        simp only [hb] at h
        obtain ⟨R2, h3, h4⟩ := ih s1 s' R1 h
        exact ⟨R2, by simp only [whileLoop, h1, Step.withRule]; exact h3,
          fun ha => h4 (h2 ha)⟩
      | reduced s1 =>
        simp only [hb] at h
        obtain ⟨R2, h3, h4⟩ := ih s1 s' R1 h
        exact ⟨R2, by simp only [whileLoop, h1, Step.withRule]; exact h3,
          fun ha => h4 (h2 ha)⟩

theorem decodeElement_larger (m m' : Nat) (hm : m ≤ m') (s s' : DecState) (root : Int)
    (R' : Nat → RULE) (h : decodeElement m s = .ok (root, s')) :
    ∃ R'', decodeElement m' (s.withRule R') = .ok (root, s'.withRule R'') ∧
      (TablesAgree s.newcode s.rule R' → TablesAgree s'.newcode s'.rule R'') := by
  obtain ⟨hw, ht⟩ := decodeElement_ok m s s' root h
  obtain ⟨R2, h1, h2⟩ := whileLoop_larger m m' hm _ _ s' R' hw
  refine ⟨R2, ?_, h2⟩
  obtain ⟨h3, h4, h5⟩ := top_ok _ _ _ _ ht
  have ht' : top m' (s'.withRule R2).stack (s'.withRule R2).sp = .ok root := by
    show top m' s'.stack s'.sp = .ok root
    have h6 : s'.sp ≠ 0 := by omega
    have h7 : s'.sp - 1 < m' := by omega
    simp only [top, h6, h7, if_true, if_false, h3]
  unfold decodeElement
  have e1 : ({ s.withRule R' with exc := 0, sp := 0 } : DecState) =
      DecState.withRule { s with exc := 0, sp := 0 } R' := rfl
  have e2 : (s.withRule R').bitin = s.bitin := rfl
  rw [e1, e2, h1]
  simp only [ht']

theorem decodeSeq_larger (m m' : Nat) (hm : m ≤ m') (k : Nat) :
    ∀ (s s' : DecState) (roots : List Int) (R' : Nat → RULE),
      decodeSeq m k s = .ok (roots, s') →
      ∃ R'', decodeSeq m' k (s.withRule R') = .ok (roots, s'.withRule R'') ∧
        (TablesAgree s.newcode s.rule R' → TablesAgree s'.newcode s'.rule R'') := by
  induction k with
  | zero =>
    intro s s' roots R' h
    simp only [decodeSeq, Except.ok.injEq, Prod.mk.injEq] at h
    obtain ⟨rfl, rfl⟩ := h
    exact ⟨R', rfl, fun ha => ha⟩
  | succ k ih =>
    intro s s' roots R' h
    simp only [decodeSeq] at h
    cases he : decodeElement m s with
    | error e => simp only [he] at h; exact absurd h (by simp)
    | ok r =>
      obtain ⟨root, s1⟩ := r
      simp only [he] at h
      cases hd : decodeSeq m k s1 with
      | error e => simp only [hd] at h; exact absurd h (by simp)
      | ok r2 =>
        obtain ⟨roots2, s2⟩ := r2
        simp only [hd, Except.ok.injEq, Prod.mk.injEq] at h
        obtain ⟨rfl, rfl⟩ := h
        obtain ⟨R1, h1, h2⟩ := decodeElement_larger m m' hm s s1 root R' he
        obtain ⟨R2, h3, h4⟩ := ih s1 s2 roots2 R1 hd
        exact ⟨R2, by simp only [decodeSeq, h1, h3], fun ha => h4 (h2 ha)⟩

theorem ruleLines_agree (nc : Nat) (R R' : Nat → RULE) (h : TablesAgree nc R R') :
    ruleLines R' nc = ruleLines R nc := by
  unfold ruleLines ruleIds
  apply List.map_congr_left
  intro i hi
  rw [List.mem_range'_1] at hi
  rw [h i (by omega) (by omega)]

/-- A run from the reference state with a table of capacity `m0` determines the
output of `DecodeCFG` for every header whose capacity is at least `m0` and 257. -/
theorem DecodeCFG_of_reference (num_rules seq_len : Nat) (file : List Nat) (out : String)
    (m0 : Nat) (hm0 : m0 ≤ maxRules num_rules) (h257 : 257 ≤ maxRules num_rules)
    (roots : List Int) (s' : DecState)
    (href : decodeSeq m0 seq_len (refState file) = .ok (roots, s')) :
    DecodeCFG num_rules seq_len file out =
      (.ok (), out ++ (String.join (ruleLines s'.rule s'.newcode) ++ seqLine seq_len roots)) := by
  unfold DecodeCFG decode
  generalize maxRules num_rules = m at hm0 h257
  rw [initState_eq m file h257]
  obtain ⟨R2, h1, h2⟩ := decodeSeq_larger m0 m hm0 seq_len _ _ roots (initTable m) href
  have e : (refState file).withRule (initTable m) =
      { bitin := createBitin file, rule := initTable m, stack := fun _ => 0,
        sp := 0, exc := 0, newcode := CHAR_SIZE } := rfl
  rw [e] at h1
  simp only [h1]
  have ha := h2 (fun j hj1 hj2 => by
    have : (refState file).newcode = CHAR_SIZE := rfl
    omega)
  show (Except.ok (), out ++ (String.join (ruleLines R2 s'.newcode) ++ seqLine seq_len roots)) = _
  rw [ruleLines_agree _ _ _ ha]

theorem DecodeCFG_of_referenceText (num_rules seq_len : Nat) (file : List Nat) (out : String)
    (m0 : Nat) (text : String) (hm0 : m0 ≤ maxRules num_rules) (h257 : 257 ≤ maxRules num_rules)
    (href : referenceText m0 seq_len file = some text) :
    DecodeCFG num_rules seq_len file out = (.ok (), out ++ text) := by
  unfold referenceText at href
  cases hd : decodeSeq m0 seq_len (refState file) with
  | error e => rw [hd] at href; exact absurd href (by simp)
  | ok r =>
    obtain ⟨roots, s'⟩ := r
    rw [hd] at href
    simp only [Option.some.injEq] at href
    rw [DecodeCFG_of_reference num_rules seq_len file out m0 hm0 h257 roots s' hd, href]

theorem referenceText_zero (m0 : Nat) (file : List Nat) :
    referenceText m0 0 file = some "SEQ:\n" := by
  have h1 : ∀ R : Nat → RULE, ruleLines R CHAR_SIZE = [] := fun _ => rfl
  have h2 : seqLine 0 [] = "SEQ:\n" := by decide
  unfold referenceText
  simp only [decodeSeq]
  show some (String.join (ruleLines _ CHAR_SIZE) ++ seqLine 0 []) = _
  rw [h1, h2]
  rfl

/-- The iteration bound of the embedding is never what ends a run. -/
theorem decode_ne_outOfFuel (num_rules seq_len : Nat) (file : List Nat) :
    decode num_rules seq_len file ≠ .error .outOfFuel := by
  unfold decode
  generalize maxRules num_rules = m
  by_cases hm : 257 ≤ m
  · rw [initState_eq m file hm]
    simp only
    cases hd : decodeSeq m seq_len _ with
    | ok r => simp
    | error e =>
      simp only [ne_eq, Except.error.injEq]
      intro he
      subst he
      exact (decodeSeq_extend m [] seq_len _).2 _ hd (by simp) |>.2 rfl
  · rw [initState_fault m file (by omega)]
    simp

/-! ## Rule slots and counter in one iteration -/

theorem whileBody_rule_change (m : Nat) (s : DecState) (st : Step)
    (h : whileBody m s = .ok st) (j : Nat) (hj : st.state.rule j ≠ s.rule j) :
    st.isReduced = true ∧ j = s.newcode + 1 ∧ j < m := by
  rcases whileBody_cases m s st h with ⟨v, b1, leaf, b2, -, -, -, -, rfl⟩ |
    ⟨b1, -, -, hc, -, -, -, rfl⟩ | ⟨b1, -, -, rfl⟩
  · exact absurd rfl hj
  · by_cases e : j = s.newcode + 1
    · exact ⟨rfl, e, e ▸ hc⟩
    · exact absurd (by simp [Step.state, store, e]) hj
  · exact absurd rfl hj

theorem whileBody_reduced_iff (m : Nat) (s : DecState) (st : Step)
    (h : whileBody m s = .ok st) :
    (st.isReduced = true ↔
      (∃ b1, readBits s.bitin 1 = .ok (0, b1)) ∧ (s.exc + UINT_MOD - 1) % UINT_MOD ≠ 0) ∧
    st.state.newcode = s.newcode + (if st.isReduced then 1 else 0) := by
  refine ⟨?_, whileBody_newcode m s st h⟩
  rcases whileBody_cases m s st h with ⟨v, b1, leaf, b2, hr, hv, -, -, rfl⟩ |
    ⟨b1, hr, he, -, -, -, -, rfl⟩ | ⟨b1, hr, he, rfl⟩
  · simp only [Step.isReduced, Bool.false_eq_true, false_iff, not_and, not_not]
    rintro ⟨b1', hr'⟩
    rw [hr] at hr'
    simp only [Except.ok.injEq, Prod.mk.injEq] at hr'
    exact absurd hr'.1 hv
  · simp only [Step.isReduced, true_iff]
    exact ⟨⟨b1, hr⟩, he⟩
  · simp only [Step.isReduced, Bool.false_eq_true, false_iff, not_and, not_not]
    intro _; exact he

/-! ## Invariants along a trace -/

theorem whileTrace_inv (P Q : DecState → Prop) (m : Nat) (fuel : Nat) :
    ∀ s : DecState, P s →
      (∀ e ∈ whileTrace m fuel s, whileBody m e.1 = .ok e.2 → P e.1 → StepInv P Q e.2) →
      (∀ e ∈ whileTrace m fuel s, P e.1) ∧ (∀ s', whileLoop m fuel s = .ok s' → Q s') := by
  induction fuel with
  | zero => intro s _ _; simp [whileTrace, whileLoop]
  | succ fuel ih =>
    intro s hp hstep
    cases hb : whileBody m s with
    | error e => simp [whileTrace, whileLoop, hb]
    | ok st =>
      cases st with
      | closed s1 =>
        have h1 := hstep (s, .closed s1) (by simp [whileTrace, hb]) hb hp
        refine ⟨?_, ?_⟩
        · intro e he
          simp only [whileTrace, hb, List.mem_singleton] at he
          subst he; exact hp
        · intro s' hs'
          simp only [whileLoop, hb, Except.ok.injEq] at hs'
          subst hs'; exact h1
      | pushed s1 =>
        have h1 : P s1 := hstep (s, .pushed s1) (by simp [whileTrace, hb]) hb hp
        obtain ⟨i1, i2⟩ := ih s1 h1 (fun e he => hstep e (by simp [whileTrace, hb, he]))
        refine ⟨?_, ?_⟩
        · intro e he
          simp only [whileTrace, hb, List.mem_cons] at he
          rcases he with rfl | he
          · exact hp
          · exact i1 e he
        · intro s' hs'
          simp only [whileLoop, hb] at hs'
          exact i2 s' hs'
      | reduced s1 =>
        have h1 : P s1 := hstep (s, .reduced s1) (by simp [whileTrace, hb]) hb hp
        obtain ⟨i1, i2⟩ := ih s1 h1 (fun e he => hstep e (by simp [whileTrace, hb, he]))
        refine ⟨?_, ?_⟩
        · intro e he
          simp only [whileTrace, hb, List.mem_cons] at he
          rcases he with rfl | he
          · exact hp
          · exact i1 e he
        · intro s' hs'
          simp only [whileLoop, hb] at hs'
          exact i2 s' hs'

theorem seqTrace_inv (P Q : DecState → Prop) (m : Nat)
    (hreset : ∀ s : DecState, Q s → P { s with exc := 0, sp := 0 }) (k : Nat) :
    ∀ s : DecState, Q s →
      (∀ e ∈ seqTrace m k s, whileBody m e.1 = .ok e.2 → P e.1 → StepInv P Q e.2) →
      (∀ e ∈ seqTrace m k s, P e.1) ∧
        (∀ roots s', decodeSeq m k s = .ok (roots, s') → Q s') := by
  induction k with
  | zero =>
    intro s hq _
    refine ⟨by simp [seqTrace], ?_⟩
    intro roots s' h
    simp only [decodeSeq, Except.ok.injEq, Prod.mk.injEq] at h
    rw [← h.2]; exact hq
  | succ k ih =>
    intro s hq hstep
    cases he : decodeElement m s with
    | error e =>
      have hsub : ∀ e' ∈ elementTrace m s, e' ∈ seqTrace m (k + 1) s := by
        intro e' h'; simp only [seqTrace, he]; exact h'
      obtain ⟨w1, -⟩ := whileTrace_inv P Q m _ _ (hreset s hq)
        (fun e' h' => hstep e' (hsub e' h'))
      refine ⟨?_, ?_⟩
      · intro e' h'
        simp only [seqTrace, he] at h'
        exact w1 e' h'
      · intro roots s' h
        simp only [decodeSeq, he] at h
        exact absurd h (by simp)
    | ok r =>
      obtain ⟨root, s1⟩ := r
      obtain ⟨hw, -⟩ := decodeElement_ok m s s1 root he
      have hsub1 : ∀ e' ∈ elementTrace m s, e' ∈ seqTrace m (k + 1) s := by
        intro e' h'; simp only [seqTrace, he]; exact List.mem_append_left _ h'
      have hsub2 : ∀ e' ∈ seqTrace m k s1, e' ∈ seqTrace m (k + 1) s := by
        intro e' h'; simp only [seqTrace, he]; exact List.mem_append_right _ h'
      obtain ⟨w1, w2⟩ := whileTrace_inv P Q m _ _ (hreset s hq)
        (fun e' h' => hstep e' (hsub1 e' h'))
      obtain ⟨i1, i2⟩ := ih s1 (w2 s1 hw) (fun e' h' => hstep e' (hsub2 e' h'))
      refine ⟨?_, ?_⟩
      · intro e' h'
        simp only [seqTrace, he] at h'
        rcases List.mem_append.mp h' with h'' | h''
        · exact w1 e' h''
        · exact i1 e' h''
      · intro roots s' h
        simp only [decodeSeq, he] at h
        cases hd : decodeSeq m k s1 with
        | error e => simp only [hd] at h; exact absurd h (by simp)
        | ok r2 =>
          obtain ⟨roots2, s2⟩ := r2
          simp only [hd, Except.ok.injEq, Prod.mk.injEq] at h
          rw [← h.2]
          exact i2 roots2 s2 hd

/-! ## The open-group counter and the stack depth -/

theorem balanced_pushed (m : Nat) (hm : m < UINT_MOD) (s s' : DecState)
    (hb : Balanced m s) (h : whileBody m s = .ok (.pushed s')) :
    Balanced m s' ∧ s'.sp = s.sp + 1 ∧ s'.newcode = s.newcode ∧ s'.rule = s.rule ∧
      (∀ j, j ≠ s.sp → s'.stack j = s.stack j) := by
  rcases whileBody_cases m s _ h with ⟨v, b1, leaf, b2, -, -, -, hsp, h'⟩ |
    ⟨b1, -, -, -, -, -, -, h'⟩ | ⟨b1, -, -, h'⟩
  · simp only [Step.pushed.injEq] at h'
    subst h'
    obtain ⟨h1, h2⟩ := hb
    have e1 : (s.sp + 1) % UINT_MOD = s.sp + 1 := Nat.mod_eq_of_lt (by omega)
    refine ⟨⟨?_, ?_⟩, e1, rfl, rfl, ?_⟩
    · show (s.exc + 1) % UINT_MOD = (s.sp + 1) % UINT_MOD
      rw [h1]
    · show (s.sp + 1) % UINT_MOD ≤ m
      rw [e1]; omega
    · intro j hj
      show store s.stack s.sp leaf j = s.stack j
      simp [store, hj]
  · exact absurd h' (by simp)
  · exact absurd h' (by simp)

theorem balanced_reduced (m : Nat) (hm : m < UINT_MOD) (s s' : DecState)
    (hb : Balanced m s) (h : whileBody m s = .ok (.reduced s')) :
    Balanced m s' ∧ 2 ≤ s.sp ∧ s'.sp + 1 = s.sp ∧ s'.newcode = s.newcode + 1 ∧
      s'.stack (s'.sp - 1) = (s'.newcode : Int) ∧
      (∀ j, j + 2 < s.sp → s'.stack j = s.stack j) := by
  obtain ⟨-, he, hsp, hle, -, -, h'⟩ := whileBody_reduced_inv m s s' h
  obtain ⟨h1, h2⟩ := hb
  have e1 : (s.sp - 2 + 1) % UINT_MOD = s.sp - 1 := by
    rw [Nat.mod_eq_of_lt (by omega)]; omega
  have e2 : (s.exc + UINT_MOD - 1) % UINT_MOD = s.sp - 1 := by
    rw [h1]
    simp only [UINT_MOD] at hm ⊢
    omega
  have hsp' : s'.sp = s.sp - 1 := by rw [h']; exact e1
  have hexc' : s'.exc = s.sp - 1 := by rw [h']; exact e2
  have hst : s'.stack = store s.stack (s.sp - 2) ((s.newcode + 1 : Nat) : Int) := by
    rw [h']
  have hnc : s'.newcode = s.newcode + 1 := by rw [h']
  refine ⟨⟨by rw [hsp', hexc'], by omega⟩, hsp, by omega, hnc, ?_, ?_⟩
  · rw [hst, hsp', hnc]
    have : s.sp - 1 - 1 = s.sp - 2 := by omega
    simp [store, this]
  · intro j hj
    rw [hst]
    have : j ≠ s.sp - 2 := by omega
    simp [store, this]

theorem balanced_closed (m : Nat) (hm : m < UINT_MOD) (s s' : DecState)
    (hb : Balanced m s) (h : whileBody m s = .ok (.closed s')) :
    s.sp = 1 ∧ s.exc = 1 ∧ s'.sp = 1 ∧ s'.exc = 0 ∧ s'.stack = s.stack ∧
      s'.newcode = s.newcode ∧ s'.rule = s.rule := by
  rcases whileBody_cases m s _ h with ⟨v, b1, leaf, b2, -, -, -, -, h'⟩ |
    ⟨b1, -, -, -, -, -, -, h'⟩ | ⟨b1, -, he, h'⟩
  · exact absurd h' (by simp)
  · exact absurd h' (by simp)
  · simp only [Step.closed.injEq] at h'
    subst h'
    obtain ⟨h1, h2⟩ := hb
    have : s.exc = 1 := by
      simp only [UINT_MOD] at hm he
      omega
    exact ⟨by omega, this, by show s.sp = 1; omega, rfl, rfl, rfl, rfl⟩

theorem balanced_step (m : Nat) (hm : m < UINT_MOD) (s : DecState) (st : Step)
    (hb : Balanced m s) (h : whileBody m s = .ok st) :
    StepInv (Balanced m) (fun s' => s'.sp = 1 ∧ s'.exc = 0) st := by
  cases st with
  | pushed s' => exact (balanced_pushed m hm s s' hb h).1
  | reduced s' => exact (balanced_reduced m hm s s' hb h).1
  | closed s' =>
    obtain ⟨-, -, h3, h4, -⟩ := balanced_closed m hm s s' hb h
    exact ⟨h3, h4⟩

/-! ## More on `bits` and on `readBits` at full width -/

theorem bitsLoop_of_size (fuel : Nat) : ∀ n b : Nat, Nat.size n ≤ fuel →
    b + Nat.size n < UINT_MOD → bitsLoop fuel n b = b + Nat.size n := by
  induction fuel with
  | zero =>
    intro n b h _
    have h0 : n = 0 := Nat.size_eq_zero.mp (Nat.le_zero.mp h)
    subst h0; simp [bitsLoop]
  | succ fuel ih =>
    intro n b h hb
    by_cases hn : n = 0
    · subst hn; simp [bitsLoop]
    · have e := size_half n hn
      simp only [bitsLoop, hn, if_false, Nat.shiftRight_eq_div_pow, pow_one]
      have hb1 : (b + 1) % UINT_MOD = b + 1 := Nat.mod_eq_of_lt (by omega)
      rw [hb1, ih (n / 2) (b + 1) (by omega) (by omega), e]
      omega

theorem bits_bounds (n : Nat) (h0 : 0 < n) (h : n < UINT_MOD) :
    2 ^ (bits n - 1) ≤ n ∧ n < 2 ^ bits n ∧ bits n ≤ 32 := by
  rw [bits_eq_size n h]
  have h1 : 1 ≤ Nat.size n := Nat.size_pos.mpr h0
  refine ⟨?_, Nat.lt_size_self n, ?_⟩
  · rw [← Nat.lt_size]; omega
  · rw [Nat.size_le]; simpa [UINT_MOD] using h

theorem bits_unique (n b : Nat) (h : n < UINT_MOD)
    (h1 : 2 ^ (b - 1) ≤ n) (h2 : n < 2 ^ b) : b = bits n := by
  rw [bits_eq_size n h]
  have h3 : b - 1 < Nat.size n := Nat.lt_size.mpr h1
  have h4 : Nat.size n ≤ b := Nat.size_le.mpr h2
  have h5 : b ≠ 0 := by
    rintro rfl
    simp at h2
    omega
  omega

theorem toInt32_congr (a b : Nat) (h : a % UINT_MOD = b % UINT_MOD) :
    toInt32 a = toInt32 b := by
  simp only [toInt32, h]

theorem readBits_value (bitin : BITIN) (n : Nat) (hu : n ≤ unread bitin) :
    ∃ b', readBits bitin (n : Int) =
        .ok (toInt32 (valMSB ((unreadBits bitin).take n)), b') ∧
      unreadBits b' = (unreadBits bitin).drop n := by
  obtain ⟨b', h1, h2, -⟩ := readBitsLoop_ok n bitin 0 hu
  refine ⟨b', ?_, h2⟩
  have e := shiftAll_congr ((unreadBits bitin).take n) 0 0 rfl
  simp only [readBits, Int.toNat_ofNat, h1]
  rw [toInt32_congr _ _ e]
  rfl

/-! ## Elements of a run and their iterations -/

theorem whileTrace_head (m : Nat) (fuel : Nat) (s : DecState) (e : DecState × Step)
    (h : (whileTrace m fuel s).head? = some e) : e.1 = s := by
  cases fuel with
  | zero => simp [whileTrace] at h
  | succ fuel =>
    cases hb : whileBody m s with
    | error e0 => simp [whileTrace, hb] at h
    | ok st =>
      cases st <;> simp only [whileTrace, hb, List.head?_cons, Option.some.injEq] at h <;>
        rw [← h]

theorem whileTrace_closed_last (m : Nat) (fuel : Nat) : ∀ s s' : DecState,
    whileLoop m fuel s = .ok s' →
    ∃ s1, (whileTrace m fuel s).getLast? = some (s1, .closed s') := by
  induction fuel with
  | zero => intro s s' h; simp [whileLoop] at h
  | succ fuel ih =>
    intro s s' h
    cases hb : whileBody m s with
    | error e0 => simp [whileLoop, hb] at h
    | ok st =>
      cases st with
      | closed s1 =>
        simp only [whileLoop, hb, Except.ok.injEq] at h
        subst h
        exact ⟨s, by simp [whileTrace, hb]⟩
      | pushed s1 =>
        simp only [whileLoop, hb] at h
        obtain ⟨s2, h2⟩ := ih s1 s' h
        refine ⟨s2, ?_⟩
        simp only [whileTrace, hb]
        rw [List.getLast?_cons, h2]; rfl
      | reduced s1 =>
        simp only [whileLoop, hb] at h
        obtain ⟨s2, h2⟩ := ih s1 s' h
        refine ⟨s2, ?_⟩
        simp only [whileTrace, hb]
        rw [List.getLast?_cons, h2]; rfl

theorem countPushed_cons (e : DecState × Step) (tr : List (DecState × Step)) :
    countPushed (e :: tr) = (if e.2.isPushed then 1 else 0) + countPushed tr := by
  simp only [countPushed, List.countP_cons]
  split_ifs <;> omega

theorem countClosed_cons (e : DecState × Step) (tr : List (DecState × Step)) :
    countClosed (e :: tr) = (if e.2.isClosed then 1 else 0) + countClosed tr := by
  simp only [countClosed, List.countP_cons]
  split_ifs <;> omega

theorem whileTrace_count (m : Nat) (hm : m < UINT_MOD) (fuel : Nat) : ∀ s s' : DecState,
    Balanced m s → whileLoop m fuel s = .ok s' →
    s.sp + countPushed (whileTrace m fuel s) = countReduced (whileTrace m fuel s) + 1 ∧
      countClosed (whileTrace m fuel s) = 1 := by
  induction fuel with
  | zero => intro s s' _ h; simp [whileLoop] at h
  | succ fuel ih =>
    intro s s' hb h
    cases hw : whileBody m s with
    | error e0 => simp [whileLoop, hw] at h
    | ok st =>
      cases st with
      | closed s1 =>
        obtain ⟨h1, -⟩ := balanced_closed m hm s s1 hb hw
        simp only [whileTrace, hw, countPushed_cons, countReduced_cons, countClosed_cons,
          Step.isPushed, Step.isReduced, Step.isClosed, h1]
        simp [countPushed, countReduced, countClosed]
      | pushed s1 =>
        simp only [whileLoop, hw] at h
        obtain ⟨hb1, h1, -⟩ := balanced_pushed m hm s s1 hb hw
        obtain ⟨i1, i2⟩ := ih s1 s' hb1 h
        simp only [whileTrace, hw, countPushed_cons, countReduced_cons, countClosed_cons,
          Step.isPushed, Step.isReduced, Step.isClosed, i2]
        simp only [if_true, if_false, Bool.false_eq_true, ↓reduceIte]
        exact ⟨by omega, trivial⟩
      | reduced s1 =>
        simp only [whileLoop, hw] at h
        obtain ⟨hb1, -, h1, -⟩ := balanced_reduced m hm s s1 hb hw
        obtain ⟨i1, i2⟩ := ih s1 s' hb1 h
        simp only [whileTrace, hw, countPushed_cons, countReduced_cons, countClosed_cons,
          Step.isPushed, Step.isReduced, Step.isClosed, i2]
        simp only [if_true, if_false, Bool.false_eq_true, ↓reduceIte]
        exact ⟨by omega, trivial⟩

theorem balanced_reset (m : Nat) (s : DecState) : Balanced m { s with exc := 0, sp := 0 } :=
  ⟨rfl, Nat.zero_le m⟩

theorem element_balanced (m : Nat) (hm : m < UINT_MOD) (s : DecState) :
    (∀ e ∈ elementTrace m s, Balanced m e.1) ∧
    (∀ s', whileLoop m (unread s.bitin + 1) { s with exc := 0, sp := 0 } = .ok s' →
      s'.sp = 1 ∧ s'.exc = 0) :=
  whileTrace_inv (Balanced m) (fun s' => s'.sp = 1 ∧ s'.exc = 0) m _ _ (balanced_reset m s)
    (fun e _ h hb => balanced_step m hm e.1 e.2 hb h)

theorem elementTrace_step (m : Nat) (s : DecState) :
    ∀ e ∈ elementTrace m s, whileBody m e.1 = .ok e.2 :=
  (whileTrace_spec m _ _).2.1

theorem element_count (m : Nat) (hm : m < UINT_MOD) (s s' : DecState) (root : Int)
    (h : decodeElement m s = .ok (root, s')) :
    countPushed (elementTrace m s) = countReduced (elementTrace m s) + 1 ∧
      countClosed (elementTrace m s) = 1 ∧
      s'.newcode = s.newcode + countReduced (elementTrace m s) := by
  obtain ⟨hw, -⟩ := decodeElement_ok m s s' root h
  obtain ⟨h1, h2⟩ := whileTrace_count m hm _ _ s' (balanced_reset m s) hw
  obtain ⟨h3, -⟩ := (whileTrace_spec m _ _).2.2 s' hw
  refine ⟨?_, h2, h3⟩
  simpa using h1

theorem seqTrace_count (m : Nat) (hm : m < UINT_MOD) (k : Nat) :
    ∀ (s : DecState) (roots : List Int) (s' : DecState),
    decodeSeq m k s = .ok (roots, s') →
    countPushed (seqTrace m k s) = countReduced (seqTrace m k s) + k ∧
      countClosed (seqTrace m k s) = k := by
  induction k with
  | zero => intro s roots s' _; simp [seqTrace, countPushed, countReduced, countClosed]
  | succ k ih =>
    intro s roots s' h
    cases he : decodeElement m s with
    | error e => simp [decodeSeq, he] at h
    | ok r =>
      obtain ⟨root, s1⟩ := r
      simp only [decodeSeq, he] at h
      cases hd : decodeSeq m k s1 with
      | error e => simp [hd] at h
      | ok r2 =>
        obtain ⟨roots2, s2⟩ := r2
        obtain ⟨i1, i2⟩ := ih s1 roots2 s2 hd
        obtain ⟨c1, c2, -⟩ := element_count m hm s s1 root he
        simp only [countPushed, countReduced, countClosed] at i1 i2 c1 c2
        simp only [seqTrace, he, countPushed, countReduced, countClosed, List.countP_append,
          i1, i2, c1, c2]
        omega

theorem seqElements_spec (m : Nat) (k : Nat) : ∀ s : DecState,
    (∀ x ∈ seqElements m k s, decodeElement m x.1 = .ok (x.2.1, x.2.2)) ∧
    (∀ roots s', decodeSeq m k s = .ok (roots, s') →
      roots = (seqElements m k s).map (fun x => x.2.1) ∧ (seqElements m k s).length = k) := by
  induction k with
  | zero =>
    intro s
    refine ⟨by simp [seqElements], ?_⟩
    intro roots s' h
    simp only [decodeSeq, Except.ok.injEq, Prod.mk.injEq] at h
    simp [seqElements, ← h.1]
  | succ k ih =>
    intro s
    cases he : decodeElement m s with
    | error e => simp [seqElements, decodeSeq, he]
    | ok r =>
      obtain ⟨root, s1⟩ := r
      obtain ⟨i1, i2⟩ := ih s1
      refine ⟨?_, ?_⟩
      · intro x hx
        simp only [seqElements, he, List.mem_cons] at hx
        rcases hx with rfl | hx
        · exact he
        · exact i1 x hx
      · intro roots s' h
        simp only [decodeSeq, he] at h
        cases hd : decodeSeq m k s1 with
        | error e => simp [hd] at h
        | ok r2 =>
          obtain ⟨roots2, s2⟩ := r2
          simp only [hd, Except.ok.injEq, Prod.mk.injEq] at h
          obtain ⟨j1, j2⟩ := i2 roots2 s2 hd
          simp only [seqElements, he, List.map_cons, List.length_cons, j2, ← h.1, j1]
          trivial

theorem decodeElements_spec (num_rules seq_len : Nat) (file : List Nat) :
    (∀ x ∈ decodeElements num_rules seq_len file,
      decodeElement (maxRules num_rules) x.1 = .ok (x.2.1, x.2.2)) ∧
    (∀ d, decode num_rules seq_len file = .ok d →
      d.compressed_seq = (decodeElements num_rules seq_len file).map (fun x => x.2.1) ∧
      (decodeElements num_rules seq_len file).length = seq_len) := by
  unfold decodeElements decode
  generalize maxRules num_rules = m
  cases hi : initState m file with
  | error e =>
    refine ⟨by intro x hx; exact absurd hx (List.not_mem_nil x), ?_⟩
    intro d h
    exact absurd h (by simp)
  | ok s0 =>
    obtain ⟨i1, i2⟩ := seqElements_spec m seq_len s0
    refine ⟨i1, ?_⟩
    intro d h
    cases hd : decodeSeq m seq_len s0 with
    | error e => simp [hd] at h
    | ok r =>
      obtain ⟨roots, s1⟩ := r
      simp only [hd, Except.ok.injEq] at h
      subst h
      exact i2 roots s1 hd

theorem whileBody_pushed_iff (m : Nat) (s : DecState) (st : Step)
    (h : whileBody m s = .ok st) :
    st.isPushed = true ↔ (unreadBits s.bitin).head? = some 1 := by
  rcases whileBody_cases m s st h with ⟨v, b1, leaf, b2, hr, hv, -, -, rfl⟩ |
    ⟨b1, hr, -, -, -, -, -, rfl⟩ | ⟨b1, hr, -, rfl⟩
  · obtain ⟨x, rest, hx, hvx, hx1, -⟩ := readBits_one_inv _ _ _ hr
    have : x = 1 := by
      have : x ≠ 0 := by rintro rfl; exact hv (by simpa using hvx)
      omega
    subst this
    simp [Step.isPushed, hx]
  · obtain ⟨x, rest, hx, hvx, -, -⟩ := readBits_one_inv _ _ _ hr
    have : x = 0 := by exact_mod_cast hvx.symm
    subst this
    simp [Step.isPushed, hx]
  · obtain ⟨x, rest, hx, hvx, -, -⟩ := readBits_one_inv _ _ _ hr
    have : x = 0 := by exact_mod_cast hvx.symm
    subst this
    simp [Step.isPushed, hx]

theorem decodeTrace_count (num_rules seq_len : Nat) (file : List Nat) (d : Decoded)
    (h : decode num_rules seq_len file = .ok d) :
    countPushed (decodeTrace num_rules seq_len file) =
      countReduced (decodeTrace num_rules seq_len file) + seq_len := by
  have hm : maxRules num_rules < UINT_MOD := Nat.mod_lt _ (by decide)
  obtain ⟨s0, h1, h2⟩ := decode_ok _ _ _ _ h
  unfold decodeTrace
  generalize maxRules num_rules = m at h1 h2 hm
  rw [h1]
  exact (seqTrace_count m hm seq_len s0 _ _ h2).1

/-! ## Pops from an empty stack -/

theorem pop_underflow (m : Nat) (stack : Nat → Int) (sp : Nat)
    (h : pop m stack sp = .error .stackUnderflow) : sp = 0 := by
  simp only [pop] at h
  split_ifs at h with h1 h2
  · exact h1
  · exact absurd h (by simp)

theorem pop_ok (m : Nat) (stack : Nat → Int) (sp : Nat) (v : Int) (sp1 : Nat)
    (h : pop m stack sp = .ok (v, sp1)) : sp1 = sp - 1 ∧ 1 ≤ sp := by
  simp only [pop] at h
  split_ifs at h with h1 h2
  simp only [Except.ok.injEq, Prod.mk.injEq] at h
  exact ⟨h.2.symm, by omega⟩

/-- An iteration ends with a pop from an empty stack only on a close bit that
does not end the element, read with fewer than two entries on the stack. -/
theorem whileBody_underflow_inv (m : Nat) (s : DecState)
    (h : whileBody m s = .error .stackUnderflow) :
    (∃ b1, readBits s.bitin 1 = .ok (0, b1)) ∧ (s.exc + UINT_MOD - 1) % UINT_MOD ≠ 0 ∧
      s.newcode + 1 < m ∧ s.sp ≤ 1 := by
  cases hr : readBits s.bitin 1 with
  | error e' =>
    simp only [whileBody, hr, Except.error.injEq] at h
    have := readBits_error _ _ _ hr
    rw [h] at this
    exact absurd this (by simp)
  | ok r =>
    obtain ⟨v, b1⟩ := r
    rw [whileBody_of_read m s v b1 hr] at h
    by_cases hv : v = 0
    · subst hv
      simp only [ne_eq, not_true_eq_false, if_false, closeBranch] at h
      by_cases he : (s.exc + UINT_MOD - 1) % UINT_MOD = 0
      · simp only [he, if_true] at h; exact absurd h (by simp)
      simp only [he, if_false] at h
      by_cases hc : s.newcode + 1 ≥ m
      · simp only [hc, if_true] at h; exact absurd h (by simp)
      simp only [hc, if_false] at h
      refine ⟨⟨b1, rfl⟩, he, by omega, ?_⟩
      cases hp1 : pop m s.stack s.sp with
      | error e1 =>
        simp only [hp1, Except.error.injEq] at h
        subst h
        have := pop_underflow _ _ _ hp1
        omega
      | ok r1 =>
        obtain ⟨right, sp1⟩ := r1
        obtain ⟨q1, q2⟩ := pop_ok _ _ _ _ _ hp1
        simp only [hp1] at h
        by_cases hi : s.newcode + 1 ≥ 2 ^ 31
        · simp only [hi, if_true] at h; exact absurd h (by simp)
        simp only [hi, if_false] at h
        cases hp2 : pop m s.stack sp1 with
        | error e2 =>
          simp only [hp2, Except.error.injEq] at h
          subst h
          have := pop_underflow _ _ _ hp2
          omega
        | ok r2 =>
          obtain ⟨left, sp2⟩ := r2
          simp only [hp2] at h
          cases hp3 : push m s.stack sp2 ((s.newcode + 1 : Nat) : Int) with
          | error e3 =>
            simp only [hp3, Except.error.injEq] at h
            subst h
            exact absurd (push_error _ _ _ _ _ hp3) (by simp)
          | ok r3 =>
            simp only [hp3] at h
            exact absurd h (by simp)
    · simp only [ne_eq, hv, not_false_eq_true, if_true, openBranch] at h
      cases hl : readBits b1 (bits s.newcode : Int) with
      | error e' =>
        simp only [hl, Except.error.injEq] at h
        have := readBits_error _ _ _ hl
        rw [h] at this
        exact absurd this (by simp)
      | ok r2 =>
        obtain ⟨leaf, b2⟩ := r2
        simp only [hl] at h
        cases hp : push m s.stack s.sp leaf with
        | error e3 =>
          simp only [hp, Except.error.injEq] at h
          subst h
          exact absurd (push_error _ _ _ _ _ hp) (by simp)
        | ok r3 =>
          simp only [hp] at h
          exact absurd h (by simp)

/-- A fault that no iteration from a state satisfying `P` ends with, `P` being
kept by the iterations that continue the loop, is not the result of the loop. -/
theorem whileLoop_no_fault (P : DecState → Prop) (m : Nat) (e0 : Fault)
    (h0 : e0 ≠ .outOfFuel)
    (hstep : ∀ s st, P s → whileBody m s = .ok st → StepInv P (fun _ => True) st)
    (hno : ∀ s, P s → whileBody m s ≠ .error e0) (fuel : Nat) :
    ∀ s, P s → whileLoop m fuel s ≠ .error e0 := by
  induction fuel with
  | zero =>
    intro s _ h
    simp only [whileLoop, Except.error.injEq] at h
    exact h0 h.symm
  | succ fuel ih =>
    intro s hp h
    cases hb : whileBody m s with
    | error e =>
      simp only [whileLoop, hb, Except.error.injEq] at h
      subst h
      exact hno s hp hb
    | ok st =>
      cases st with
      | closed s1 => simp [whileLoop, hb] at h
      | pushed s1 =>
        simp only [whileLoop, hb] at h
        exact ih s1 (hstep s _ hp hb) h
      | reduced s1 =>
        simp only [whileLoop, hb] at h
        exact ih s1 (hstep s _ hp hb) h

theorem whileLoop_no_underflow (m : Nat) (hm : m < UINT_MOD) (fuel : Nat) (s : DecState)
    (hb : Balanced m s) (h1 : 1 ≤ s.sp) : whileLoop m fuel s ≠ .error .stackUnderflow := by
  refine whileLoop_no_fault (fun s => Balanced m s ∧ 1 ≤ s.sp) m .stackUnderflow (by simp)
    ?_ ?_ fuel s ⟨hb, h1⟩
  · intro s st hp h
    cases st with
    | pushed s' =>
      obtain ⟨q1, q2, -⟩ := balanced_pushed m hm s s' hp.1 h
      exact ⟨q1, by omega⟩
    | reduced s' =>
      obtain ⟨q1, q2, q3, -⟩ := balanced_reduced m hm s s' hp.1 h
      exact ⟨q1, by omega⟩
    | closed s' => trivial
  · intro s hp h
    obtain ⟨-, he, -, hsp⟩ := whileBody_underflow_inv m s h
    obtain ⟨⟨q1, q2⟩, q3⟩ := hp
    have : s.exc = 1 := by omega
    rw [this] at he
    exact he (by decide)

/-- An element whose first bit is a close bit: the counter wraps, the loop is
not left, and the first iteration ends with a fault. -/
theorem whileBody_first_close (m : Nat) (s : DecState) (rest : List Nat)
    (h0 : unreadBits s.bitin = 0 :: rest) (he : s.exc = 0) (hs : s.sp = 0) :
    (m ≤ s.newcode + 1 → whileBody m s = .error .exceededRuleArray) ∧
    (s.newcode + 1 < m → whileBody m s = .error .stackUnderflow) := by
  obtain ⟨b1, hr, -, -⟩ := readBits_one s.bitin 0 rest h0
  have hw := whileBody_of_read m s _ b1 hr
  simp only [Nat.cast_zero, ne_eq, not_true_eq_false, if_false] at hw
  have hx : (s.exc + UINT_MOD - 1) % UINT_MOD ≠ 0 := by rw [he]; decide
  refine ⟨fun hc => ?_, fun hc => ?_⟩
  · rw [hw]
    simp only [closeBranch, hx, if_false, ge_iff_le, hc, if_true]
  · rw [hw]
    have hc' : ¬ m ≤ s.newcode + 1 := by omega
    simp only [closeBranch, hx, if_false, ge_iff_le, hc', pop, hs, if_true]

theorem whileLoop_of_fault (m : Nat) (fuel : Nat) (s : DecState) (e : Fault)
    (h : whileBody m s = .error e) :
    whileLoop m (fuel + 1) s = .error e ∧ whileTrace m (fuel + 1) s = [] := by
  simp [whileLoop, whileTrace, h]

theorem decodeElement_of_fault (m : Nat) (s : DecState) (e : Fault)
    (h : whileBody m { s with exc := 0, sp := 0 } = .error e) :
    decodeElement m s = .error e ∧ elementTrace m s = [] := by
  obtain ⟨h1, h2⟩ := whileLoop_of_fault m (unread s.bitin) { s with exc := 0, sp := 0 } e h
  refine ⟨?_, h2⟩
  unfold decodeElement
  rw [h1]

theorem decodeElement_no_underflow (m : Nat) (hm : m < UINT_MOD) (s : DecState)
    (rest : List Nat) (h1 : unreadBits s.bitin = 1 :: rest) :
    decodeElement m s ≠ .error .stackUnderflow := by
  intro h
  have hfirst : whileBody m { s with exc := 0, sp := 0 } ≠ .error .stackUnderflow := by
    intro hu
    obtain ⟨⟨b1, hr⟩, -⟩ := whileBody_underflow_inv m _ hu
    obtain ⟨x, rest', hx, hv, -, -⟩ := readBits_one_inv _ _ _ hr
    have hx' : unreadBits s.bitin = x :: rest' := hx
    rw [h1] at hx'
    simp only [List.cons.injEq] at hx'
    rw [← hx'.1] at hv
    exact absurd hv (by decide)
  cases hw : whileLoop m (unread s.bitin + 1) { s with exc := 0, sp := 0 } with
  | error e =>
    have he : e = .stackUnderflow := by
      unfold decodeElement at h
      rw [hw] at h
      simpa using h
    subst he
    cases hb : whileBody m { s with exc := 0, sp := 0 } with
    | error e1 =>
      have := (whileLoop_of_fault m (unread s.bitin) _ e1 hb).1
      rw [hw] at this
      simp only [Except.error.injEq] at this
      subst this
      exact hfirst hb
    | ok st =>
      cases st with
      | closed s1 => simp [whileLoop, hb] at hw
      | pushed s1 =>
        simp only [whileLoop, hb] at hw
        obtain ⟨q1, q2, -⟩ := balanced_pushed m hm _ s1 (balanced_reset m s) hb
        exact whileLoop_no_underflow m hm _ s1 q1 (by omega) hw
      | reduced s1 =>
        obtain ⟨-, q2, -⟩ := balanced_reduced m hm _ s1 (balanced_reset m s) hb
        exact absurd q2 (by simp)
  | ok s' =>
    obtain ⟨q1, -⟩ := (element_balanced m hm s).2 s' hw
    unfold decodeElement at h
    rw [hw] at h
    cases ht : top m s'.stack s'.sp with
    | ok root => simp [ht] at h
    | error e =>
      simp only [ht, Except.error.injEq] at h
      subst h
      simp only [top, q1, one_ne_zero, if_false] at ht
      split_ifs at ht
      simp at ht

/-! ## The root of an element -/

theorem rootInv_step (m : Nat) (hm : m < UINT_MOD) (c0 : Nat) (s : DecState) (st : Step)
    (hi : RootInv m c0 s) (h : whileBody m s = .ok st) :
    StepInv (RootInv m c0) (RootPost c0) st := by
  obtain ⟨hb, h1, h2, h3⟩ := hi
  cases st with
  | pushed s' =>
    obtain ⟨q1, q2, q3, -, -⟩ := balanced_pushed m hm s s' hb h
    refine ⟨q1, by omega, fun h0 => by omega, fun hs hc => ?_⟩
    have : s.newcode = c0 := h2 (by omega)
    omega
  | reduced s' =>
    obtain ⟨q1, q2, q3, q4, q5, -⟩ := balanced_reduced m hm s s' hb h
    refine ⟨q1, by omega, fun h0 => by omega, fun hs hc => ?_⟩
    rw [hs] at q5
    exact q5
  | closed s' =>
    obtain ⟨q1, -, q3, -, q5, q6, -⟩ := balanced_closed m hm s s' hb h
    refine ⟨q3, by omega, fun hc => ?_⟩
    rw [q5, q6]
    exact h3 q1 (by omega)

theorem element_root (m : Nat) (hm : m < UINT_MOD) (s s' : DecState) (root : Int)
    (h : decodeElement m s = .ok (root, s')) :
    s.newcode ≤ s'.newcode ∧ (s.newcode < s'.newcode → root = (s'.newcode : Int)) := by
  obtain ⟨hw, ht⟩ := decodeElement_ok m s s' root h
  have h0 : RootInv m s.newcode { s with exc := 0, sp := 0 } :=
    ⟨balanced_reset m s, Nat.le_refl _, fun _ => rfl, fun h1 => absurd h1 (by simp)⟩
  obtain ⟨-, hq⟩ := whileTrace_inv (RootInv m s.newcode) (RootPost s.newcode) m _ _ h0
    (fun e _ hb hp => rootInv_step m hm s.newcode e.1 e.2 hp hb)
  obtain ⟨q1, q2, q3⟩ := hq s' hw
  obtain ⟨t1, -, -⟩ := top_ok _ _ _ _ ht
  rw [q1] at t1
  exact ⟨q2, fun hc => by rw [t1]; exact q3 hc⟩

/-- An element that reads one leaf is `open, leaf, close`: its two iterations,
and its root is the value read. -/
theorem element_single_leaf (m : Nat) (hm : m < UINT_MOD) (s s' : DecState) (root : Int)
    (h : decodeElement m s = .ok (root, s'))
    (h1 : countPushed (elementTrace m s) = 1) :
    ∃ s1, elementTrace m s = [({ s with exc := 0, sp := 0 }, .pushed s1), (s1, .closed s')] ∧
      root = s1.stack 0 ∧ s'.rule = s.rule ∧ s'.newcode = s.newcode ∧
      ∃ v b1 b2, readBits s.bitin 1 = .ok (v, b1) ∧ v ≠ 0 ∧
        readBits b1 (bits s.newcode : Int) = .ok (root, b2) := by
  obtain ⟨hw, ht⟩ := decodeElement_ok m s s' root h
  unfold elementTrace at h1 ⊢
  generalize unread s.bitin = fuel at hw h1
  cases hb : whileBody m { s with exc := 0, sp := 0 } with
  | error e => simp [whileLoop, hb] at hw
  | ok st =>
    cases st with
    | closed s1 =>
      obtain ⟨q1, -⟩ := balanced_closed m hm _ s1 (balanced_reset m s) hb
      exact absurd q1 (by simp)
    | reduced s1 =>
      obtain ⟨-, q2, -⟩ := balanced_reduced m hm _ s1 (balanced_reset m s) hb
      exact absurd q2 (by simp)
    | pushed s1 =>
      obtain ⟨p1, p2, p3, p4, -⟩ := balanced_pushed m hm _ s1 (balanced_reset m s) hb
      have p2' : s1.sp = 1 := p2
      have p3' : s1.newcode = s.newcode := p3
      have p4' : s1.rule = s.rule := p4
      simp only [whileLoop, hb] at hw
      simp only [whileTrace, hb, countPushed_cons, Step.isPushed, if_true] at h1
      cases fuel with
      | zero => simp [whileLoop] at hw
      | succ fuel =>
        cases hb2 : whileBody m s1 with
        | error e => simp [whileLoop, hb2] at hw
        | ok st2 =>
          cases st2 with
          | pushed s2 =>
            simp only [whileTrace, hb2, countPushed_cons, Step.isPushed, if_true] at h1
            omega
          | reduced s2 =>
            obtain ⟨-, q2, -⟩ := balanced_reduced m hm _ s2 p1 hb2
            omega
          | closed s2 =>
            simp only [whileLoop, hb2, Except.ok.injEq] at hw
            subst hw
            obtain ⟨-, -, c3, -, c5, c6, c7⟩ := balanced_closed m hm _ s2 p1 hb2
            obtain ⟨t1, -, -⟩ := top_ok _ _ _ _ ht
            rw [c3, c5] at t1
            refine ⟨s1, by simp [whileTrace, hb, hb2], t1, by rw [c7, p4'],
              by rw [c6, p3'], ?_⟩
            rcases whileBody_cases m _ _ hb with ⟨v, b1, leaf, b2, r1, r2, r3, -, r5⟩ |
              ⟨b1, -, -, -, -, -, -, r5⟩ | ⟨b1, -, -, r5⟩
            · simp only [Step.pushed.injEq] at r5
              have : s1.stack 0 = leaf := by rw [r5]; simp [store]
              rw [t1, this]
              exact ⟨v, b1, b2, r1, r2, r3⟩
            · exact absurd r5 (by simp)
            · exact absurd r5 (by simp)

theorem seqElements_newcode (m : Nat) (hm : m < UINT_MOD) (k : Nat) : ∀ s : DecState,
    ∀ x ∈ seqElements m k s, s.newcode ≤ x.1.newcode := by
  induction k with
  | zero => intro s x hx; simp [seqElements] at hx
  | succ k ih =>
    intro s x hx
    cases he : decodeElement m s with
    | error e => simp [seqElements, he] at hx
    | ok r =>
      obtain ⟨root, s1⟩ := r
      simp only [seqElements, he, List.mem_cons] at hx
      rcases hx with rfl | hx
      · exact Nat.le_refl _
      · exact le_trans (element_root m hm s s1 root he).1 (ih s1 x hx)

theorem seqElements_pairwise (m : Nat) (hm : m < UINT_MOD) (k : Nat) : ∀ s : DecState,
    (seqElements m k s).Pairwise (fun x y => x.2.2.newcode ≤ y.1.newcode) := by
  induction k with
  | zero => intro s; simp [seqElements]
  | succ k ih =>
    intro s
    cases he : decodeElement m s with
    | error e => simp [seqElements, he]
    | ok r =>
      obtain ⟨root, s1⟩ := r
      simp only [seqElements, he, List.pairwise_cons]
      exact ⟨fun y hy => seqElements_newcode m hm k s1 y hy, ih s1⟩

/-! ## Straight-line grammars -/

theorem goodChild_mono (c c' : Nat) (v : Int) (h : c ≤ c') (hg : GoodChild c v) :
    GoodChild c' v := by
  unfold GoodChild at hg ⊢
  rcases hg with hg | hg
  · exact Or.inl hg
  · exact Or.inr ⟨hg.1, by omega⟩

theorem grammarInv_step (m : Nat) (hm : m < UINT_MOD) (s : DecState) (st : Step)
    (hl : leafOk (s, st) = true) (hi : GrammarInv m s) (h : whileBody m s = .ok st) :
    StepInv (GrammarInv m) StraightLine st := by
  obtain ⟨hb, h1, h2, h3⟩ := hi
  cases st with
  | pushed s' =>
    obtain ⟨q1, q2, q3, q4, q5⟩ := balanced_pushed m hm s s' hb h
    simp only [leafOk, decide_eq_true_eq] at hl
    refine ⟨q1, by omega, ?_, ?_⟩
    · intro j hj
      rw [q3]
      by_cases hjs : j = s.sp
      · rw [hjs]; exact hl
      · rw [q5 j hjs]; exact h2 j (by omega)
    · intro r hr1 hr2
      rw [q4]
      exact h3 r hr1 (by omega)
  | reduced s' =>
    obtain ⟨q1, q2, q3, q4, q5, q6⟩ := balanced_reduced m hm s s' hb h
    obtain ⟨-, -, -, -, -, -, hs'⟩ := whileBody_reduced_inv m s s' h
    have hrule : s'.rule = store s.rule (s.newcode + 1)
        { left := s.stack (s.sp - 2), right := s.stack (s.sp - 1) } := by rw [hs']
    refine ⟨q1, by omega, ?_, ?_⟩
    · intro j hj
      by_cases hjs : j = s'.sp - 1
      · rw [hjs, q5]
        exact Or.inr ⟨by omega, le_refl _⟩
      · rw [q6 j (by omega), q4]
        exact goodChild_mono _ _ _ (by omega) (h2 j (by omega))
    · intro r hr1 hr2
      rw [hrule]
      by_cases hr : r = s.newcode + 1
      · subst hr
        simp only [store, if_true, Nat.add_sub_cancel]
        exact ⟨h2 _ (by omega), h2 _ (by omega)⟩
      · simp only [store, hr, if_false]
        exact h3 r hr1 (by omega)
  | closed s' =>
    obtain ⟨q1, -, q3, -, -, q6, q7⟩ := balanced_closed m hm s s' hb h
    refine ⟨by omega, by omega, ?_⟩
    intro r hr1 hr2
    rw [q7]
    exact h3 r hr1 (by omega)

theorem grammarInv_reset (m : Nat) (s : DecState) (h : StraightLine s) :
    GrammarInv m { s with exc := 0, sp := 0 } :=
  ⟨balanced_reset m s, h.1, fun j hj => absurd hj (by simp), h.2.2⟩

theorem decodeSeq_straightLine (m : Nat) (hm : m < UINT_MOD) (k : Nat) (s : DecState)
    (h0 : StraightLine s) (hl : (seqTrace m k s).all leafOk = true)
    (roots : List Int) (s' : DecState) (h : decodeSeq m k s = .ok (roots, s')) :
    StraightLine s' := by
  rw [List.all_eq_true] at hl
  exact (seqTrace_inv (GrammarInv m) StraightLine m (grammarInv_reset m) k s h0
    (fun e he hb hp => grammarInv_step m hm e.1 e.2 (hl e he) hp hb)).2 roots s' h

/-! ## A stream of open bits -/

theorem unreadBits_replicate_255 (k : Nat) :
    unreadBits (createBitin (List.replicate k 255)) = List.replicate (8 * k) 1 := by
  have e : ∀ l : List Nat,
      unreadBits (createBitin l) = l.flatMap (fun c => lowBits c 8) := fun _ => rfl
  rw [e]
  induction k with
  | zero => rfl
  | succ k ih =>
    rw [List.replicate_succ, List.flatMap_cons, ih]
    have : lowBits 255 8 = List.replicate 8 1 := by decide
    rw [this, List.append_replicate_replicate]
    congr 1
    omega

theorem whileBody_open_overflow (m : Nat) (s : DecState) (rest : List Nat)
    (h1 : unreadBits s.bitin = 1 :: rest) (hw : bits s.newcode ≤ rest.length)
    (hc : s.newcode < 2 ^ 31) (hsp : ¬ s.sp < m) :
    whileBody m s = .error .stackOverflow := by
  obtain ⟨b1, hr, hu, -⟩ := readBits_one s.bitin 1 rest h1
  have hw1 := whileBody_of_read m s _ b1 hr
  simp only [Nat.cast_one, ne_eq, one_ne_zero, not_false_eq_true, if_true] at hw1
  have hlen : bits s.newcode ≤ unread b1 := by
    rw [← unreadBits_length, hu]; exact hw
  obtain ⟨b2, hl, -, -⟩ := readBits_ok b1 (bits s.newcode) (bits_le_31 _ hc) hlen
  rw [hw1]
  simp only [openBranch, hl, push, hsp, if_false]

theorem whileLoop_all_open (m : Nat) (hm : m < UINT_MOD) (k : Nat) :
    ∀ (fuel n : Nat) (s : DecState), unreadBits s.bitin = List.replicate n 1 →
      s.newcode = 256 → s.sp + k = m → 10 * (k + 1) ≤ n → k < fuel →
      whileLoop m fuel s = .error .stackOverflow ∧ (whileTrace m fuel s).length = k ∧
        (∀ e ∈ whileTrace m fuel s, e.2.isPushed = true ∧ e.1.sp < m) := by
  induction k with
  | zero =>
    intro fuel n s hu hn hs hk hf
    obtain ⟨f, rfl⟩ : ∃ f, fuel = f + 1 := ⟨fuel - 1, by omega⟩
    obtain ⟨n', rfl⟩ : ∃ n', n = n' + 1 := ⟨n - 1, by omega⟩
    rw [List.replicate_succ] at hu
    have hb : bits s.newcode = 9 := by rw [hn]; decide
    have := whileBody_open_overflow m s _ hu (by rw [hb, List.length_replicate]; omega)
      (by rw [hn]; decide) (by omega)
    simp [whileLoop, whileTrace, this]
  | succ k ih =>
    intro fuel n s hu hn hs hk hf
    obtain ⟨f, rfl⟩ : ∃ f, fuel = f + 1 := ⟨fuel - 1, by omega⟩
    obtain ⟨n', rfl⟩ : ∃ n', n = n' + 1 := ⟨n - 1, by omega⟩
    rw [List.replicate_succ] at hu
    have hb : bits s.newcode = 9 := by rw [hn]; decide
    obtain ⟨s', hw, q1, -, -, -, q5, q6, -⟩ := whileBody_open m s _ hu
      (by rw [hb, List.length_replicate]; omega) (by rw [hn]; decide) (by omega)
    rw [hb, List.drop_replicate] at q1
    have q5' : s'.sp = s.sp + 1 := by rw [q5]; exact Nat.mod_eq_of_lt (by omega)
    obtain ⟨i1, i2, i3⟩ := ih f (n' - 9) s' q1 (by rw [q6, hn]) (by omega) (by omega)
      (by omega)
    refine ⟨by simp only [whileLoop, hw]; exact i1,
      by simp only [whileTrace, hw, List.length_cons, i2], ?_⟩
    intro e he
    simp only [whileTrace, hw, List.mem_cons] at he
    rcases he with rfl | he
    · exact ⟨rfl, by show s.sp < m; omega⟩
    · exact i3 e he

theorem decodeElement_all_open (m : Nat) (hm : m < UINT_MOD) (n : Nat) (s : DecState)
    (hu : unreadBits s.bitin = List.replicate n 1) (hn : s.newcode = 256)
    (hk : 10 * (m + 1) ≤ n) :
    decodeElement m s = .error .stackOverflow ∧ (elementTrace m s).length = m ∧
      (∀ e ∈ elementTrace m s, e.2.isPushed = true ∧ e.1.sp < m) := by
  have hf : m < unread s.bitin + 1 := by
    rw [← unreadBits_length, hu, List.length_replicate]; omega
  obtain ⟨i1, i2, i3⟩ := whileLoop_all_open m hm m (unread s.bitin + 1) n
    { s with exc := 0, sp := 0 } hu hn (by simp) hk hf
  refine ⟨?_, i2, i3⟩
  unfold decodeElement
  rw [i1]

/-! ## The claims -/

/-- C1: in the decode loop an open bit (1) is followed by a leaf reference of
exactly `bits(newcode)` bits, `newcode` being the counter at that moment: the
iteration consumes `1 + bits(newcode)` bits, increments the open-group counter,
pushes the value of those bits and leaves counter and rule table untouched.
An iteration pushes only in this way, and in every run the counter an
iteration starts from is 256 plus the number of rules recorded by the earlier
iterations of the whole run. -/
theorem open_bit_reads_leaf_at_current_width :
    (∀ (max_rules : Nat) (s : DecState) (rest : List Nat),
      unreadBits s.bitin = 1 :: rest → bits s.newcode ≤ rest.length →
      s.newcode < 2 ^ 31 → s.sp < max_rules →
      ∃ s', whileBody max_rules s = .ok (.pushed s') ∧
        unreadBits s'.bitin = rest.drop (bits s.newcode) ∧
        unread s'.bitin + (1 + bits s.newcode) = unread s.bitin ∧
        s'.exc = (s.exc + 1) % UINT_MOD ∧
        s'.stack = store s.stack s.sp (valMSB (rest.take (bits s.newcode)) : Int) ∧
        s'.sp = (s.sp + 1) % UINT_MOD ∧ s'.newcode = s.newcode ∧ s'.rule = s.rule) ∧
    (∀ (max_rules : Nat) (s s' : DecState), whileBody max_rules s = .ok (.pushed s') →
      ∃ rest, unreadBits s.bitin = 1 :: rest ∧ bits s.newcode ≤ rest.length ∧
        s.sp < max_rules) ∧
    (∀ (num_rules seq_len : Nat) (file : List Nat) (j : Nat) (e : DecState × Step),
      (decodeTrace num_rules seq_len file)[j]? = some e →
      whileBody (maxRules num_rules) e.1 = .ok e.2 ∧
      e.1.newcode = 256 + countReduced ((decodeTrace num_rules seq_len file).take j)) := by
  refine ⟨fun m s rest h1 hw hc hsp => whileBody_open m s rest h1 hw hc hsp,
    fun m s s' h => whileBody_pushed_inv m s s' h, ?_⟩
  intro num_rules seq_len file j e he
  obtain ⟨t1, t2, -⟩ := decode_trace num_rules seq_len file
  have h := counterTracks_get _ CHAR_SIZE j e t1 he
  rw [show CHAR_SIZE = 256 from rfl] at h
  obtain ⟨hj, rfl⟩ := List.getElem?_eq_some.mp he
  exact ⟨t2 _ (List.getElem_mem hj), h⟩

/-- C1 at a concrete state: the bits `1 001100001 000000` read with counter 256. -/
theorem open_bit_reads_leaf_at_current_width_witness :
    (unreadBits (sampleState [152, 64]).bitin
        = 1 :: [0, 0, 1, 1, 0, 0, 0, 0, 1, 0, 0, 0, 0, 0, 0] ∧
      bits (sampleState [152, 64]).newcode = 9) ∧
    ∃ s', whileBody 1024 (sampleState [152, 64]) = .ok (.pushed s') ∧
      unreadBits s'.bitin = [0, 0, 0, 0, 0, 0] ∧
      s'.stack = store (sampleState [152, 64]).stack 2 97 ∧ s'.sp = 3 := by
  refine ⟨⟨by decide, by decide⟩, ?_⟩
  obtain ⟨s', h1, h2, -, -, h5, h6, -, -⟩ :=
    open_bit_reads_leaf_at_current_width.1 1024 (sampleState [152, 64])
      [0, 0, 1, 1, 0, 0, 0, 0, 1, 0, 0, 0, 0, 0, 0] (by decide) (by decide) (by decide)
      (by decide)
  exact ⟨s', h1, h2, h5, h6⟩

/-- C2: for every reader state, every `n ≤ 31` and every stream with at least
`n` unread bits, `readBits(n)` returns the number whose binary digits, most
significant first, are the next `n` unread bits (the first bit read weighs
`2^(n-1)`; the unread bits are those of the buffered byte and then of each byte
from bit 7 down to bit 0), and advances the reader by exactly those `n` bits;
so reading the `n`-bit big-endian encoding of `v < 2^n` returns `v`. -/
theorem readBits_msb_first (bitin : BITIN) (n : Nat) (hn : n ≤ 31) (hu : n ≤ unread bitin) :
    ∃ b', readBits bitin (n : Int) = .ok ((valMSB ((unreadBits bitin).take n) : Int), b') ∧
      unreadBits b' = (unreadBits bitin).drop n ∧ unread b' + n = unread bitin ∧
      (∀ x rest, (unreadBits bitin).take n = x :: rest →
        valMSB ((unreadBits bitin).take n) = x * 2 ^ (n - 1) + valMSB rest) ∧
      (∀ v : Nat, v < 2 ^ n → (unreadBits bitin).take n = lowBits v n →
        readBits bitin (n : Int) = .ok ((v : Int), b')) := by
  obtain ⟨b', h1, h2, -⟩ := readBits_ok bitin n hn hu
  refine ⟨b', h1, h2, ?_, ?_, ?_⟩
  · have := congrArg List.length h2
    rw [List.length_drop, unreadBits_length, unreadBits_length] at this
    omega
  · intro x rest he
    have hlen : ((unreadBits bitin).take n).length = n := by
      rw [List.length_take, unreadBits_length]; omega
    rw [he] at hlen ⊢
    simp only [List.length_cons] at hlen
    rw [valMSB_cons, show n - 1 = rest.length by omega]
  · intro v hv he
    rw [h1, he, valMSB_lowBits v n hv]

/-- C2 at a concrete input: the 9-bit encoding of 255 read from the bytes `7F 80`. -/
theorem readBits_msb_first_witness :
    (9 ≤ 31 ∧ 9 ≤ unread (createBitin [127, 128])) ∧
    ∃ b', readBits (createBitin [127, 128]) 9 = .ok (255, b') ∧
      unreadBits b' = [0, 0, 0, 0, 0, 0, 0] := by
  refine ⟨⟨by decide, by decide⟩, ?_⟩
  obtain ⟨b', h1, h2, -, -, -⟩ :=
    readBits_msb_first (createBitin [127, 128]) 9 (by decide) (by decide)
  have e : valMSB ((unreadBits (createBitin [127, 128])).take 9) = 255 := by decide
  rw [e] at h1
  exact ⟨b', h1, by rw [h2]; decide⟩

/-- C3 fails as stated: with two entries 97 and 98 on the stack, two groups
open and the counter at 1023 in a table of capacity 1024, a close bit that does
not bring the open-group counter to zero records no rule: the iteration ends at
the capacity test of lines 109-112. -/
theorem close_bit_at_capacity_records_no_rule :
    unreadBits (sampleStateAt [0] 1023).bitin = 0 :: [0, 0, 0, 0, 0, 0, 0] ∧
    ((sampleStateAt [0] 1023).exc + UINT_MOD - 1) % UINT_MOD ≠ 0 ∧
    (sampleStateAt [0] 1023).sp = 2 ∧ (sampleStateAt [0] 1023).newcode + 1 = 1024 ∧
    whileBody 1024 (sampleStateAt [0] 1023) = .error .exceededRuleArray :=
  ⟨by decide, by decide, by decide, by decide,
    (whileBody_close_exceeded_iff 1024 (sampleStateAt [0] 1023) [0, 0, 0, 0, 0, 0, 0]
      (by decide) (by decide)).mpr (by decide)⟩

/-- C3 as amended: a close bit (0) that does not bring the open-group counter to
zero, met with at least two stack entries `a` (below) and `b` (on top) and a
counter `c` whose successor is below the capacity of the table, sets the counter
to `c + 1`, records rule `c + 1` as `(a, b)`, changes no other rule slot, and
replaces the two entries by `c + 1`, so that the depth drops by one. An
iteration records a rule only in this way; when `c + 1` is not below the
capacity, the close bit ends the run with rule-table exhaustion instead. -/
theorem close_bit_reduces_top_two :
    (∀ (max_rules : Nat) (s : DecState) (rest : List Nat),
      unreadBits s.bitin = 0 :: rest → (s.exc + UINT_MOD - 1) % UINT_MOD ≠ 0 →
      2 ≤ s.sp → s.sp ≤ max_rules → max_rules ≤ UINT_MOD →
      s.newcode + 1 < max_rules → s.newcode + 1 < 2 ^ 31 →
      ∃ s', whileBody max_rules s = .ok (.reduced s') ∧ s'.newcode = s.newcode + 1 ∧
        s'.rule (s.newcode + 1) =
          { left := s.stack (s.sp - 2), right := s.stack (s.sp - 1) } ∧
        (∀ j, j ≠ s.newcode + 1 → s'.rule j = s.rule j) ∧
        s'.sp = s.sp - 1 ∧ s'.stack (s.sp - 2) = ((s.newcode + 1 : Nat) : Int) ∧
        (∀ j, j < s.sp - 2 → s'.stack j = s.stack j) ∧
        s'.exc = (s.exc + UINT_MOD - 1) % UINT_MOD ∧ unreadBits s'.bitin = rest) ∧
    (∀ (max_rules : Nat) (s s' : DecState), whileBody max_rules s = .ok (.reduced s') →
      (∃ rest, unreadBits s.bitin = 0 :: rest ∧ unreadBits s'.bitin = rest) ∧
      (s.exc + UINT_MOD - 1) % UINT_MOD ≠ 0 ∧ 2 ≤ s.sp ∧ s.sp ≤ max_rules ∧
      s.newcode + 1 < max_rules ∧ s.newcode + 1 < 2 ^ 31) ∧
    (∀ (max_rules : Nat) (s : DecState) (rest : List Nat),
      unreadBits s.bitin = 0 :: rest → (s.exc + UINT_MOD - 1) % UINT_MOD ≠ 0 →
      max_rules ≤ s.newcode + 1 → whileBody max_rules s = .error .exceededRuleArray) := by
  refine ⟨fun m s rest h0 he hsp hm hcap hc hi =>
    whileBody_close_reduce m s rest h0 he hsp hm hcap hc hi, ?_, ?_⟩
  · intro m s s' h
    obtain ⟨h1, h2, h3, h4, h5, h6, -⟩ := whileBody_reduced_inv m s s' h
    exact ⟨h1, h2, h3, h4, h5, h6⟩
  · intro m s rest h0 he hc
    exact (whileBody_close_exceeded_iff m s rest h0 he).mpr hc

/-- C3 as amended, at a concrete state: leaves 97 and 98 on the stack, counter 256,
capacity 1024, next bit 0. -/
theorem close_bit_reduces_top_two_witness :
    (unreadBits (sampleState [0]).bitin = 0 :: [0, 0, 0, 0, 0, 0, 0] ∧
      (sampleState [0]).sp = 2 ∧ (sampleState [0]).newcode = 256) ∧
    ∃ s', whileBody 1024 (sampleState [0]) = .ok (.reduced s') ∧ s'.newcode = 257 ∧
      s'.rule 257 = { left := 97, right := 98 } ∧ s'.sp = 1 ∧ s'.stack 0 = 257 := by
  refine ⟨⟨by decide, by decide, by decide⟩, ?_⟩
  obtain ⟨s', h1, h2, h3, -, h5, h6, -, -, -⟩ :=
    close_bit_reduces_top_two.1 1024 (sampleState [0]) [0, 0, 0, 0, 0, 0, 0] (by decide)
      (by decide) (by decide) (by decide) (by decide) (by decide) (by decide)
  exact ⟨s', h1, h2, h3, h5, h6⟩

/-- C4: on every successful run the rule lines written are those of the
identifiers 257, 258, ..., F in increasing order, F being the final counter;
there are F - 256 of them, as many as iterations of the whole run that read a
close bit without ending an element, and each such iteration (and no other)
advanced the counter by exactly one. -/
theorem rule_lines_are_257_to_final (num_rules seq_len : Nat) (file : List Nat) (d : Decoded)
    (out : String) (h : decode num_rules seq_len file = .ok d) :
    DecodeCFG num_rules seq_len file out =
      (.ok (), out ++ (String.join (ruleLines d.state.rule d.state.newcode) ++
        seqLine seq_len d.compressed_seq)) ∧
    ruleLines d.state.rule d.state.newcode =
      (List.range' 257 (d.state.newcode - 256)).map (fun i =>
        "R" ++ Nat.repr i ++ ":" ++ fmtD (d.state.rule i).left ++ "," ++
          fmtD (d.state.rule i).right ++ "\n") ∧
    (ruleLines d.state.rule d.state.newcode).length = d.state.newcode - 256 ∧
    256 ≤ d.state.newcode ∧
    d.state.newcode - 256 = countReduced (decodeTrace num_rules seq_len file) ∧
    (∀ e ∈ decodeTrace num_rules seq_len file,
      whileBody (maxRules num_rules) e.1 = .ok e.2 ∧
      (e.2.isReduced = true ↔
        (∃ b1, readBits e.1.bitin 1 = .ok (0, b1)) ∧
          (e.1.exc + UINT_MOD - 1) % UINT_MOD ≠ 0) ∧
      e.2.state.newcode = e.1.newcode + (if e.2.isReduced then 1 else 0)) := by
  obtain ⟨-, t2, t3⟩ := decode_trace num_rules seq_len file
  obtain ⟨hF, -, -⟩ := t3 d h
  have hlt := decode_newcode_lt num_rules seq_len file d h
  rw [show CHAR_SIZE = 256 from rfl] at hF
  refine ⟨?_, ?_, ?_, by omega, by omega, ?_⟩
  · unfold DecodeCFG
    rw [h]
    rfl
  · simp only [ruleLines, ruleIds, show CHAR_SIZE + 1 = 257 from rfl]
    rw [show d.state.newcode + 1 - 257 = d.state.newcode - 256 by omega]
    apply List.map_congr_left
    intro i hi
    rw [List.mem_range'_1] at hi
    exact ruleLine_eq i _ (by omega)
  · simp only [ruleLines, ruleIds, List.length_map, List.length_range',
      show CHAR_SIZE + 1 = 257 from rfl]
    omega
  · intro e he
    have hb := t2 e he
    generalize maxRules num_rules = m at hb ⊢
    exact ⟨hb, whileBody_reduced_iff m e.1 e.2 hb⟩

set_option maxRecDepth 100000 in
/-- C4 on the two-element stream of C5: the final counter is 258 and two rules
were recorded. -/
theorem rule_lines_are_257_to_final_witness :
    ∃ d, decode 1 2 [152, 102, 34, 97, 152, 128] = .ok d ∧ d.state.newcode = 258 ∧
      (ruleLines d.state.rule d.state.newcode).length = 2 ∧
      countReduced (decodeTrace 1 2 [152, 102, 34, 97, 152, 128]) = 2 := by
  cases h : decode 1 2 [152, 102, 34, 97, 152, 128] with
  | error e =>
    have h' : (decode 1 2 [152, 102, 34, 97, 152, 128]).toBool = true := by decide
    rw [h] at h'
    exact absurd h' (by simp [Except.toBool])
  | ok d =>
    have hn : (match decode 1 2 [152, 102, 34, 97, 152, 128] with
        | .ok d => d.state.newcode
        | .error _ => 0) = 258 := by decide
    rw [h] at hn
    simp only at hn
    obtain ⟨-, -, h3, -, h5, -⟩ :=
      rule_lines_are_257_to_final 1 2 [152, 102, 34, 97, 152, 128] d "" h
    rw [hn] at h3 h5
    exact ⟨d, rfl, hn, by rw [hn]; exact h3, h5.symm⟩

set_option maxRecDepth 100000 in
/-- C5 fails as stated: for `seq_len = 2` and the stream of two elements
`open leaf 97, open leaf 98, close, close`, whether the leaves are written at
the widths the decoder reads (9 and 9 bits) or at the widths the specification
names (8 then 9 bits), the output is not `R257:97,98` followed by `SEQ:257,257`. -/
theorem two_pair_elements_do_not_give_seq_257_257 :
    unreadBits (createBitin [152, 102, 34, 97, 152, 128]) =
      pairElement (bits 256) ++ pairElement (bits 257) ++ [0, 0, 0, 0] ∧
    (DecodeCFG 1 2 [152, 102, 34, 97, 152, 128] "").2 ≠ "R257:97,98\nSEQ:257,257\n" ∧
    unreadBits (createBitin [176, 216, 137, 134, 98, 0]) =
      pairElement 8 ++ pairElement 9 ++ [0, 0, 0, 0, 0, 0] ∧
    (DecodeCFG 1 2 [176, 216, 137, 134, 98, 0] "").2 ≠ "R257:97,98\nSEQ:257,257\n" := by
  decide

set_option maxRecDepth 100000 in
/-- C5 as amended: for `seq_len = 2`, every `num_rules` whose table holds the
slots up to 258 and every text already in the output, the stream of two elements
`open leaf 97, open leaf 98, close, close`, leaves on 9 bits, gives the two rule
lines `R257:97,98` and `R258:97,98` and the line `SEQ:257,258`; the output
`R257:97,98`, `SEQ:257,257` is what the stream of that element followed by the
element `open leaf 257, close` gives. -/
theorem two_pair_elements_give_two_rules (num_rules : Nat) (out : String)
    (hcap : 259 ≤ maxRules num_rules) :
    unreadBits (createBitin [152, 102, 34, 97, 152, 128]) =
      pairElement (bits 256) ++ pairElement (bits 257) ++ [0, 0, 0, 0] ∧
    DecodeCFG num_rules 2 [152, 102, 34, 97, 152, 128] out =
      (.ok (), out ++ "R257:97,98\nR258:97,98\nSEQ:257,258\n") ∧
    unreadBits (createBitin [152, 102, 35, 1, 0]) =
      pairElement (bits 256) ++ leafElement 257 (bits 257) ++ [0, 0, 0, 0, 0, 0, 0] ∧
    DecodeCFG num_rules 2 [152, 102, 35, 1, 0] out =
      (.ok (), out ++ "R257:97,98\nSEQ:257,257\n") :=
  ⟨by decide,
    DecodeCFG_of_referenceText num_rules 2 _ out 259 _ hcap (by omega) (by decide),
    by decide,
    DecodeCFG_of_referenceText num_rules 2 _ out 259 _ hcap (by omega) (by decide)⟩

set_option maxRecDepth 100000 in
/-- C5 as amended, at `num_rules = 1` (capacity 1025) and an empty output. -/
theorem two_pair_elements_give_two_rules_witness :
    259 ≤ maxRules 1 ∧
    DecodeCFG 1 2 [152, 102, 34, 97, 152, 128] "" =
      (.ok (), "R257:97,98\nR258:97,98\nSEQ:257,258\n") ∧
    DecodeCFG 1 2 [152, 102, 35, 1, 0] "" = (.ok (), "R257:97,98\nSEQ:257,257\n") :=
  ⟨by decide, (two_pair_elements_give_two_rules 1 "" (by decide)).2.1,
    (two_pair_elements_give_two_rules 1 "" (by decide)).2.2.2⟩

/-- C6 fails as stated: `bits(256)` is not 8. -/
theorem bits_256_is_not_8 : ¬ (bits 256 = 8 ∧ bits 257 = 9) := by
  decide

/-- C6 as amended: `bits(256) = 9` and `bits(257) = 9`; the leaf width is 9 bits
for every counter value from 256 to 511, so the first rule assignment does not
change it, and it first grows, to 10 bits, when the counter reaches 512. -/
theorem leaf_width_is_9_from_256 :
    bits 256 = 9 ∧ bits 257 = 9 ∧ (∀ c, 256 ≤ c → c < 512 → bits c = 9) ∧
      bits 512 = 10 := by
  refine ⟨by decide, by decide, ?_, by decide⟩
  intro c h1 h2
  rw [bits_eq_size c (by simp only [UINT_MOD]; omega)]
  apply le_antisymm
  · rw [Nat.size_le]; omega
  · rw [← Nat.lt_iff_add_one_le, Nat.lt_size]; omega

/-- C6 as amended, at the counter value 300. -/
theorem leaf_width_is_9_from_256_witness : (256 ≤ 300 ∧ 300 < 512) ∧ bits 300 = 9 :=
  ⟨⟨by decide, by decide⟩, leaf_width_is_9_from_256.2.2.1 300 (by decide) (by decide)⟩

/-- C7: for every reader state with `r` buffered unread bits and `k` bytes left
in the stream and every `n`, `readBits(n)` ends with the end-of-input fault if
and only if `n > r + 8k`, and no other fault occurs; otherwise it returns a
value, having pulled `ceil((n - r) / 8)` bytes (none when `n ≤ r`). `readBits(0)`
returns 0 and leaves the reader as it is, and an iteration pulls no byte while
the buffered byte has an unread bit. -/
theorem readBits_fails_iff_short (bitin : BITIN) (n : Int) :
    (readBits bitin n = .error .unexpectedEndOfFile ↔
      ((bitin.bitsRemaining + 8 * bitin.file.length : Nat) : Int) < n) ∧
    (∀ e, readBits bitin n = .error e → e = .unexpectedEndOfFile) ∧
    (n ≤ ((bitin.bitsRemaining + 8 * bitin.file.length : Nat) : Int) →
      ∃ v b', readBits bitin n = .ok (v, b') ∧
        b'.bitsRemaining + 8 * b'.file.length + n.toNat =
          bitin.bitsRemaining + 8 * bitin.file.length ∧
        b'.file = bitin.file.drop ((n.toNat - bitin.bitsRemaining + 7) / 8)) ∧
    readBits bitin 0 = .ok (0, bitin) ∧
    (∀ acc v b', bitin.bitsRemaining ≠ 0 → readBitsBody bitin acc = .ok (v, b') →
      b'.file = bitin.file) := by
  refine ⟨⟨fun h => ?_, fun h => readBits_eof bitin n h⟩, fun e h => readBits_error _ _ _ h,
    fun h => readBits_total bitin n h, ?_, ?_⟩
  · by_contra hc
    obtain ⟨v, b', h1, -⟩ := readBits_total bitin n (by
      show n ≤ ((bitin.bitsRemaining + 8 * bitin.file.length : Nat) : Int)
      omega)
    rw [h1] at h
    exact absurd h (by simp)
  · simp [readBits, readBitsLoop, toInt32]
  · intro acc v b' hz h
    simp only [readBitsBody, hz, if_false, Except.ok.injEq, Prod.mk.injEq] at h
    rw [← h.2]

/-- C7 at concrete inputs: one byte left and nothing buffered, 9 bits asked for
and then 8. -/
theorem readBits_fails_iff_short_witness :
    readBits (createBitin [255]) 9 = .error .unexpectedEndOfFile ∧
    ∃ v b', readBits (createBitin [255]) 8 = .ok (v, b') ∧ b'.file = [] :=
  ⟨(readBits_fails_iff_short (createBitin [255]) 9).1.mpr (by decide),
    by
      obtain ⟨v, b', h1, -, h3⟩ :=
        (readBits_fails_iff_short (createBitin [255]) 8).2.2.1 (by decide)
      exact ⟨v, b', h1, by rw [h3]; decide⟩⟩

/-- C8: when a run succeeds after consuming `m` bytes of the stream, the run
with the same header on any prefix of the stream shorter than `m` bytes ends
with the end-of-input fault and writes nothing: it neither succeeds, nor
reports an exhausted rule table, nor pops an empty stack. -/
theorem truncated_stream_ends_at_end_of_input (num_rules seq_len : Nat)
    (file : List Nat) (d : Decoded) (pre more : List Nat) (out : String)
    (h : decode num_rules seq_len file = .ok d) (hf : file = pre ++ more)
    (hlen : pre.length < file.length - d.state.bitin.file.length) :
    (DecodeCFG num_rules seq_len file out).1 = .ok () ∧
    DecodeCFG num_rules seq_len pre out = (.error .unexpectedEndOfFile, out) := by
  have hp := decode_truncated num_rules seq_len file d h pre more hf hlen
  constructor
  · unfold DecodeCFG
    rw [h]
  · unfold DecodeCFG
    rw [hp]

set_option maxRecDepth 100000 in
/-- C8 on the two-element stream of C5, which consumes six bytes, cut to three. -/
theorem truncated_stream_ends_at_end_of_input_witness :
    (DecodeCFG 1 2 [152, 102, 34, 97, 152, 128] "").1 = .ok () ∧
    DecodeCFG 1 2 [152, 102, 34] "" = (.error .unexpectedEndOfFile, "") := by
  cases h : decode 1 2 [152, 102, 34, 97, 152, 128] with
  | error e =>
    have h' : (decode 1 2 [152, 102, 34, 97, 152, 128]).toBool = true := by decide
    rw [h] at h'
    exact absurd h' (by simp [Except.toBool])
  | ok d =>
    have hn : (match decode 1 2 [152, 102, 34, 97, 152, 128] with
        | .ok d => d.state.bitin.file.length
        | .error _ => 6) = 0 := by decide
    rw [h] at hn
    simp only at hn
    exact truncated_stream_ends_at_end_of_input 1 2 [152, 102, 34, 97, 152, 128] d
      [152, 102, 34] [97, 152, 128] "" h rfl (by rw [hn]; decide)

/-- C9: with the capacity `max_rules = num_rules + 1024` (in `uint` arithmetic),
a close bit that does not end an element ends the run with the rule-table fault
if and only if the incremented counter is not below the capacity, and it does so
whatever the stack and the table hold, before either is accessed; every rule
slot an iteration changes, in particular in any run, is the slot of the
incremented counter and lies strictly below the capacity. -/
theorem rule_table_exhausted_iff (num_rules : Nat) (s : DecState) (rest : List Nat)
    (h0 : unreadBits s.bitin = 0 :: rest) (he : (s.exc + UINT_MOD - 1) % UINT_MOD ≠ 0) :
    (whileBody (maxRules num_rules) s = .error .exceededRuleArray ↔
      maxRules num_rules ≤ s.newcode + 1) ∧
    (maxRules num_rules ≤ s.newcode + 1 → ∀ stack sp rule,
      whileBody (maxRules num_rules) { s with stack := stack, sp := sp, rule := rule } =
        .error .exceededRuleArray) ∧
    (∀ st, whileBody (maxRules num_rules) s = .ok st → ∀ j, st.state.rule j ≠ s.rule j →
      st.isReduced = true ∧ j = s.newcode + 1 ∧ j < maxRules num_rules) ∧
    (∀ seq_len file, ∀ e ∈ decodeTrace num_rules seq_len file,
      ∀ j, e.2.state.rule j ≠ e.1.rule j →
        e.2.isReduced = true ∧ j = e.1.newcode + 1 ∧ j < maxRules num_rules) ∧
    (num_rules + 1024 < UINT_MOD → maxRules num_rules = num_rules + 1024) := by
  refine ⟨?_, ?_, ?_, ?_, fun h => Nat.mod_eq_of_lt h⟩
  · generalize maxRules num_rules = m
    exact whileBody_close_exceeded_iff m s rest h0 he
  · generalize maxRules num_rules = m
    intro hc stack sp rule
    exact (whileBody_close_exceeded_iff m { s with stack := stack, sp := sp, rule := rule }
      rest h0 he).mpr hc
  · generalize maxRules num_rules = m
    intro st h j hj
    exact whileBody_rule_change m s st h j hj
  · intro seq_len file e hmem j hj
    have hb := (decode_trace num_rules seq_len file).2.1 e hmem
    generalize maxRules num_rules = m at hb ⊢
    exact whileBody_rule_change m e.1 e.2 hb j hj

/-- C9 at a concrete state: capacity 1024, counter 1023, next bit 0, two groups open. -/
theorem rule_table_exhausted_iff_witness :
    (unreadBits (sampleStateAt [0] 1023).bitin = 0 :: [0, 0, 0, 0, 0, 0, 0] ∧
      maxRules 0 = 1024) ∧
    whileBody (maxRules 0) (sampleStateAt [0] 1023) = .error .exceededRuleArray :=
  ⟨⟨by decide, by decide⟩,
    (rule_table_exhausted_iff 0 (sampleStateAt [0] 1023) [0, 0, 0, 0, 0, 0, 0]
      (by decide) (by decide)).1.mpr (by decide)⟩

/-- C10: on every successful run the text written ends with the line `SEQ:`
followed by the `seq_len` entries of `compressed_seq` separated by single commas
with nothing after the last; the entries are, in order, the stack tops at the
iterations that ended an element. For `seq_len = 0` no iteration runs, the
reader is untouched, no rule line is written and the line is `SEQ:` alone;
such a run succeeds whenever the table holds the 257 terminal slots. -/
theorem seq_line_lists_the_roots (num_rules seq_len : Nat) (file : List Nat) (d : Decoded)
    (out : String) (hs : seq_len < UINT_MOD) (h : decode num_rules seq_len file = .ok d) :
    DecodeCFG num_rules seq_len file out =
      (.ok (), out ++ (String.join (ruleLines d.state.rule d.state.newcode) ++
        ("SEQ:" ++ String.intercalate "," (d.compressed_seq.map fmtD) ++ "\n"))) ∧
    d.compressed_seq.length = seq_len ∧
    d.compressed_seq = closedRoots (decodeTrace num_rules seq_len file) ∧
    (seq_len = 0 →
      decodeTrace num_rules seq_len file = [] ∧ d.state.bitin = createBitin file ∧
      DecodeCFG num_rules seq_len file out = (.ok (), out ++ "SEQ:\n")) ∧
    (257 ≤ maxRules num_rules → ∀ (file' : List Nat) (out' : String),
      DecodeCFG num_rules 0 file' out' = (.ok (), out' ++ "SEQ:\n")) := by
  obtain ⟨-, -, t3⟩ := decode_trace num_rules seq_len file
  obtain ⟨hF, hroots, hlen⟩ := t3 d h
  have hout : DecodeCFG num_rules seq_len file out =
      (.ok (), out ++ (String.join (ruleLines d.state.rule d.state.newcode) ++
        ("SEQ:" ++ String.intercalate "," (d.compressed_seq.map fmtD) ++ "\n"))) := by
    unfold DecodeCFG
    rw [h]
    show (Except.ok (), out ++ writeOutput seq_len d) = _
    unfold writeOutput
    rw [seqLine_eq seq_len hs d.compressed_seq hlen]
  refine ⟨hout, hlen, hroots, ?_, fun h257 file' out' =>
    DecodeCFG_of_referenceText num_rules 0 file' out' 0 _ (Nat.zero_le _) h257
      (referenceText_zero 0 file')⟩
  intro hz
  subst hz
  have htr : decodeTrace num_rules 0 file = [] := by
    unfold decodeTrace
    generalize maxRules num_rules = m
    cases initState m file with
    | error e => rfl
    | ok s0 => rfl
  have hnil : d.compressed_seq = [] := List.length_eq_zero.mp hlen
  refine ⟨htr, ?_, ?_⟩
  · obtain ⟨s0, h1, h2⟩ := decode_ok _ _ _ _ h
    generalize maxRules num_rules = m at h1 h2
    obtain ⟨hb, -, -, -⟩ := initState_ok _ _ _ h1
    simp only [decodeSeq, Except.ok.injEq, Prod.mk.injEq] at h2
    rw [← h2.2]; exact hb
  · rw [hout, hF, htr, hnil]
    rfl

set_option maxRecDepth 100000 in
/-- C10 on the two-element stream of C5. -/
theorem seq_line_lists_the_roots_witness :
    ∃ d, decode 1 2 [152, 102, 34, 97, 152, 128] = .ok d ∧ d.compressed_seq = [257, 258] ∧
      DecodeCFG 1 2 [152, 102, 34, 97, 152, 128] "" =
        (.ok (), "" ++ (String.join (ruleLines d.state.rule d.state.newcode) ++
          ("SEQ:" ++ String.intercalate "," (d.compressed_seq.map fmtD) ++ "\n"))) := by
  cases h : decode 1 2 [152, 102, 34, 97, 152, 128] with
  | error e =>
    have h' : (decode 1 2 [152, 102, 34, 97, 152, 128]).toBool = true := by decide
    rw [h] at h'
    exact absurd h' (by simp [Except.toBool])
  | ok d =>
    have hn : (match decode 1 2 [152, 102, 34, 97, 152, 128] with
        | .ok d => d.compressed_seq
        | .error _ => []) = [257, 258] := by decide
    rw [h] at hn
    simp only at hn
    exact ⟨d, rfl, hn,
      (seq_line_lists_the_roots 1 2 [152, 102, 34, 97, 152, 128] d "" (by decide) h).1⟩

/-- C12: a run that ends with a fault (end of input, rule-table exhaustion or
any other) leaves the output stream as it found it: no rule line and no `SEQ`
line is written; text is appended to the output only by a run whose decoding
phase has produced all `seq_len` roots. -/
theorem output_is_all_or_nothing (num_rules seq_len : Nat) (file : List Nat) (out : String) :
    (∀ e, (DecodeCFG num_rules seq_len file out).1 = .error e →
      decode num_rules seq_len file = .error e ∧
      (DecodeCFG num_rules seq_len file out).2 = out) ∧
    ((DecodeCFG num_rules seq_len file out).1 = .ok () →
      ∃ d, decode num_rules seq_len file = .ok d ∧ d.compressed_seq.length = seq_len ∧
        (DecodeCFG num_rules seq_len file out).2 = out ++ writeOutput seq_len d) ∧
    ((DecodeCFG num_rules seq_len file out).2 ≠ out →
      (DecodeCFG num_rules seq_len file out).1 = .ok ()) := by
  have hlen := (decode_trace num_rules seq_len file).2.2
  unfold DecodeCFG
  generalize decode num_rules seq_len file = r at hlen ⊢
  cases r with
  | error e0 =>
    refine ⟨fun e h => ?_, fun h => ?_, fun h => ?_⟩
    · simp only [Except.error.injEq] at h
      subst h
      exact ⟨rfl, rfl⟩
    · exact absurd h (by simp)
    · exact absurd rfl h
  | ok d =>
    refine ⟨fun e h => ?_, fun _ => ⟨d, rfl, (hlen d rfl).2.2, rfl⟩, fun _ => rfl⟩
    exact absurd h (by simp)

set_option maxRecDepth 100000 in
/-- C12 on the two-element stream of C5 cut to three bytes, with text already
in the output. -/
theorem output_is_all_or_nothing_witness :
    (DecodeCFG 1 2 [152, 102, 34] "kept").1 = .error .unexpectedEndOfFile ∧
    (DecodeCFG 1 2 [152, 102, 34] "kept").2 = "kept" :=
  ⟨by decide,
    ((output_is_all_or_nothing 1 2 [152, 102, 34] "kept").1 .unexpectedEndOfFile
      (by decide)).2⟩

/-- C13: `bits(0) = 0`, and for every `uint` value `n > 0`, `bits(n)` is the
unique `b` with `2^(b-1) ≤ n < 2^b`, the length of the binary representation of
`n`; it is at most 32, and the halving loop ends within `bits(n)` iterations
(any larger iteration bound gives the same result). -/
theorem bits_is_binary_length :
    bits 0 = 0 ∧
    ∀ n, 0 < n → n < UINT_MOD →
      2 ^ (bits n - 1) ≤ n ∧ n < 2 ^ bits n ∧ bits n ≤ 32 ∧
      (∀ b, 2 ^ (b - 1) ≤ n → n < 2 ^ b → b = bits n) ∧
      (∀ fuel, bits n ≤ fuel → bitsLoop fuel n 0 = bits n) := by
  refine ⟨by decide, fun n h0 h => ?_⟩
  obtain ⟨h1, h2, h3⟩ := bits_bounds n h0 h
  refine ⟨h1, h2, h3, fun b hb1 hb2 => bits_unique n b h hb1 hb2, fun fuel hf => ?_⟩
  rw [bits_eq_size n h] at hf h3 ⊢
  have := bitsLoop_of_size fuel n 0 hf (by simp only [UINT_MOD]; omega)
  simpa using this

/-- C13 at `n = 256`. -/
theorem bits_is_binary_length_witness :
    (0 < 256 ∧ 256 < UINT_MOD) ∧ 2 ^ (bits 256 - 1) ≤ 256 ∧ 256 < 2 ^ bits 256 ∧
      bits 256 ≤ 32 :=
  ⟨⟨by decide, by decide⟩,
    (bits_is_binary_length.2 256 (by decide) (by decide)).1,
    (bits_is_binary_length.2 256 (by decide) (by decide)).2.1,
    (bits_is_binary_length.2 256 (by decide) (by decide)).2.2.1⟩

/-- C14 fails as stated: 32 bits read from the bytes `FF FF FF FF` give -1. -/
theorem readBits_32_can_be_negative :
    32 ≤ unread (createBitin [255, 255, 255, 255]) ∧
    readBits (createBitin [255, 255, 255, 255]) 32 =
      .ok (-1, { file := [], currentByte := 255, bitsRemaining := 0 }) := by
  decide

/-- C14 as amended: for `n = 32` and every stream with at least 32 unread bits,
`readBits` returns the `int` whose 32-bit two's complement pattern is those bits,
most significant first, and advances by 32 bits: the unsigned value `u` of the
bits when the first bit read is 0, and `u - 2^32`, a negative number, when the
first bit read is 1. -/
theorem readBits_32_is_twos_complement (bitin : BITIN) (hu : 32 ≤ unread bitin) :
    ∃ v b', readBits bitin 32 = .ok (v, b') ∧
      unreadBits b' = (unreadBits bitin).drop 32 ∧
      valMSB ((unreadBits bitin).take 32) < 2 ^ 32 ∧
      ((unreadBits bitin).head? = some 0 →
        v = (valMSB ((unreadBits bitin).take 32) : Int)) ∧
      ((unreadBits bitin).head? = some 1 →
        v = (valMSB ((unreadBits bitin).take 32) : Int) - 2 ^ 32 ∧ v < 0) := by
  obtain ⟨b', h1, h2⟩ := readBits_value bitin 32 hu
  have hlen : ((unreadBits bitin).take 32).length = 32 := by
    rw [List.length_take, unreadBits_length]; omega
  have hbit : ∀ x ∈ (unreadBits bitin).take 32, x ≤ 1 :=
    fun x hx => unreadBits_le_one bitin x (List.mem_of_mem_take hx)
  have hlt := valMSB_lt _ hbit
  rw [hlen] at hlt
  refine ⟨_, b', h1, h2, hlt, ?_, ?_⟩
  all_goals
    intro hh
    cases hu' : unreadBits bitin with
    | nil => simp [hu'] at hh
    | cons x rest =>
      simp only [hu'] at hh hlen hlt hbit ⊢
      simp only [List.head?_cons, Option.some.injEq] at hh
      subst hh
      simp only [List.take_succ_cons, List.length_cons] at hlen hlt hbit ⊢
      have hr := valMSB_lt (rest.take 31) (fun y hy => hbit y (by simp [hy]))
      have hl : (rest.take 31).length = 31 := by omega
      rw [hl] at hr
      rw [valMSB_cons, hl] at hlt ⊢
      simp only [toInt32, UINT_MOD]
      split_ifs with hc
      all_goals omega

/-- C14 as amended, on the bytes `80 00 00 01`, whose first bit is 1. -/
theorem readBits_32_is_twos_complement_witness :
    32 ≤ unread (createBitin [128, 0, 0, 1]) ∧
    ∃ v b', readBits (createBitin [128, 0, 0, 1]) 32 = .ok (v, b') ∧ v = -2147483647 := by
  refine ⟨by decide, ?_⟩
  obtain ⟨v, b', h1, -, -, -, h5⟩ :=
    readBits_32_is_twos_complement (createBitin [128, 0, 0, 1]) (by decide)
  have e : valMSB ((unreadBits (createBitin [128, 0, 0, 1])).take 32) = 2147483649 := by
    decide
  obtain ⟨h6, -⟩ := h5 (by decide)
  rw [e] at h6
  exact ⟨v, b', h1, by rw [h6]; norm_num⟩

set_option maxRecDepth 100000 in
/-- C16: for the header value `num_rules = 2^32 - 1024` the sum `num_rules + 1024`
wraps to 0, and for `num_rules = 2^32 - 768` to 256: the table then has fewer
than 257 slots and the first initialisation loop writes outside it. -/
theorem init_capacity_wraps_below_257 :
    maxRules 4294966272 = 0 ∧
    DecodeCFG 4294966272 0 [] "" = (.error .ruleInitOutOfBounds, "") ∧
    maxRules 4294966528 = 256 ∧
    DecodeCFG 4294966528 0 [] "" = (.error .ruleInitOutOfBounds, "") := by
  decide

/-- C15: every element decode starts its loop from an empty stack and an
open-group counter of 0; every iteration that leaves the loop (the close bit
that brings the counter to zero) leaves exactly one entry on the stack, and that
entry is the root of the element, the value appended to `compressed_seq`. -/
theorem element_leaves_single_root (num_rules : Nat) (s : DecState) :
    (∀ e, (elementTrace (maxRules num_rules) s).head? = some e →
      e.1 = { s with exc := 0, sp := 0 }) ∧
    (∀ e ∈ elementTrace (maxRules num_rules) s, ∀ s', e.2 = .closed s' →
      s'.sp = 1 ∧ s'.exc = 0 ∧ s'.stack = e.1.stack) ∧
    (∀ root s', decodeElement (maxRules num_rules) s = .ok (root, s') →
      s'.sp = 1 ∧ s'.exc = 0 ∧ root = s'.stack 0 ∧
      ∃ s1, (elementTrace (maxRules num_rules) s).getLast? = some (s1, .closed s')) ∧
    (∀ seq_len file d, decode num_rules seq_len file = .ok d →
      d.compressed_seq = (decodeElements num_rules seq_len file).map (fun x => x.2.1) ∧
      ∀ x ∈ decodeElements num_rules seq_len file,
        decodeElement (maxRules num_rules) x.1 = .ok (x.2.1, x.2.2)) := by
  have hm : maxRules num_rules < UINT_MOD := Nat.mod_lt _ (by decide)
  refine ⟨?_, ?_, ?_, ?_⟩
  · intro e he
    exact whileTrace_head _ _ _ e he
  · intro e he s' hs'
    have hb := (element_balanced _ hm s).1 e he
    have hw := elementTrace_step _ s e he
    rw [hs'] at hw
    obtain ⟨-, -, h3, h4, h5, -⟩ := balanced_closed _ hm e.1 s' hb hw
    exact ⟨h3, h4, h5⟩
  · intro root s' h
    obtain ⟨hw, ht⟩ := decodeElement_ok _ s s' root h
    obtain ⟨h1, h2⟩ := (element_balanced _ hm s).2 s' hw
    obtain ⟨h3, -, -⟩ := top_ok _ _ _ _ ht
    rw [h1] at h3
    exact ⟨h1, h2, h3, whileTrace_closed_last _ _ _ s' hw⟩
  · intro seq_len file d h
    exact ⟨((decodeElements_spec num_rules seq_len file).2 d h).1,
      (decodeElements_spec num_rules seq_len file).1⟩

/-- C15 on one element `open 97, open 98, close, close` read at counter 256. -/
theorem element_leaves_single_root_witness :
    ∃ root s', decodeElement (maxRules 0) (sampleState [152, 102, 34]) = .ok (root, s') ∧
      s'.sp = 1 ∧ s'.exc = 0 ∧ root = s'.stack 0 := by
  cases h : decodeElement (maxRules 0) (sampleState [152, 102, 34]) with
  | error e =>
    have h' : (decodeElement (maxRules 0) (sampleState [152, 102, 34])).toBool = true := by
      decide
    rw [h] at h'
    exact absurd h' (by simp [Except.toBool])
  | ok r =>
    obtain ⟨h1, h2, h3, -⟩ :=
      (element_leaves_single_root 0 (sampleState [152, 102, 34])).2.2.1 r.1 r.2 h
    exact ⟨r.1, r.2, rfl, h1, h2, h3⟩

/-- C18: an iteration pushes a leaf exactly when the bit it reads is an open
bit; every successfully decoded element has as many such iterations as
iterations reading a close bit (the reducing ones and the one ending it) and
records one rule fewer than it reads leaves; on every successful run the final
counter `F` satisfies `F - 256 = (leaf references read) - seq_len`. -/
theorem opens_match_closes (num_rules : Nat) :
    (∀ s, ∀ e ∈ elementTrace (maxRules num_rules) s,
      (e.2.isPushed = true ↔ (unreadBits e.1.bitin).head? = some 1)) ∧
    (∀ s root s', decodeElement (maxRules num_rules) s = .ok (root, s') →
      countPushed (elementTrace (maxRules num_rules) s) =
        countReduced (elementTrace (maxRules num_rules) s) +
          countClosed (elementTrace (maxRules num_rules) s) ∧
      countClosed (elementTrace (maxRules num_rules) s) = 1 ∧
      countReduced (elementTrace (maxRules num_rules) s) =
        countPushed (elementTrace (maxRules num_rules) s) - 1 ∧
      s'.newcode = s.newcode + countReduced (elementTrace (maxRules num_rules) s)) ∧
    (∀ seq_len file d, decode num_rules seq_len file = .ok d →
      (∀ x ∈ decodeElements num_rules seq_len file,
        decodeElement (maxRules num_rules) x.1 = .ok (x.2.1, x.2.2)) ∧
      (decodeElements num_rules seq_len file).length = seq_len ∧
      seq_len ≤ countPushed (decodeTrace num_rules seq_len file) ∧
      d.state.newcode - 256 = countPushed (decodeTrace num_rules seq_len file) - seq_len ∧
      d.state.newcode + seq_len = 256 + countPushed (decodeTrace num_rules seq_len file)) := by
  have hm : maxRules num_rules < UINT_MOD := Nat.mod_lt _ (by decide)
  refine ⟨?_, ?_, ?_⟩
  · intro s e he
    exact whileBody_pushed_iff _ e.1 e.2 (elementTrace_step _ s e he)
  · intro s root s' h
    obtain ⟨h1, h2, h3⟩ := element_count _ hm s s' root h
    exact ⟨by omega, h2, by omega, h3⟩
  · intro seq_len file d h
    have hc := decodeTrace_count num_rules seq_len file d h
    obtain ⟨hF, -, -⟩ := (decode_trace num_rules seq_len file).2.2 d h
    simp only [CHAR_SIZE] at hF
    exact ⟨(decodeElements_spec num_rules seq_len file).1,
      ((decodeElements_spec num_rules seq_len file).2 d h).2, by omega, by omega, by omega⟩

set_option maxRecDepth 100000 in
/-- C18 on the two-element stream of C5: four leaves, two elements, two rules. -/
theorem opens_match_closes_witness :
    ∃ d, decode 1 2 [152, 102, 34, 97, 152, 128] = .ok d ∧
      countPushed (decodeTrace 1 2 [152, 102, 34, 97, 152, 128]) = 4 ∧
      d.state.newcode - 256 = 4 - 2 := by
  cases h : decode 1 2 [152, 102, 34, 97, 152, 128] with
  | error e =>
    have h' : (decode 1 2 [152, 102, 34, 97, 152, 128]).toBool = true := by decide
    rw [h] at h'
    exact absurd h' (by simp [Except.toBool])
  | ok d =>
    have hn : countPushed (decodeTrace 1 2 [152, 102, 34, 97, 152, 128]) = 4 := by decide
    have h4 := ((opens_match_closes 1).2.2 2 [152, 102, 34, 97, 152, 128] d h).2.2.2.1
    rw [hn] at h4
    exact ⟨d, rfl, hn, h4⟩

/-- C17: at the start of every iteration of an element decode the stack depth
equals the open-group counter (both below 2^32), and it still does after every
iteration that does not end the element (the ending one leaves depth 1 and
counter 0). For an element whose first bit is open, every reducing close bit
finds at least two entries and the decode never pops from an empty stack. For an
element whose first bit is close, the counter wraps instead of reaching zero:
no iteration completes, the element is not ended, and the decode reports
rule-table exhaustion (counter + 1 at capacity) or pops from an empty stack. -/
theorem stack_depth_equals_open_groups (num_rules : Nat) (s : DecState) :
    (∀ e ∈ elementTrace (maxRules num_rules) s,
      e.1.sp = e.1.exc ∧ e.1.sp < UINT_MOD ∧
      StepInv (fun s' => s'.sp = s'.exc) (fun s' => s'.sp = 1 ∧ s'.exc = 0) e.2) ∧
    (∀ rest, unreadBits s.bitin = 1 :: rest →
      (∀ e ∈ elementTrace (maxRules num_rules) s, e.2.isReduced = true → 2 ≤ e.1.sp) ∧
      decodeElement (maxRules num_rules) s ≠ .error .stackUnderflow) ∧
    (∀ rest, unreadBits s.bitin = 0 :: rest →
      elementTrace (maxRules num_rules) s = [] ∧
      (∀ st, whileBody (maxRules num_rules) { s with exc := 0, sp := 0 } ≠ .ok st) ∧
      (maxRules num_rules ≤ s.newcode + 1 →
        decodeElement (maxRules num_rules) s = .error .exceededRuleArray) ∧
      (s.newcode + 1 < maxRules num_rules →
        decodeElement (maxRules num_rules) s = .error .stackUnderflow)) := by
  have hm : maxRules num_rules < UINT_MOD := Nat.mod_lt _ (by decide)
  generalize maxRules num_rules = m at hm
  refine ⟨?_, ?_, ?_⟩
  · intro e he
    have hb := (element_balanced m hm s).1 e he
    have hw := elementTrace_step m s e he
    have hs := balanced_step m hm e.1 e.2 hb hw
    refine ⟨hb.1.symm, lt_of_le_of_lt hb.2 hm, ?_⟩
    cases hst : e.2 with
    | pushed s' => rw [hst] at hs; exact hs.1.symm
    | reduced s' => rw [hst] at hs; exact hs.1.symm
    | closed s' => rw [hst] at hs; exact hs
  · intro rest h1
    refine ⟨?_, decodeElement_no_underflow m hm s rest h1⟩
    intro e he hr
    have hw := elementTrace_step m s e he
    cases hst : e.2 with
    | pushed s' => rw [hst] at hr; simp [Step.isReduced] at hr
    | closed s' => rw [hst] at hr; simp [Step.isReduced] at hr
    | reduced s' =>
      rw [hst] at hw
      exact (whileBody_reduced_inv m e.1 s' hw).2.2.1
  · intro rest h0
    have hfc := whileBody_first_close m { s with exc := 0, sp := 0 } rest h0 rfl rfl
    have f1 : m ≤ s.newcode + 1 →
        whileBody m { s with exc := 0, sp := 0 } = .error .exceededRuleArray := hfc.1
    have f2 : s.newcode + 1 < m →
        whileBody m { s with exc := 0, sp := 0 } = .error .stackUnderflow := hfc.2
    have hfault : ∃ e0, whileBody m { s with exc := 0, sp := 0 } = .error e0 := by
      by_cases hc : m ≤ s.newcode + 1
      · exact ⟨_, f1 hc⟩
      · exact ⟨_, f2 (by omega)⟩
    obtain ⟨e0, hf⟩ := hfault
    refine ⟨(decodeElement_of_fault m s e0 hf).2, ?_, ?_, ?_⟩
    · intro st hst
      rw [hf] at hst
      exact absurd hst (by simp)
    · intro hc
      exact (decodeElement_of_fault m s _ (f1 hc)).1
    · intro hc
      exact (decodeElement_of_fault m s _ (f2 hc)).1

/-- C17 on an element whose first bit is a close bit, read at counter 256 with
capacity 1024. -/
theorem stack_depth_equals_open_groups_witness :
    unreadBits (sampleState [0]).bitin = 0 :: [0, 0, 0, 0, 0, 0, 0] ∧
    decodeElement (maxRules 0) (sampleState [0]) = .error .stackUnderflow :=
  ⟨by decide,
    ((stack_depth_equals_open_groups 0 (sampleState [0])).2.2 [0, 0, 0, 0, 0, 0, 0]
      (by decide)).2.2.2 (by decide)⟩

/-- C19: a successfully decoded element reads at least one leaf. If it reads
exactly one, it is `open, leaf, close`, its root is that leaf reference, and no
rule is recorded. If it reads two or more, its root is the value of the counter
at the end of the element, the identifier assigned last, which is above the
counter the element started with. Hence along the completed elements of a run
the roots of the elements with two or more leaves are strictly increasing. -/
theorem root_is_leaf_or_last_rule (num_rules : Nat) :
    (∀ s root s', decodeElement (maxRules num_rules) s = .ok (root, s') →
      1 ≤ countPushed (elementTrace (maxRules num_rules) s) ∧
      (countPushed (elementTrace (maxRules num_rules) s) = 1 →
        ∃ s1, elementTrace (maxRules num_rules) s =
            [({ s with exc := 0, sp := 0 }, .pushed s1), (s1, .closed s')] ∧
          root = s1.stack 0 ∧ s'.rule = s.rule ∧ s'.newcode = s.newcode ∧
          ∃ v b1 b2, readBits s.bitin 1 = .ok (v, b1) ∧ v ≠ 0 ∧
            readBits b1 (bits s.newcode : Int) = .ok (root, b2)) ∧
      (2 ≤ countPushed (elementTrace (maxRules num_rules) s) →
        root = (s'.newcode : Int) ∧ s.newcode < s'.newcode ∧
        s'.newcode + 1 = s.newcode + countPushed (elementTrace (maxRules num_rules) s))) ∧
    (∀ seq_len file, (decodeElements num_rules seq_len file).Pairwise (fun x y =>
      2 ≤ countPushed (elementTrace (maxRules num_rules) x.1) →
      2 ≤ countPushed (elementTrace (maxRules num_rules) y.1) → x.2.1 < y.2.1)) := by
  have hm : maxRules num_rules < UINT_MOD := Nat.mod_lt _ (by decide)
  refine ⟨?_, ?_⟩
  · intro s root s' h
    obtain ⟨c1, c2, c3⟩ := element_count _ hm s s' root h
    obtain ⟨r1, r2⟩ := element_root _ hm s s' root h
    refine ⟨by omega, fun h1 => element_single_leaf _ hm s s' root h h1, fun h2 => ?_⟩
    exact ⟨r2 (by omega), by omega, by omega⟩
  · intro seq_len file
    unfold decodeElements
    generalize maxRules num_rules = m at hm
    cases initState m file with
    | error e => exact List.Pairwise.nil
    | ok s0 =>
      refine List.Pairwise.imp_of_mem ?_ (seqElements_pairwise m hm seq_len s0)
      intro x y hx hy hxy h2x h2y
      have ex := (seqElements_spec m seq_len s0).1 x hx
      have ey := (seqElements_spec m seq_len s0).1 y hy
      obtain ⟨cx, -, cx3⟩ := element_count m hm _ _ _ ex
      obtain ⟨cy, -, cy3⟩ := element_count m hm _ _ _ ey
      obtain ⟨-, rx⟩ := element_root m hm _ _ _ ex
      obtain ⟨-, ry⟩ := element_root m hm _ _ _ ey
      rw [rx (by omega), ry (by omega)]
      exact_mod_cast (by omega : x.2.2.newcode < y.2.2.newcode)

/-- C19 on one element `open 97, open 98, close, close` read at counter 256:
its root is 257, the counter at its end. -/
theorem root_is_leaf_or_last_rule_witness :
    2 ≤ countPushed (elementTrace (maxRules 0) (sampleState [152, 102, 34])) ∧
    ∃ root s', decodeElement (maxRules 0) (sampleState [152, 102, 34]) = .ok (root, s') ∧
      root = (s'.newcode : Int) ∧ s'.newcode = 257 := by
  refine ⟨by decide, ?_⟩
  cases h : decodeElement (maxRules 0) (sampleState [152, 102, 34]) with
  | error e =>
    have h' : (decodeElement (maxRules 0) (sampleState [152, 102, 34])).toBool = true := by
      decide
    rw [h] at h'
    exact absurd h' (by simp [Except.toBool])
  | ok r =>
    have hn : (match decodeElement (maxRules 0) (sampleState [152, 102, 34]) with
        | .ok r => r.2.newcode
        | .error _ => 0) = 257 := by decide
    rw [h] at hn
    obtain ⟨h1, -, -⟩ :=
      ((root_is_leaf_or_last_rule 0).1 (sampleState [152, 102, 34]) r.1 r.2 h).2.2
        (by decide)
    exact ⟨r.1, r.2, rfl, h1, hn⟩

set_option maxRecDepth 100000 in
/-- C11 fails as stated: the one-element stream `open 300, open 257, close,
close` decodes successfully and gives the rule `R257:300,257`, whose children
are an identifier never assigned and the rule itself. -/
theorem unchecked_leaves_break_straight_line :
    unreadBits (createBitin [203, 48, 16]) =
      [1] ++ lowBits 300 9 ++ [1] ++ lowBits 257 9 ++ [0, 0] ++ [0, 0] ∧
    DecodeCFG 0 1 [203, 48, 16] "" = (.ok (), "R257:300,257\nSEQ:257\n") ∧
    ¬ GoodChild 256 300 ∧ ¬ GoodChild 256 257 := by
  decide

/-- C11 as amended: on every successful run in which every leaf reference read
is a terminal `0..255` or the identifier of a rule already recorded when it is
read, each child of every rule `r` in `257..F` is a terminal `0..255` or an
identifier in `257..r-1`; no child is `r` itself, a later rule, slot 256 or an
identifier never assigned. -/
theorem checked_leaves_give_straight_line (num_rules seq_len : Nat) (file : List Nat)
    (d : Decoded) (h : decode num_rules seq_len file = .ok d)
    (hl : (decodeTrace num_rules seq_len file).all leafOk = true) :
    ∀ r : Nat, 257 ≤ r → r ≤ d.state.newcode →
      ((0 ≤ (d.state.rule r).left ∧ (d.state.rule r).left ≤ 255) ∨
        (257 ≤ (d.state.rule r).left ∧ (d.state.rule r).left < (r : Int))) ∧
      ((0 ≤ (d.state.rule r).right ∧ (d.state.rule r).right ≤ 255) ∨
        (257 ≤ (d.state.rule r).right ∧ (d.state.rule r).right < (r : Int))) := by
  have hm : maxRules num_rules < UINT_MOD := Nat.mod_lt _ (by decide)
  obtain ⟨s0, h1, h2⟩ := decode_ok _ _ _ _ h
  unfold decodeTrace at hl
  generalize maxRules num_rules = m at h1 h2 hm hl
  rw [h1] at hl
  obtain ⟨-, i2, i3, -⟩ := initState_ok _ _ _ h1
  have hm257 : 257 ≤ m := by
    by_contra hc
    rw [initState_fault m file (by omega)] at h1
    exact absurd h1 (by simp)
  have h0 : StraightLine s0 := by
    refine ⟨by rw [i2]; decide, by omega, ?_⟩
    intro r hr1 hr2
    rw [i2] at hr2
    simp only [CHAR_SIZE] at hr2
    omega
  obtain ⟨-, -, hs⟩ := decodeSeq_straightLine m hm seq_len s0 h0 hl _ _ h2
  intro r hr1 hr2
  obtain ⟨g1, g2⟩ := hs r hr1 hr2
  unfold GoodChild at g1 g2
  constructor
  · rcases g1 with g | g
    · exact Or.inl g
    · exact Or.inr ⟨g.1, by omega⟩
  · rcases g2 with g | g
    · exact Or.inl g
    · exact Or.inr ⟨g.1, by omega⟩

set_option maxRecDepth 100000 in
/-- C11 as amended, on the two-element stream of C5: rule 258 has the
children 97 and 98. -/
theorem checked_leaves_give_straight_line_witness :
    (decodeTrace 1 2 [152, 102, 34, 97, 152, 128]).all leafOk = true ∧
    ∃ d, decode 1 2 [152, 102, 34, 97, 152, 128] = .ok d ∧ d.state.newcode = 258 ∧
      ((0 ≤ (d.state.rule 258).left ∧ (d.state.rule 258).left ≤ 255) ∨
        (257 ≤ (d.state.rule 258).left ∧ (d.state.rule 258).left < 258)) := by
  refine ⟨by decide, ?_⟩
  cases h : decode 1 2 [152, 102, 34, 97, 152, 128] with
  | error e =>
    have h' : (decode 1 2 [152, 102, 34, 97, 152, 128]).toBool = true := by decide
    rw [h] at h'
    exact absurd h' (by simp [Except.toBool])
  | ok d =>
    have hn : (match decode 1 2 [152, 102, 34, 97, 152, 128] with
        | .ok d => d.state.newcode
        | .error _ => 0) = 258 := by decide
    rw [h] at hn
    simp only at hn
    exact ⟨d, rfl, hn,
      (checked_leaves_give_straight_line 1 2 [152, 102, 34, 97, 152, 128] d h (by decide)
        258 (by decide) (by omega)).1⟩

/-- C20: no check bounds the stack depth. For every `num_rules` whose table
initialises (capacity `max_rules` at least 257) and every `seq_len ≥ 1`, a
stream of `max_rules + 1` open-bit/leaf pairs (all bits 1, leaves on 9 bits)
makes the first `max_rules` iterations push at the indices below the capacity
and the next one push at index `max_rules`, outside the stack: the run ends
there, with neither end of input nor rule-table exhaustion reported. -/
theorem stack_depth_is_unchecked (num_rules seq_len k : Nat)
    (hcap : 257 ≤ maxRules num_rules) (hseq : 1 ≤ seq_len)
    (hk : 10 * (maxRules num_rules + 1) ≤ 8 * k) :
    decode num_rules seq_len (List.replicate k 255) = .error .stackOverflow ∧
    (DecodeCFG num_rules seq_len (List.replicate k 255) "").1 = .error .stackOverflow ∧
    (decodeTrace num_rules seq_len (List.replicate k 255)).length = maxRules num_rules ∧
    (∀ e ∈ decodeTrace num_rules seq_len (List.replicate k 255),
      e.2.isPushed = true ∧ e.1.sp < maxRules num_rules) := by
  have hm : maxRules num_rules < UINT_MOD := Nat.mod_lt _ (by decide)
  have hd : decode num_rules seq_len (List.replicate k 255) = .error .stackOverflow ∧
      (decodeTrace num_rules seq_len (List.replicate k 255)).length = maxRules num_rules ∧
      (∀ e ∈ decodeTrace num_rules seq_len (List.replicate k 255),
        e.2.isPushed = true ∧ e.1.sp < maxRules num_rules) := by
    unfold decode decodeTrace
    generalize maxRules num_rules = m at hcap hk hm
    rw [initState_eq m _ hcap]
    obtain ⟨j, rfl⟩ : ∃ j, seq_len = j + 1 := ⟨seq_len - 1, by omega⟩
    obtain ⟨i1, i2, i3⟩ := decodeElement_all_open m hm (8 * k)
      { bitin := createBitin (List.replicate k 255), rule := initTable m,
        stack := fun _ => 0, sp := 0, exc := 0, newcode := CHAR_SIZE }
      (unreadBits_replicate_255 k) rfl hk
    simp only [decodeSeq, seqTrace, i1]
    exact ⟨trivial, i2, i3⟩
  refine ⟨hd.1, ?_, hd.2⟩
  unfold DecodeCFG
  rw [hd.1]

/-- C20 at `num_rules = 0`, capacity 1024: 1282 bytes `FF` hold 1025 open-bit/leaf
pairs. -/
theorem stack_depth_is_unchecked_witness :
    (257 ≤ maxRules 0 ∧ 10 * (maxRules 0 + 1) ≤ 8 * 1282) ∧
    decode 0 1 (List.replicate 1282 255) = .error .stackOverflow ∧
    (decodeTrace 0 1 (List.replicate 1282 255)).length = 1024 :=
  ⟨⟨by decide, by decide⟩,
    (stack_depth_is_unchecked 0 1 1282 (by decide) (by decide) (by decide)).1,
    (stack_depth_is_unchecked 0 1 1282 (by decide) (by decide) (by decide)).2.2.1⟩

end Decoder
